import Mathlib

/-!
Mark-and-sweep collector of `main.go`.

A shallow embedding of the toy virtual machine and its mark-and-sweep collector.

* Go pointers `*object` are addresses into an explicit memory `mem : List object`
  (`none` is `nil`, `some a` is the object stored at index `a`). Allocation appends to the
  memory, so a fresh address is `mem.length`. Objects are never removed from the memory:
  "freeing" an object is unlinking it from the `next`-chain that starts at `firstObject`,
  exactly as in the Go program.
* Every operation returns an `Outcome`: a normal return with the final state, a Go panic with
  the state at the moment of the panic, or `diverge` when a loop or recursion does not end
  (fuel exhausted).
* Printing does not change the state, but it has to return: `sweep` prints every object it
  frees with the verb `%s`, which calls the method `String`, and `String` recurses through
  `head` and `tail` without a visited check. The call is part of `sweepLoop` (`printFreed`).
* The counters `stackSize`, `numObjects`, `maxObjects` are Go `int`s. They count stack slots and
  heap objects, far below `2^62`, and are modelled by unbounded integers; `add`, which computes
  on user payloads, wraps at 64 bits.
-/

namespace MarkSweep

/-- A Go `*object`: `none` is `nil`, `some a` the object at address `a`. -/
abbrev Ptr := Option Nat

def intType : Int := 0

def pairType : Int := 1

def maxStackSize : Nat := 256

def initialGCThreshold : Int := 10

/-- The Go struct `object`. -/
structure object where
  marked : Bool
  typeFlag : Int
  value : Int
  head : Ptr
  tail : Ptr
  next : Ptr
deriving DecidableEq, Repr

/-- The zero value of the Go struct. -/
instance : Inhabited object := ⟨⟨false, 0, 0, none, none, none⟩⟩

/-- Process memory holding every object ever allocated; the address is the index. -/
abbrev Heap := List object

/-- Dereference of an address. Addresses handed out by the allocator are always in range; the
lookup is made total with the zero object. -/
def load (h : Heap) (a : Nat) : object := h.getD a default

/-- The Go struct `vm`, together with the memory its pointers point into. -/
structure vm where
  mem : Heap
  stack : List Ptr
  stackSize : Int
  firstObject : Ptr
  numObjects : Int
  maxObjects : Int
deriving DecidableEq, Repr

/-- The panics of the program: the three explicit `panic(...)` calls (both type panics are
`typeMismatch`) and the two run-time panics a Go program can raise here. -/
inductive Panic where
  | stackOverflow
  | stackUnderflow
  | typeMismatch
  | nilDeref
  | indexOutOfRange
deriving DecidableEq, Repr

/-- Result of running a piece of the program on a state of type `σ`. -/
inductive Outcome (σ : Type) (α : Type) where
  | ok (val : α) (st : σ)
  | panic (e : Panic) (st : σ)
  | diverge
deriving DecidableEq, Repr

/-- Result of a Go 64-bit signed addition. -/
def wrap64 (x : Int) : Int := (x + 9223372036854775808) % 18446744073709551616 - 9223372036854775808

/-- `newVM`: `make([]*object, maxStackSize)` needs a non-negative length, hence `Nat`. -/
def newVM (maxStackSize : Nat) (gcThreshold : Int) : vm :=
  { mem := [],
    stack := List.replicate maxStackSize none,
    stackSize := 0,
    firstObject := none,
    numObjects := 0,
    maxObjects := gcThreshold }

/-- `mark`, with fuel bounding the recursion depth. -/
def markFuel : Nat → Heap → Ptr → Outcome Heap Unit
  | 0, _, _ => .diverge
  | _ + 1, h, none => .panic .nilDeref h
  | fuel + 1, h, some a =>
    if (load h a).marked then .ok () h
    else
      let h1 := h.set a { load h a with marked := true }
      if (load h1 a).typeFlag = pairType then
        match markFuel fuel h1 (load h1 a).head with
        | .ok _ h2 => markFuel fuel h2 (load h2 a).tail
        | r => r
      else .ok () h1

/-- `mark`: the recursion depth never exceeds the number of unmarked objects (see
`markFuel_ne_diverge`), so `h.length + 1` units of fuel are always enough. -/
def mark (h : Heap) (o : Ptr) : Outcome Heap Unit := markFuel (h.length + 1) h o

/-- The loop of `markAll`: `n` iterations remain, the loop variable is `i`. -/
def markAllLoop (stack : List Ptr) : Nat → Nat → Heap → Outcome Heap Unit
  | 0, _, h => .ok () h
  | n + 1, i, h =>
    match stack[i]? with
    | none => .panic .indexOutOfRange h
    | some p =>
      match mark h p with
      | .ok _ h1 => markAllLoop stack n (i + 1) h1
      | r => r

/-- `markAll`. -/
def markAll (v : vm) : Outcome vm Unit :=
  match markAllLoop v.stack v.stackSize.toNat 0 v.mem with
  | .ok _ h => .ok () { v with mem := h }
  | .panic e h => .panic e { v with mem := h }
  | .diverge => .diverge

/-- The method `String` of `*object`, as `fmt` calls it for the verb `%s`, with fuel bounding
the recursion depth (`none`: the fuel ran out). `fmt` recovers a panic raised inside a `String`
method and prints a text in its place: `<nil>` when the receiver is a `nil` pointer, the panic
message for "Unknown type". So the call either returns a text or recurses without end. -/
def stringFuel : Nat → Heap → Ptr → Option String
  | 0, _, _ => none
  | _ + 1, _, none => some "<nil>"
  | fuel + 1, h, some a =>
    if (load h a).typeFlag = intType then some (toString (load h a).value)
    else if (load h a).typeFlag = pairType then
      match stringFuel fuel h (load h a).head with
      | none => none
      | some x =>
        match stringFuel fuel h (load h a).tail with
        | none => none
        | some y => some ("(" ++ x ++ ", " ++ y ++ ")")
    else some "%!s(PANIC=String method: Unknown type)"

/-- `String`: a call that returns with any amount of fuel returns with `h.length + 1` units
(`stringFuel_adequate`), so `none` means that the recursion of the Go method never ends, which
is the case exactly when a head/tail cycle of pairs can be reached from `o`. -/
def objectString (h : Heap) (o : Ptr) : Option String := stringFuel (h.length + 1) h o

/-- The statement `fmt.Printf("Object freed: %s\n", unreached)` of `sweep`, followed by the
rest of the loop: the rest runs when `unreached.String()` returns. -/
def printFreed (h : Heap) (unreached : Nat) (rest : Outcome vm Unit) : Outcome vm Unit :=
  match objectString h (some unreached) with
  | some _ => rest
  | none => .diverge

/-- The loop of `sweep`, with the loop variables `o` and `prev`. -/
def sweepLoop : Nat → vm → Ptr → Ptr → Outcome vm Unit
  | _, v, none, _ => .ok () v
  | 0, _, some _, _ => .diverge
  | fuel + 1, v, some a, prev =>
    if (load v.mem a).marked = false then
      let v1 : vm :=
        match prev with
        | none => { v with firstObject := (load v.mem a).next }
        | some p => { v with mem := v.mem.set p { load v.mem p with next := (load v.mem a).next } }
      printFreed v1.mem a
        (sweepLoop fuel { v1 with numObjects := v1.numObjects - 1 } (load v1.mem a).next prev)
    else
      let v1 : vm := { v with mem := v.mem.set a { load v.mem a with marked := false } }
      sweepLoop fuel v1 (load v1.mem a).next (some a)

/-- `sweep`: a registry that is a `nil`-terminated chain has at most `mem.length` entries. -/
def sweep (v : vm) : Outcome vm Unit := sweepLoop (v.mem.length + 1) v v.firstObject none

/-- `gc`. -/
def gc (v : vm) : Outcome vm Unit :=
  match markAll v with
  | .ok _ v1 =>
    match sweep v1 with
    | .ok _ v2 => .ok () { v2 with maxObjects := v2.numObjects * 2 }
    | r => r
  | r => r

/-- The part of `newObject` after the threshold check: build the object, link it at the head of
the registry, count it. -/
def allocate (t : Int) (v : vm) : Outcome vm Nat :=
  .ok v.mem.length
    { v with
      mem := v.mem ++ [{ marked := false, typeFlag := t, value := 0, head := none, tail := none,
                         next := v.firstObject }],
      firstObject := some v.mem.length,
      numObjects := v.numObjects + 1 }

/-- `newObject`; the result is the address of the new object. -/
def newObject (t : Int) (v : vm) : Outcome vm Nat :=
  if v.numObjects = v.maxObjects then
    match gc v with
    | .ok _ v1 => allocate t v1
    | .panic e s => .panic e s
    | .diverge => .diverge
  else allocate t v

/-- `push`. -/
def push (value : Ptr) (v : vm) : Outcome vm Unit :=
  if v.stackSize ≥ v.stack.length then .panic .stackOverflow v
  else if v.stackSize < 0 then .panic .indexOutOfRange v
  else .ok () { v with stack := v.stack.set v.stackSize.toNat value, stackSize := v.stackSize + 1 }

/-- `pop`. -/
def pop (v : vm) : Outcome vm Ptr :=
  if v.stackSize = 0 then .panic .stackUnderflow v
  else if v.stackSize - 1 < 0 ∨ v.stackSize - 1 ≥ v.stack.length then .panic .indexOutOfRange v
  else
    .ok (v.stack.getD (v.stackSize - 1).toNat none)
      { v with stack := v.stack.set (v.stackSize - 1).toNat none, stackSize := v.stackSize - 1 }

/-- `pushInt`. -/
def pushInt (value : Int) (v : vm) : Outcome vm Unit :=
  match newObject intType v with
  | .ok a v1 => push (some a) { v1 with mem := v1.mem.set a { load v1.mem a with value := value } }
  | .panic e s => .panic e s
  | .diverge => .diverge

/-- `popInt`. -/
def popInt (v : vm) : Outcome vm Int :=
  match pop v with
  | .ok none v1 => .panic .nilDeref v1
  | .ok (some a) v1 =>
    if (load v1.mem a).typeFlag = intType then .ok (load v1.mem a).value v1
    else .panic .typeMismatch v1
  | .panic e s => .panic e s
  | .diverge => .diverge

/-- `pushPair`. -/
def pushPair (v : vm) : Outcome vm Unit :=
  match newObject pairType v with
  | .ok a v1 =>
    match pop v1 with
    | .ok t v2 =>
      match pop { v2 with mem := v2.mem.set a { load v2.mem a with tail := t } } with
      | .ok hd v3 => push (some a) { v3 with mem := v3.mem.set a { load v3.mem a with head := hd } }
      | .panic e s => .panic e s
      | .diverge => .diverge
    | .panic e s => .panic e s
    | .diverge => .diverge
  | .panic e s => .panic e s
  | .diverge => .diverge

/-- `popPair`. -/
def popPair (v : vm) : Outcome vm Ptr :=
  match pop v with
  | .ok none v1 => .panic .nilDeref v1
  | .ok (some a) v1 =>
    if (load v1.mem a).typeFlag = pairType then .ok (some a) v1
    else .panic .typeMismatch v1
  | .panic e s => .panic e s
  | .diverge => .diverge

/-- `add`. -/
def add (v : vm) : Outcome vm Unit :=
  match popInt v with
  | .ok right v1 =>
    match popInt v1 with
    | .ok left v2 => pushInt (wrap64 (left + right)) v2
    | .panic e s => .panic e s
    | .diverge => .diverge
  | .panic e s => .panic e s
  | .diverge => .diverge

/-- Number of unmarked objects in memory: the measure that bounds the recursion of `mark`. -/
def unmarkedCount (h : Heap) : Nat := h.countP (fun o => !o.marked)


/-- The object at `y` is the head or the tail of the pair object at `x`. -/
def Edge (h : Heap) (x y : Nat) : Prop :=
  (load h x).typeFlag = pairType ∧ ((load h x).head = some y ∨ (load h x).tail = some y)

/-- The object at `x` is reached from the object at `r` by following head and tail links of
pair objects. -/
def Reach (h : Heap) (r x : Nat) : Prop := Relation.ReflTransGen (Edge h) r x

/-- The address `a` is held in an occupied root-stack slot, one of `stack[0..stackSize)`. -/
def Root (v : vm) (a : Nat) : Prop :=
  ∃ i : Nat, (i : Int) < v.stackSize ∧ v.stack[i]? = some (some a)

/-- The object at `x` is transitively reachable from the occupied root-stack slots. -/
def Reachable (v : vm) (x : Nat) : Prop := ∃ r, Root v r ∧ Reach v.mem r x

/-- The call `String` on the object at `a` returns: its display form is finite. -/
def Printable (h : Heap) (a : Nat) : Prop := ∃ s, objectString h (some a) = some s

instance (h : Heap) (a : Nat) : Decidable (Printable h a) :=
  decidable_of_iff ((objectString h (some a)).isSome = true)
    (by unfold Printable; exact Option.isSome_iff_exists)

/-- Every head and tail link of a pair points to an object allocated before the pair: the
shape of every memory that the operations build, since `pushPair` fills a new pair with
references taken from the root stack. -/
def Older (h : Heap) : Prop := ∀ x y, Edge h x y → y < x

/-- The `next`-chain that starts at `p` visits exactly the addresses of `l`, in this order, and
then reaches `nil`. -/
def IsChain (h : Heap) : Ptr → List Nat → Prop
  | p, [] => p = none
  | p, a :: l => p = some a ∧ IsChain h (load h a).next l

/-- The allocation registry of `v` (the `next`-chain from `firstObject`) is the list `l`. -/
def Registry (v : vm) (l : List Nat) : Prop := IsChain v.mem v.firstObject l

instance decIsChain (h : Heap) : (p : Ptr) → (l : List Nat) → Decidable (IsChain h p l)
  | p, [] => inferInstanceAs (Decidable (p = none))
  | p, a :: l =>
    have := decIsChain h (load h a).next l
    inferInstanceAs (Decidable (p = some a ∧ IsChain h (load h a).next l))

instance (v : vm) (l : List Nat) : Decidable (Registry v l) := decIsChain _ _ _

/-- A pointer is `nil` or the address of an allocated object. -/
def ValidPtr (h : Heap) : Ptr → Prop
  | none => True
  | some a => a < h.length

instance decValidPtr (h : Heap) : (p : Ptr) → Decidable (ValidPtr h p)
  | none => isTrue trivial
  | some a => inferInstanceAs (Decidable (a < h.length))

/-- All object links stored in memory are valid pointers. -/
def HeapValid (h : Heap) : Prop :=
  ∀ o ∈ h, ValidPtr h o.head ∧ ValidPtr h o.tail ∧ ValidPtr h o.next

instance (h : Heap) : Decidable (HeapValid h) :=
  inferInstanceAs (Decidable (∀ o ∈ h, ValidPtr h o.head ∧ ValidPtr h o.tail ∧ ValidPtr h o.next))

/-- Every pointer held by the state is `nil` or points to an allocated object: what the Go type
`*object` guarantees. -/
def WF (v : vm) : Prop :=
  HeapValid v.mem ∧ (∀ p ∈ v.stack, ValidPtr v.mem p) ∧ ValidPtr v.mem v.firstObject

instance (v : vm) : Decidable (WF v) :=
  inferInstanceAs (Decidable (HeapValid v.mem ∧ (∀ p ∈ v.stack, ValidPtr v.mem p) ∧
    ValidPtr v.mem v.firstObject))

/-- No object in memory carries a mark. -/
def NoMarks (h : Heap) : Prop := ∀ o ∈ h, o.marked = false

instance (h : Heap) : Decidable (NoMarks h) :=
  inferInstanceAs (Decidable (∀ o ∈ h, o.marked = false))

/-- Memory `h2` is memory `h1` with possibly more objects marked and nothing else changed. -/
structure MarkStep (h1 h2 : Heap) : Prop where
  length_eq : h2.length = h1.length
  typeFlag_eq : ∀ a, (load h2 a).typeFlag = (load h1 a).typeFlag
  value_eq : ∀ a, (load h2 a).value = (load h1 a).value
  head_eq : ∀ a, (load h2 a).head = (load h1 a).head
  tail_eq : ∀ a, (load h2 a).tail = (load h1 a).tail
  next_eq : ∀ a, (load h2 a).next = (load h1 a).next
  mono : ∀ a, (load h1 a).marked = true → (load h2 a).marked = true

/-- What a returning call `mark(o)` achieves, from memory `h1` to memory `h2`. -/
structure MarkPost (h1 : Heap) (o : Ptr) (h2 : Heap) : Prop where
  step : MarkStep h1 h2
  root : ∃ a, o = some a ∧ (load h2 a).marked = true
  closed : ∀ x, (load h2 x).marked = true → (load h1 x).marked = false →
    (load h1 x).typeFlag = pairType →
    (∃ b, (load h1 x).head = some b ∧ (load h2 b).marked = true) ∧
    (∃ c, (load h1 x).tail = some c ∧ (load h2 c).marked = true)
  reach : ∀ x, (load h2 x).marked = true → (load h1 x).marked = false →
    ∃ r, o = some r ∧ Reach h1 r x

/-- What a returning run of the `markAll` loop achieves when it starts at slot `i` and performs
`n` iterations, from memory `h1` to memory `h2`. -/
structure MarkAllPost (stack : List Ptr) (i n : Nat) (h1 h2 : Heap) : Prop where
  step : MarkStep h1 h2
  roots : ∀ j, i ≤ j → j < i + n → ∃ a, stack[j]? = some (some a) ∧ (load h2 a).marked = true
  closed : ∀ x, (load h2 x).marked = true → (load h1 x).marked = false →
    (load h1 x).typeFlag = pairType →
    (∃ b, (load h1 x).head = some b ∧ (load h2 b).marked = true) ∧
    (∃ c, (load h1 x).tail = some c ∧ (load h2 c).marked = true)
  reach : ∀ x, (load h2 x).marked = true → (load h1 x).marked = false →
    ∃ j r, i ≤ j ∧ j < i + n ∧ stack[j]? = some (some r) ∧ Reach h1 r x

/-- The link that `sweep` rewrites when it unlinks the object after `prev`: the `firstObject`
field when `prev` is `nil`, the `next` field of `prev` otherwise. -/
def link (v : vm) (prev : Ptr) : Ptr :=
  match prev with
  | none => v.firstObject
  | some p => (load v.mem p).next

/-- What the `sweep` loop achieves when it starts with `o` at the head of the chain `l` and
`prev` the last object kept so far, from state `v` to state `v2`. -/
structure SweepPost (v : vm) (prev : Ptr) (l : List Nat) (v2 : vm) : Prop where
  stack_eq : v2.stack = v.stack
  stackSize_eq : v2.stackSize = v.stackSize
  maxObjects_eq : v2.maxObjects = v.maxObjects
  numObjects_eq :
    v2.numObjects = v.numObjects - ((l.filter fun x => !(load v.mem x).marked).length : Int)
  length_eq : v2.mem.length = v.mem.length
  typeFlag_eq : ∀ a, (load v2.mem a).typeFlag = (load v.mem a).typeFlag
  value_eq : ∀ a, (load v2.mem a).value = (load v.mem a).value
  head_eq : ∀ a, (load v2.mem a).head = (load v.mem a).head
  tail_eq : ∀ a, (load v2.mem a).tail = (load v.mem a).tail
  marked_eq : ∀ a, (load v2.mem a).marked = ((load v.mem a).marked && decide (a ∉ l))
  chain : IsChain v2.mem (link v2 prev) (l.filter fun x => (load v.mem x).marked)
  frame : ∀ a, a ∉ l → prev ≠ some a → load v2.mem a = load v.mem a
  first_eq : prev ≠ none → v2.firstObject = v.firstObject

/-- A small state used to instantiate the theorems: the ints 1 and 2, the pair `(1, 2)` held in
root slot 0, and an unrooted int 123; all four objects are registered. -/
def demoVM : vm :=
  { mem := [⟨false, 0, 1, none, none, none⟩, ⟨false, 0, 2, none, none, some 0⟩,
            ⟨false, 1, 0, some 0, some 1, some 1⟩, ⟨false, 0, 123, none, none, some 2⟩],
    stack := [some 2, none, none, none],
    stackSize := 1,
    firstObject := some 3,
    numObjects := 4,
    maxObjects := 10 }

/-- A state whose only object is registered, unrooted and already marked before `gc` starts. -/
def staleMarkVM : vm :=
  { mem := [⟨true, 0, 7, none, none, none⟩],
    stack := [none],
    stackSize := 0,
    firstObject := some 0,
    numObjects := 1,
    maxObjects := 10 }

/-- The object at `a` is a pair with a `nil` head or a `nil` tail: what `newObject(pairType)`
returns before `pushPair` fills in the two fields. -/
def Incomplete (h : Heap) (a : Nat) : Prop :=
  (load h a).typeFlag = pairType ∧ ((load h a).head = none ∨ (load h a).tail = none)

instance (h : Heap) (a : Nat) : Decidable (Incomplete h a) :=
  inferInstanceAs (Decidable (_ ∧ _))

/-- The operations of the virtual machine, with their arguments. -/
inductive Op where
  | newObject (t : Int)
  | push (p : Ptr)
  | pop
  | pushInt (n : Int)
  | popInt
  | pushPair
  | popPair
  | add
  | gc
deriving DecidableEq, Repr

/-- Forget the value an operation returns. -/
def discard {α : Type} : Outcome vm α → Outcome vm Unit
  | .ok _ s => .ok () s
  | .panic e s => .panic e s
  | .diverge => .diverge

/-- Run one operation. -/
def Op.run : Op → vm → Outcome vm Unit
  | .newObject t, v => discard (MarkSweep.newObject t v)
  | .push p, v => MarkSweep.push p v
  | .pop, v => discard (MarkSweep.pop v)
  | .pushInt n, v => MarkSweep.pushInt n v
  | .popInt, v => discard (MarkSweep.popInt v)
  | .pushPair, v => MarkSweep.pushPair v
  | .popPair, v => discard (MarkSweep.popPair v)
  | .add, v => MarkSweep.add v
  | .gc, v => MarkSweep.gc v

/-- The state an outcome leaves behind: the final state of a return, the state at the moment of
a panic, nothing for a run that does not end. -/
def Outcome.state? {α : Type} : Outcome vm α → Option vm
  | .ok _ s => some s
  | .panic _ s => some s
  | .diverge => none

/-- States obtained from `s0` by running operations one after the other, each operation `op`
being allowed in the state `s` it starts from (`allowed op s`). Operations that panic are
included, with the state they leave behind. -/
inductive Steps (allowed : Op → vm → Prop) (s0 : vm) : vm → Prop where
  | init : Steps allowed s0 s0
  | step (s s2 : vm) (op : Op) : Steps allowed s0 s → allowed op s →
      (op.run s).state? = some s2 → Steps allowed s0 s2

/-- Every operation is allowed; the reference handed to `push` is `nil` or points to an
allocated object, as any Go pointer does. -/
def AnyOp (op : Op) (s : vm) : Prop :=
  match op with
  | .push p => ValidPtr s.mem p
  | _ => True

/-- Every operation is allowed, but `push` only receives a non-nil reference to an allocated
object that is not an incomplete pair. -/
def CompleteRefs (op : Op) (s : vm) : Prop :=
  match op with
  | .push p => ∃ a, p = some a ∧ a < s.mem.length ∧ ¬ Incomplete s.mem a
  | _ => True

/-- The invariant that keeps the collector from meeting `nil`: pointers are valid, the stack
size is within bounds, the registry is a `nil`-terminated chain, every occupied root-stack slot
holds a non-nil reference to an object that is not an incomplete pair, no pair links to an
incomplete pair, and every pair links to older objects only. -/
structure Sound (s : vm) : Prop where
  wf : WF s
  size_nonneg : 0 ≤ s.stackSize
  size_le : s.stackSize ≤ s.stack.length
  registry : ∃ l, Registry s l
  roots : ∀ i : Nat, (i : Int) < s.stackSize →
    ∃ a, s.stack[i]? = some (some a) ∧ ¬ Incomplete s.mem a
  edges : ∀ x y, Edge s.mem x y → ¬ Incomplete s.mem y
  older : Older s.mem

/-- The state after `pushInt 1`, `pushInt 2`, `pushPair` on `newVM 4 10`: the pair `(1, 2)` in
root slot 0. -/
def pairVM : vm :=
  { mem := [⟨false, 0, 1, none, none, none⟩, ⟨false, 0, 2, none, none, some 0⟩,
            ⟨false, 1, 0, some 0, some 1, some 1⟩],
    stack := [some 2, none, none, none],
    stackSize := 1,
    firstObject := some 2,
    numObjects := 3,
    maxObjects := 10 }

/-- Call `newObject` once for each kind of the list, in this order, dropping the references
returned (none of the objects is pushed on the root stack). -/
def newObjects : List Int → vm → Outcome vm Unit
  | [], v => .ok () v
  | t :: ts, v =>
    match newObject t v with
    | .ok _ v1 => newObjects ts v1
    | .panic e s => .panic e s
    | .diverge => .diverge

/-- The state `gc` leaves when it runs on `demoVM`: the unrooted int 123 is unlinked. -/
def demoCollectedVM : vm :=
  { demoVM with firstObject := some 2, numObjects := 3, maxObjects := 6 }

/-- Run a list of operations in order; the run stops at the first panic. -/
def runOps : List Op → vm → Outcome vm Unit
  | [], v => .ok () v
  | op :: ops, v =>
    match op.run v with
    | .ok _ v1 => runOps ops v1
    | .panic e s => .panic e s
    | .diverge => .diverge

/-- The state that `allocate` returns. -/
def allocated (t : Int) (v : vm) : vm :=
  { v with
    mem := v.mem ++ [{ marked := false, typeFlag := t, value := 0, head := none, tail := none,
                       next := v.firstObject }],
    firstObject := some v.mem.length,
    numObjects := v.numObjects + 1 }

/-- The state `demoVM` with the threshold lowered to the count: the next allocation collects
first, and the collection unlinks the unrooted int 123. -/
def thresholdVM : vm := { demoVM with maxObjects := 4 }

/-- The state after `pushInt 1`, `pushInt 2` on `newVM 4 2`: both ints are rooted and the count
has reached the threshold, so the allocation inside `pushPair` collects first. -/
def twoIntsVM : vm :=
  { mem := [⟨false, 0, 1, none, none, none⟩, ⟨false, 0, 2, none, none, some 0⟩],
    stack := [some 0, some 1, none, none],
    stackSize := 2,
    firstObject := some 1,
    numObjects := 2,
    maxObjects := 2 }

/-- The registry that `sweep` has to leave, in the words of the specification: the objects of
the registry `l` that are marked in memory `h`, in the order they have in `l`. -/
def markedOf (h : Heap) (l : List Nat) : List Nat := l.filter fun x => (load h x).marked

/-- The objects that `sweep` has to remove, in the words of the specification: the objects of
the registry `l` that are not marked in memory `h`. -/
def unmarkedOf (h : Heap) (l : List Nat) : List Nat := l.filter fun x => !(load h x).marked

/-- The state `demoVM` after its mark phase: the pair in root slot 0 and its two ints are
marked, the unrooted int 123 is not. -/
def markedDemoVM : vm :=
  { demoVM with
    mem := [⟨true, 0, 1, none, none, none⟩, ⟨true, 0, 2, none, none, some 0⟩,
            ⟨true, 1, 0, some 0, some 1, some 1⟩, ⟨false, 0, 123, none, none, some 2⟩] }

/-- The addresses of the objects that the loop of `sweep` unlinks, in the order it meets them:
the loop of `sweepLoop` again, recording the object `unreached` in the branch that unlinks it.
The print of that branch is left out: the list is read for a sweep that has returned (`Trace`
records operations that end), in which every print has returned. -/
def sweepFreed : Nat → vm → Ptr → Ptr → List Nat
  | _, _, none, _ => []
  | 0, _, some _, _ => []
  | fuel + 1, v, some a, prev =>
    if (load v.mem a).marked = false then
      let v1 : vm :=
        match prev with
        | none => { v with firstObject := (load v.mem a).next }
        | some p => { v with mem := v.mem.set p { load v.mem p with next := (load v.mem a).next } }
      a :: sweepFreed fuel { v1 with numObjects := v1.numObjects - 1 } (load v1.mem a).next prev
    else
      let v1 : vm := { v with mem := v.mem.set a { load v.mem a with marked := false } }
      sweepFreed fuel v1 (load v1.mem a).next (some a)

/-- The objects that the sweep of `gc` unlinks when `gc` runs in state `v`; none when the mark
phase does not return, since `sweep` is not run then. -/
def gcFreed (v : vm) : List Nat :=
  match markAll v with
  | .ok _ v1 => sweepFreed (v1.mem.length + 1) v1 v1.firstObject none
  | _ => []

/-- The objects that a sweep unlinks during `newObject` in state `v`: those of the collection
that the threshold check triggers, if it does. -/
def newObjectFreed (v : vm) : List Nat :=
  if v.numObjects = v.maxObjects then gcFreed v else []

/-- The objects that a sweep unlinks while the operation runs in state `v`. Only `gc` and
`newObject` run `sweep`; `pushInt` and `pushPair` start with `newObject`, and `add` calls
`pushInt` after its two `popInt`. -/
def Op.freed : Op → vm → List Nat
  | .newObject _, v => newObjectFreed v
  | .pushInt _, v => newObjectFreed v
  | .pushPair, v => newObjectFreed v
  | .add, v =>
    match MarkSweep.popInt v with
    | .ok _ v1 =>
      match MarkSweep.popInt v1 with
      | .ok _ v2 => newObjectFreed v2
      | _ => []
    | _ => []
  | .gc, v => gcFreed v
  | .push _, _ => []
  | .pop, _ => []
  | .popInt, _ => []
  | .popPair, _ => []

/-- States obtained from `s0` by running operations one after the other, as in `Steps AnyOp`,
together with the list of all objects that a sweep has unlinked on the way. -/
inductive Trace (s0 : vm) : vm → List Nat → Prop where
  | init : Trace s0 s0 []
  | step (s s2 : vm) (U : List Nat) (op : Op) : Trace s0 s U → AnyOp op s →
      (op.run s).state? = some s2 → Trace s0 s2 (U ++ op.freed s)

/-- One elementary state change of the operations, with the objects a sweep unlinks in it: a
returning `gc`, a mark phase that stops in a panic, the allocation of `newObject`, a write to
the `value` field of an allocated object, a `pop` whose result is stored in the `tail` or
`head` field of an allocated object, a returning `push` of a valid reference, and a returning
`pop`. Every operation is a sequence of such changes (`prims_of_op`). -/
inductive Prim : vm → List Nat → vm → Prop where
  | collect (v g : vm) : gc v = .ok () g → Prim v (gcFreed v) g
  | markPanic (v : vm) (h : Heap) : MarkStep v.mem h → Prim v [] { v with mem := h }
  | alloc (t : Int) (v : vm) : Prim v [] (allocated t v)
  | setValue (v : vm) (a : Nat) (n : Int) : a < v.mem.length →
      Prim v [] { v with mem := v.mem.set a { load v.mem a with value := n } }
  | popTail (v s : vm) (a : Nat) (p : Ptr) : a < v.mem.length → MarkSweep.pop v = .ok p s →
      Prim v [] { s with mem := s.mem.set a { load s.mem a with tail := p } }
  | popHead (v s : vm) (a : Nat) (p : Ptr) : a < v.mem.length → MarkSweep.pop v = .ok p s →
      Prim v [] { s with mem := s.mem.set a { load s.mem a with head := p } }
  | pushed (v s : vm) (p : Ptr) : ValidPtr v.mem p → MarkSweep.push p v = .ok () s → Prim v [] s
  | popped (v s : vm) (p : Ptr) : MarkSweep.pop v = .ok p s → Prim v [] s

/-- Sequences of elementary state changes, with the objects unlinked on the way. -/
inductive Prims : vm → List Nat → vm → Prop where
  | refl (v : vm) : Prims v [] v
  | tail (v s s2 : vm) (U W : List Nat) : Prims v U s → Prim s W s2 → Prims v (U ++ W) s2

/-- The root-stack invariant for a stack of capacity `cap`: the stack size lies between 0 and
the capacity, the slice has the length it was created with, and every slot at or above
`stackSize` holds `nil`. -/
structure StackOK (cap : Nat) (s : vm) : Prop where
  size_nonneg : 0 ≤ s.stackSize
  size_le : s.stackSize ≤ cap
  length_eq : s.stack.length = cap
  above_nil : ∀ i : Nat, s.stackSize ≤ i → i < cap → s.stack[i]? = some none

/-- The registry bookkeeping invariant, `U` being the objects unlinked by a sweep so far:
pointers are valid, and the registry is a `nil`-terminated chain that holds exactly the
allocated objects that are not in `U`, and `numObjects` is its length. -/
structure Book (s : vm) (U : List Nat) : Prop where
  wf : WF s
  freed_lt : ∀ a ∈ U, a < s.mem.length
  registry : ∃ l, Registry s l ∧ (∀ a, a ∈ l ↔ a < s.mem.length ∧ a ∉ U) ∧
    s.numObjects = l.length

/-- The state after `pushInt 1`, `pop`, `newObject(intType)`, `newObject(intType)` on
`newVM 2 2`: the second `newObject` meets `numObjects = maxObjects = 2` and collects, the sweep
unlinks the objects 1 and 0 (in this order), and the new object 2 is alone in the registry. -/
def sweptVM : vm :=
  { mem := [⟨false, 0, 1, none, none, none⟩, ⟨false, 0, 0, none, none, some 0⟩,
            ⟨false, 0, 0, none, none, none⟩],
    stack := [none, none],
    stackSize := 0,
    firstObject := some 2,
    numObjects := 1,
    maxObjects := 0 }

/-- The object at `a` is in the allocation registry: it lies on the `nil`-terminated
`next`-chain from `firstObject`. -/
def Registered (v : vm) (a : Nat) : Prop := ∃ l, Registry v l ∧ a ∈ l

/-- The operations of the facade: every operation except the raw `newObject` and `push`,
which hand out or take object references. -/
def Facade (op : Op) (_s : vm) : Prop :=
  match op with
  | .newObject _ => False
  | .push _ => False
  | _ => True

/-- No object is marked, every root is registered, and every object that a registered pair
links to is registered. -/
structure Tidy (s : vm) : Prop where
  noMarks : NoMarks s.mem
  roots : ∀ a, Root s a → Registered s a
  closed : ∀ x y, Registered s x → Edge s.mem x y → Registered s y


theorem load_set_eq (h : Heap) (a : Nat) (o : object) (ha : a < h.length) :
    load (h.set a o) a = o := by
  simp [load, List.getD_eq_getElem?_getD, ha]

theorem load_set_ne (h : Heap) (a b : Nat) (o : object) (hab : a ≠ b) :
    load (h.set a o) b = load h b := by
  simp [load, List.getD_eq_getElem?_getD, List.getElem?_set_ne hab]

theorem load_of_le (h : Heap) (a : Nat) (ha : h.length ≤ a) : load h a = default := by
  simp [load, List.getD_eq_getElem?_getD, List.getElem?_eq_none ha]

theorem lt_of_marked (h : Heap) (a : Nat) (hm : (load h a).marked = true) : a < h.length := by
  by_contra hlt
  rw [load_of_le h a (Nat.le_of_not_lt hlt)] at hm
  exact absurd hm (by decide)

theorem lt_of_pair (h : Heap) (a : Nat) (hp : (load h a).typeFlag = pairType) :
    a < h.length := by
  by_contra hlt
  rw [load_of_le h a (Nat.le_of_not_lt hlt)] at hp
  exact absurd hp (by decide)

theorem load_mem (h : Heap) (a : Nat) (ha : a < h.length) : load h a ∈ h := by
  have : load h a = h[a] := by simp [load, List.getD_eq_getElem?_getD, ha]
  rw [this]
  exact List.getElem_mem ha

theorem exists_load_of_mem (h : Heap) (o : object) (ho : o ∈ h) :
    ∃ a, a < h.length ∧ load h a = o := by
  obtain ⟨a, ha, hao⟩ := List.getElem_of_mem ho
  exact ⟨a, ha, by simp [load, List.getD_eq_getElem?_getD, ha, hao]⟩

theorem validPtr_none (h : Heap) : ValidPtr h none := trivial

/-! ### The method `String` -/

theorem stringFuel_succ_some (f : Nat) (h : Heap) (a : Nat) :
    stringFuel (f + 1) h (some a) =
      if (load h a).typeFlag = intType then some (toString (load h a).value)
      else if (load h a).typeFlag = pairType then
        match stringFuel f h (load h a).head with
        | none => none
        | some x =>
          match stringFuel f h (load h a).tail with
          | none => none
          | some y => some ("(" ++ x ++ ", " ++ y ++ ")")
      else some "%!s(PANIC=String method: Unknown type)" := rfl

theorem stringFuel_succ_none (f : Nat) (h : Heap) : stringFuel (f + 1) h none = some "<nil>" :=
  rfl

theorem pairType_ne_intType : pairType ≠ intType := by decide

/-- What a returning call of `String` on a pair consists of. -/
theorem stringFuel_pair (f : Nat) (h : Heap) (a : Nat) (s : String)
    (hp : (load h a).typeFlag = pairType) (hr : stringFuel (f + 1) h (some a) = some s) :
    ∃ x y, stringFuel f h (load h a).head = some x ∧ stringFuel f h (load h a).tail = some y ∧
      s = "(" ++ x ++ ", " ++ y ++ ")" := by
  rw [stringFuel_succ_some, if_neg (by rw [hp]; exact pairType_ne_intType), if_pos hp] at hr
  cases hx : stringFuel f h (load h a).head with
  | none => rw [hx] at hr; simp at hr
  | some x =>
    rw [hx] at hr
    cases hy : stringFuel f h (load h a).tail with
    | none => rw [hy] at hr; simp at hr
    | some y =>
      rw [hy] at hr
      exact ⟨x, y, rfl, rfl, (Option.some.inj hr).symm⟩

theorem stringFuel_of_pair (f : Nat) (h : Heap) (a : Nat) (x y : String)
    (hp : (load h a).typeFlag = pairType) (hx : stringFuel f h (load h a).head = some x)
    (hy : stringFuel f h (load h a).tail = some y) :
    stringFuel (f + 1) h (some a) = some ("(" ++ x ++ ", " ++ y ++ ")") := by
  rw [stringFuel_succ_some, if_neg (by rw [hp]; exact pairType_ne_intType), if_pos hp, hx, hy]

theorem stringFuel_of_not_pair (f g : Nat) (h : Heap) (a : Nat)
    (hp : (load h a).typeFlag ≠ pairType) :
    stringFuel (f + 1) h (some a) = stringFuel (g + 1) h (some a) := by
  rw [stringFuel_succ_some, stringFuel_succ_some, if_neg hp, if_neg hp]

/-- More fuel does not change the result of a call of `String` that returns. -/
theorem stringFuel_mono : ∀ (f : Nat) (h : Heap) (p : Ptr) (s : String) (g : Nat),
    stringFuel f h p = some s → f ≤ g → stringFuel g h p = some s := by
  intro f
  induction f with
  | zero =>
    intro h p s g hr _
    simp [stringFuel] at hr
  | succ f ih =>
    intro h p s g hr hg
    obtain ⟨g, rfl⟩ : ∃ k, g = k + 1 := ⟨g - 1, by omega⟩
    cases p with
    | none => exact hr
    | some a =>
      by_cases hp : (load h a).typeFlag = pairType
      · obtain ⟨x, y, hx, hy, hs⟩ := stringFuel_pair f h a s hp hr
        rw [hs]
        exact stringFuel_of_pair g h a x y hp (ih h _ x g hx (by omega)) (ih h _ y g hy (by omega))
      · rw [← stringFuel_of_not_pair f g h a hp]
        exact hr

/-- A returning call of `String` on a pair calls `String` on its head and tail, with less
fuel. -/
theorem stringFuel_edge (f : Nat) (h : Heap) (a b : Nat) (s : String)
    (hr : stringFuel f h (some a) = some s) (he : Edge h a b) :
    ∃ g s2, g < f ∧ stringFuel g h (some b) = some s2 := by
  cases f with
  | zero => simp [stringFuel] at hr
  | succ f =>
    obtain ⟨x, y, hx, hy, _⟩ := stringFuel_pair f h a s he.1 hr
    rcases he.2 with hb | hb
    · rw [hb] at hx
      exact ⟨f, x, Nat.lt_succ_self f, hx⟩
    · rw [hb] at hy
      exact ⟨f, y, Nat.lt_succ_self f, hy⟩

theorem stringFuel_path (h : Heap) (a b : Nat) (hp : Relation.TransGen (Edge h) a b) :
    ∀ (f : Nat) (s : String), stringFuel f h (some a) = some s →
      ∃ g s2, g < f ∧ stringFuel g h (some b) = some s2 := by
  induction hp with
  | single he => exact fun f s hr => stringFuel_edge f h a _ s hr he
  | tail _ he ih =>
    intro f s hr
    obtain ⟨g, s2, hg, hr2⟩ := ih f s hr
    obtain ⟨g3, s3, hg3, hr3⟩ := stringFuel_edge g h _ _ s2 hr2 he
    exact ⟨g3, s3, by omega, hr3⟩

/-- On a pair that lies on a head/tail cycle `String` does not return, whatever the fuel: the
recursion of the Go method never ends. -/
theorem stringFuel_cycle (h : Heap) (a : Nat) (hc : Relation.TransGen (Edge h) a a) :
    ∀ f, stringFuel f h (some a) = none := by
  intro f
  induction f using Nat.strong_induction_on with
  | _ f ih =>
    cases hr : stringFuel f h (some a) with
    | none => rfl
    | some s =>
      obtain ⟨g, s2, hg, hr2⟩ := stringFuel_path h a a hc f s hr
      rw [ih g hg] at hr2
      simp at hr2

theorem length_le_of_nodup_lt (l : List Nat) (n : Nat) (hnd : l.Nodup) (hlt : ∀ x ∈ l, x < n) :
    l.length ≤ n := by
  have hsub : l ⊆ List.range n := fun x hx => List.mem_range.mpr (hlt x hx)
  have := (List.subperm_of_subset hnd hsub).length_le
  simpa using this

/-- A returning call of `String` needs at most `h.length + 1 - V.length` levels of recursion
when the calls that are already open are on the distinct pairs of `V`. -/
theorem stringFuel_bound (h : Heap) : ∀ (g : Nat) (p : Ptr) (s : String) (V : List Nat),
    stringFuel g h p = some s → V.Nodup → (∀ v ∈ V, v < h.length) →
    (∀ v ∈ V, ∀ a, p = some a → Relation.TransGen (Edge h) v a) →
    stringFuel (h.length + 1 - V.length) h p = some s := by
  intro g
  induction g with
  | zero =>
    intro p s V hr _ _ _
    simp [stringFuel] at hr
  | succ g ih =>
    intro p s V hr hnd hlt hpath
    have hle := length_le_of_nodup_lt V h.length hnd hlt
    obtain ⟨k, hk⟩ : ∃ k, h.length + 1 - V.length = k + 1 := ⟨h.length - V.length, by omega⟩
    rw [hk]
    cases p with
    | none => exact hr
    | some a =>
      by_cases hp : (load h a).typeFlag = pairType
      · obtain ⟨x, y, hx, hy, hs⟩ := stringFuel_pair g h a s hp hr
        have haV : a ∉ V := by
          intro hin
          have hc := stringFuel_cycle h a (hpath a hin a rfl) (g + 1)
          rw [hc] at hr
          simp at hr
        have hnd2 : (a :: V).Nodup := List.nodup_cons.mpr ⟨haV, hnd⟩
        have hlt2 : ∀ v ∈ a :: V, v < h.length := by
          intro v hv
          rcases List.mem_cons.mp hv with e | hv
          · rw [e]
            exact lt_of_pair h a hp
          · exact hlt v hv
        have hstep : ∀ q, (load h a).head = q ∨ (load h a).tail = q →
            ∀ v ∈ a :: V, ∀ b, q = some b → Relation.TransGen (Edge h) v b := by
          intro q hq v hv b hb
          have he : Edge h a b := by
            refine ⟨hp, ?_⟩
            rcases hq with e | e
            · exact Or.inl (e.trans hb)
            · exact Or.inr (e.trans hb)
          rcases List.mem_cons.mp hv with e | hv
          · rw [e]
            exact Relation.TransGen.single he
          · exact Relation.TransGen.tail (hpath v hv a rfl) he
        have hk2 : h.length + 1 - (a :: V).length = k := by
          simp only [List.length_cons]
          omega
        have h1 := ih _ x (a :: V) hx hnd2 hlt2 (hstep _ (Or.inl rfl))
        have h2 := ih _ y (a :: V) hy hnd2 hlt2 (hstep _ (Or.inr rfl))
        rw [hk2] at h1 h2
        rw [hs]
        exact stringFuel_of_pair k h a x y hp h1 h2
      · rw [← stringFuel_of_not_pair g k h a hp]
        exact hr

/-- The fuel that `objectString` supplies is enough: a call of `String` that returns with any
amount of fuel returns the same text with `h.length + 1` units. -/
theorem stringFuel_adequate (f : Nat) (h : Heap) (p : Ptr) (s : String)
    (hr : stringFuel f h p = some s) : objectString h p = some s := by
  have := stringFuel_bound h f p s [] hr List.nodup_nil (by simp) (by simp)
  simpa [objectString] using this

/-- `String` reads the fields `typeFlag`, `value`, `head` and `tail` only. -/
theorem stringFuel_congr (h1 h2 : Heap)
    (hfld : ∀ a, (load h2 a).typeFlag = (load h1 a).typeFlag ∧
      (load h2 a).value = (load h1 a).value ∧
      (load h2 a).head = (load h1 a).head ∧
      (load h2 a).tail = (load h1 a).tail) :
    ∀ (f : Nat) (p : Ptr), stringFuel f h2 p = stringFuel f h1 p := by
  intro f
  induction f with
  | zero => intro p; rfl
  | succ f ih =>
    intro p
    cases p with
    | none => rfl
    | some a =>
      rw [stringFuel_succ_some, stringFuel_succ_some, (hfld a).1, (hfld a).2.1, (hfld a).2.2.1,
        (hfld a).2.2.2, ih, ih]

theorem objectString_congr (h1 h2 : Heap) (hl : h2.length = h1.length)
    (hfld : ∀ a, (load h2 a).typeFlag = (load h1 a).typeFlag ∧
      (load h2 a).value = (load h1 a).value ∧
      (load h2 a).head = (load h1 a).head ∧
      (load h2 a).tail = (load h1 a).tail) (p : Ptr) :
    objectString h2 p = objectString h1 p := by
  unfold objectString
  rw [hl]
  exact stringFuel_congr h1 h2 hfld _ p

theorem printable_congr (h1 h2 : Heap) (hl : h2.length = h1.length)
    (hfld : ∀ a, (load h2 a).typeFlag = (load h1 a).typeFlag ∧
      (load h2 a).value = (load h1 a).value ∧
      (load h2 a).head = (load h1 a).head ∧
      (load h2 a).tail = (load h1 a).tail) (a : Nat) :
    Printable h2 a ↔ Printable h1 a := by
  unfold Printable
  rw [objectString_congr h1 h2 hl hfld]

/-- Changing `marked` or `next` of one object does not change what `String` returns. -/
theorem printable_set (h : Heap) (a : Nat) (o : object)
    (h1 : o.typeFlag = (load h a).typeFlag) (h2 : o.value = (load h a).value)
    (h3 : o.head = (load h a).head) (h4 : o.tail = (load h a).tail) (x : Nat) :
    Printable (h.set a o) x ↔ Printable h x := by
  apply printable_congr h (h.set a o) (List.length_set _ _ _)
  intro y
  by_cases hy : y = a
  · subst hy
    by_cases hlt : y < h.length
    · rw [load_set_eq h y o hlt]
      exact ⟨h1, h2, h3, h4⟩
    · rw [List.set_eq_of_length_le (Nat.le_of_not_lt hlt)]
      exact ⟨rfl, rfl, rfl, rfl⟩
  · rw [load_set_ne h a y o (Ne.symm hy)]
    exact ⟨rfl, rfl, rfl, rfl⟩

theorem printFreed_of_printable (h : Heap) (a : Nat) (k : Outcome vm Unit)
    (hp : Printable h a) : printFreed h a k = k := by
  obtain ⟨s, hs⟩ := hp
  unfold printFreed
  rw [hs]

theorem printFreed_of_not_printable (h : Heap) (a : Nat) (k : Outcome vm Unit)
    (hp : ¬ Printable h a) : printFreed h a k = .diverge := by
  unfold printFreed
  cases hs : objectString h (some a) with
  | none => rfl
  | some s => exact absurd ⟨s, hs⟩ hp

theorem printFreed_ok (h : Heap) (a : Nat) (k : Outcome vm Unit) (u : Unit) (s : vm)
    (hr : printFreed h a k = .ok u s) : Printable h a ∧ k = .ok u s := by
  by_cases hp : Printable h a
  · rw [printFreed_of_printable h a k hp] at hr
    exact ⟨hp, hr⟩
  · rw [printFreed_of_not_printable h a k hp] at hr
    simp at hr

theorem printFreed_panic (h : Heap) (a : Nat) (k : Outcome vm Unit) (e : Panic) (s : vm)
    (hr : printFreed h a k = .panic e s) : k = .panic e s := by
  by_cases hp : Printable h a
  · rw [printFreed_of_printable h a k hp] at hr
    exact hr
  · rw [printFreed_of_not_printable h a k hp] at hr
    simp at hr

/-- When every link points to an older object, `String` returns on every object. -/
theorem stringFuel_of_older (h : Heap) (old : Older h) :
    ∀ a, ∃ s, stringFuel (a + 2) h (some a) = some s := by
  intro a
  induction a using Nat.strong_induction_on with
  | _ a ih =>
    have hq : ∀ q, (load h a).head = q ∨ (load h a).tail = q →
        (load h a).typeFlag = pairType → ∃ s, stringFuel (a + 1) h q = some s := by
      intro q hq hp
      cases q with
      | none => exact ⟨_, rfl⟩
      | some b =>
        have hb : b < a := old a b ⟨hp, hq⟩
        obtain ⟨s, hs⟩ := ih b hb
        exact ⟨s, stringFuel_mono _ h _ s _ hs (by omega)⟩
    by_cases hp : (load h a).typeFlag = pairType
    · obtain ⟨x, hx⟩ := hq _ (Or.inl rfl) hp
      obtain ⟨y, hy⟩ := hq _ (Or.inr rfl) hp
      exact ⟨_, stringFuel_of_pair (a + 1) h a x y hp hx hy⟩
    · rw [stringFuel_succ_some, if_neg hp]
      by_cases hi : (load h a).typeFlag = intType
      · rw [if_pos hi]
        exact ⟨_, rfl⟩
      · rw [if_neg hi]
        exact ⟨_, rfl⟩

theorem printable_of_older (h : Heap) (old : Older h) (a : Nat) : Printable h a := by
  obtain ⟨s, hs⟩ := stringFuel_of_older h old a
  exact ⟨s, stringFuel_adequate _ h _ s hs⟩


theorem HeapValid.valid_at {h : Heap} (hv : HeapValid h) (a : Nat) :
    ValidPtr h (load h a).head ∧ ValidPtr h (load h a).tail ∧ ValidPtr h (load h a).next := by
  by_cases ha : a < h.length
  · exact hv _ (load_mem h a ha)
  · rw [load_of_le h a (Nat.le_of_not_lt ha)]
    exact ⟨trivial, trivial, trivial⟩

theorem heapValid_of_forall {h : Heap}
    (hv : ∀ a, a < h.length →
      ValidPtr h (load h a).head ∧ ValidPtr h (load h a).tail ∧ ValidPtr h (load h a).next) :
    HeapValid h := by
  intro o ho
  obtain ⟨a, ha, hao⟩ := exists_load_of_mem h o ho
  rw [← hao]
  exact hv a ha

theorem NoMarks.unmarked_at {h : Heap} (nm : NoMarks h) (a : Nat) : (load h a).marked = false := by
  by_cases ha : a < h.length
  · exact nm _ (load_mem h a ha)
  · rw [load_of_le h a (Nat.le_of_not_lt ha)]
    rfl

theorem validPtr_length_eq {h1 h2 : Heap} (hl : h2.length = h1.length) {p : Ptr}
    (hv : ValidPtr h1 p) : ValidPtr h2 p := by
  cases p with
  | none => trivial
  | some a => exact (show a < h2.length by rw [hl]; exact hv)

theorem load_append_lt (h : Heap) (o : object) (a : Nat) (ha : a < h.length) :
    load (h ++ [o]) a = load h a := by
  simp [load, List.getD_eq_getElem?_getD, List.getElem?_append_left ha]

theorem load_append_length (h : Heap) (o : object) : load (h ++ [o]) h.length = o := by
  simp [load, List.getD_eq_getElem?_getD]

theorem unmarkedCount_le (h : Heap) : unmarkedCount h ≤ h.length := List.countP_le_length _

theorem unmarkedCount_set_marked (h : Heap) (a : Nat) (ha : a < h.length)
    (hm : (load h a).marked = false) :
    unmarkedCount (h.set a { load h a with marked := true }) + 1 = unmarkedCount h := by
  induction h generalizing a with
  | nil => simp at ha
  | cons x t ih =>
    cases a with
    | zero =>
      simp [load] at hm
      simp [unmarkedCount, load, List.countP_cons, hm]
    | succ n =>
      have hn : n < t.length := by simpa using ha
      have hm2 : (load t n).marked = false := by simpa [load] using hm
      have := ih n hn hm2
      simp only [unmarkedCount, load, List.set_cons_succ, List.countP_cons, List.getD_cons_succ] at this ⊢
      omega


theorem MarkStep.refl (h : Heap) : MarkStep h h :=
  ⟨rfl, fun _ => rfl, fun _ => rfl, fun _ => rfl, fun _ => rfl, fun _ => rfl, fun _ hm => hm⟩

theorem MarkStep.trans {h1 h2 h3 : Heap} (a : MarkStep h1 h2) (b : MarkStep h2 h3) :
    MarkStep h1 h3 where
  length_eq := b.length_eq.trans a.length_eq
  typeFlag_eq x := (b.typeFlag_eq x).trans (a.typeFlag_eq x)
  value_eq x := (b.value_eq x).trans (a.value_eq x)
  head_eq x := (b.head_eq x).trans (a.head_eq x)
  tail_eq x := (b.tail_eq x).trans (a.tail_eq x)
  next_eq x := (b.next_eq x).trans (a.next_eq x)
  mono x hm := b.mono x (a.mono x hm)

theorem MarkStep.set_marked (h : Heap) (a : Nat) :
    MarkStep h (h.set a { load h a with marked := true }) := by
  have key : ∀ x, x ≠ a → load (h.set a { load h a with marked := true }) x = load h x :=
    fun x hx => load_set_ne h a x _ (Ne.symm hx)
  by_cases ha : a < h.length
  · have self := load_set_eq h a { load h a with marked := true } ha
    refine ⟨by simp, ?_, ?_, ?_, ?_, ?_, ?_⟩ <;> intro x <;>
      by_cases hx : x = a <;> first
        | (subst hx; rw [self]; try simp)
        | (rw [key x hx]; try simp)
  · have : h.set a { load h a with marked := true } = h :=
      List.set_eq_of_length_le (Nat.le_of_not_lt ha)
    rw [this]
    exact MarkStep.refl h

theorem MarkStep.edge {h1 h2 : Heap} (s : MarkStep h1 h2) (x y : Nat) :
    Edge h2 x y ↔ Edge h1 x y := by
  simp only [Edge, s.typeFlag_eq, s.head_eq, s.tail_eq]

theorem MarkStep.reach {h1 h2 : Heap} (s : MarkStep h1 h2) (r x : Nat) :
    Reach h2 r x ↔ Reach h1 r x :=
  ⟨Relation.ReflTransGen.mono fun a b => (s.edge a b).1,
   Relation.ReflTransGen.mono fun a b => (s.edge a b).2⟩

theorem MarkStep.validPtr {h1 h2 : Heap} (s : MarkStep h1 h2) {p : Ptr} (hv : ValidPtr h1 p) :
    ValidPtr h2 p := validPtr_length_eq s.length_eq hv

theorem MarkStep.heapValid {h1 h2 : Heap} (s : MarkStep h1 h2) (hv : HeapValid h1) :
    HeapValid h2 := by
  apply heapValid_of_forall
  intro a _
  rw [s.head_eq, s.tail_eq, s.next_eq]
  exact ⟨s.validPtr (hv.valid_at a).1, s.validPtr (hv.valid_at a).2.1, s.validPtr (hv.valid_at a).2.2⟩

theorem markFuel_none_ne_ok (f : Nat) (h h2 : Heap) : markFuel f h none ≠ .ok () h2 := by
  cases f <;> simp [markFuel]

theorem markFuel_post : ∀ (f : Nat) (h : Heap) (o : Ptr) (h2 : Heap), HeapValid h →
    ValidPtr h o → markFuel f h o = .ok () h2 → MarkPost h o h2 := by
  intro f
  induction f with
  | zero => intro h o h2 _ _ hr; simp [markFuel] at hr
  | succ f ih =>
    intro h o h2 hv hvo hr
    cases o with
    | none => simp [markFuel] at hr
    | some a =>
      have ha : a < h.length := hvo
      rw [markFuel] at hr
      by_cases hm : (load h a).marked = true
      · rw [if_pos hm] at hr
        injection hr with _ hr
        subst hr
        exact ⟨MarkStep.refl h, ⟨a, rfl, hm⟩, fun x h1 h0 => by simp [h1] at h0,
          fun x h1 h0 => by simp [h1] at h0⟩
      · rw [if_neg hm] at hr
        have hm0 : (load h a).marked = false := by simpa using hm
        have self := load_set_eq h a { load h a with marked := true } ha
        have s1 : MarkStep h (h.set a { load h a with marked := true }) :=
          MarkStep.set_marked h a
        have other : ∀ x, x ≠ a →
            load (h.set a { load h a with marked := true }) x = load h x :=
          fun x hx => load_set_ne h a x _ (Ne.symm hx)
        simp only [] at hr
        by_cases hp : (load (h.set a { load h a with marked := true }) a).typeFlag = pairType
        · rw [if_pos hp] at hr
          have hp0 : (load h a).typeFlag = pairType := by rw [← s1.typeFlag_eq]; exact hp
          cases h1r : markFuel f (h.set a { load h a with marked := true })
              (load (h.set a { load h a with marked := true }) a).head with
          | panic e s => rw [h1r] at hr; simp at hr
          | diverge => rw [h1r] at hr; simp at hr
          | ok u h3 =>
            rw [h1r] at hr
            simp only [] at hr
            have hv1 := s1.heapValid hv
            have p1 := ih _ _ h3 hv1 (hv1.valid_at a).1 h1r
            have hv3 := p1.step.heapValid hv1
            have p2 := ih _ _ h2 hv3 (hv3.valid_at a).2.1 hr
            have s13 := s1.trans p1.step
            have s12 := s13.trans p2.step
            have am1 : (load (h.set a { load h a with marked := true }) a).marked = true := by
              rw [self]
            refine ⟨s12, ⟨a, rfl, p2.step.mono a (p1.step.mono a am1)⟩, ?_, ?_⟩
            · intro x hx2 hx0 hxp
              by_cases hxa : x = a
              · subst hxa
                obtain ⟨b, hb, hbm⟩ := p1.root
                obtain ⟨c, hc, hcm⟩ := p2.root
                rw [s1.head_eq] at hb
                rw [s13.tail_eq] at hc
                exact ⟨⟨b, hb, p2.step.mono b hbm⟩, ⟨c, hc, hcm⟩⟩
              · have hx1 : (load (h.set a { load h a with marked := true }) x).marked = false := by
                  rw [other x hxa]; exact hx0
                by_cases hx3 : (load h3 x).marked = true
                · obtain ⟨⟨b, hb, hbm⟩, ⟨c, hc, hcm⟩⟩ :=
                    p1.closed x hx3 hx1 (by rw [s1.typeFlag_eq]; exact hxp)
                  rw [s1.head_eq] at hb
                  rw [s1.tail_eq] at hc
                  exact ⟨⟨b, hb, p2.step.mono b hbm⟩, ⟨c, hc, p2.step.mono c hcm⟩⟩
                · have hx3f : (load h3 x).marked = false := by simpa using hx3
                  obtain ⟨⟨b, hb, hbm⟩, ⟨c, hc, hcm⟩⟩ :=
                    p2.closed x hx2 hx3f (by rw [s13.typeFlag_eq]; exact hxp)
                  rw [s13.head_eq] at hb
                  rw [s13.tail_eq] at hc
                  exact ⟨⟨b, hb, hbm⟩, ⟨c, hc, hcm⟩⟩
            · intro x hx2 hx0
              refine ⟨a, rfl, ?_⟩
              by_cases hxa : x = a
              · subst hxa; exact Relation.ReflTransGen.refl
              · have hx1 : (load (h.set a { load h a with marked := true }) x).marked = false := by
                  rw [other x hxa]; exact hx0
                by_cases hx3 : (load h3 x).marked = true
                · obtain ⟨r, hr1, hr2⟩ := p1.reach x hx3 hx1
                  rw [s1.head_eq] at hr1
                  exact Relation.ReflTransGen.head ⟨hp0, Or.inl hr1⟩ ((s1.reach r x).1 hr2)
                · have hx3f : (load h3 x).marked = false := by simpa using hx3
                  obtain ⟨r, hr1, hr2⟩ := p2.reach x hx2 hx3f
                  rw [s13.tail_eq] at hr1
                  exact Relation.ReflTransGen.head ⟨hp0, Or.inr hr1⟩ ((s13.reach r x).1 hr2)
        · rw [if_neg hp] at hr
          injection hr with _ hr
          subst hr
          have hp0 : ¬ (load h a).typeFlag = pairType := by rw [← s1.typeFlag_eq]; exact hp
          refine ⟨s1, ⟨a, rfl, by rw [self]⟩, ?_, ?_⟩
          · intro x hx2 hx0 hxp
            by_cases hxa : x = a
            · subst hxa; exact absurd hxp hp0
            · rw [other x hxa, hx0] at hx2; simp at hx2
          · intro x hx2 hx0
            by_cases hxa : x = a
            · subst hxa; exact ⟨x, rfl, Relation.ReflTransGen.refl⟩
            · rw [other x hxa, hx0] at hx2; simp at hx2

theorem markFuel_step : ∀ (f : Nat) (h : Heap) (o : Ptr),
    (∀ u s, markFuel f h o = .ok u s → MarkStep h s) ∧
    (∀ e s, markFuel f h o = .panic e s → MarkStep h s) := by
  intro f
  induction f with
  | zero => intro h o; simp [markFuel]
  | succ f ih =>
    intro h o
    cases o with
    | none =>
      simp only [markFuel]
      refine ⟨fun u s hr => by simp at hr, fun e s hr => ?_⟩
      injection hr with _ hs
      subst hs
      exact MarkStep.refl h
    | some a =>
      rw [markFuel]
      by_cases hm : (load h a).marked = true
      · rw [if_pos hm]
        refine ⟨fun u s hr => ?_, fun e s hr => by simp at hr⟩
        injection hr with _ hs
        subst hs
        exact MarkStep.refl h
      · rw [if_neg hm]
        have s1 : MarkStep h (h.set a { load h a with marked := true }) :=
          MarkStep.set_marked h a
        simp only []
        by_cases hp : (load (h.set a { load h a with marked := true }) a).typeFlag = pairType
        · rw [if_pos hp]
          cases h1r : markFuel f (h.set a { load h a with marked := true })
              (load (h.set a { load h a with marked := true }) a).head with
          | panic e s =>
            simp only []
            refine ⟨fun u s hr => by simp at hr, fun e2 s2 hr => ?_⟩
            injection hr with _ hs
            subst hs
            exact s1.trans ((ih _ _).2 e s h1r)
          | diverge => simp
          | ok u h3 =>
            simp only []
            have s3 := s1.trans ((ih _ _).1 u h3 h1r)
            exact ⟨fun u2 s hr => s3.trans ((ih _ _).1 u2 s hr),
              fun e s hr => s3.trans ((ih _ _).2 e s hr)⟩
        · rw [if_neg hp]
          refine ⟨fun u s hr => ?_, fun e s hr => by simp at hr⟩
          injection hr with _ hs
          subst hs
          exact s1

theorem load_cons_zero (x : object) (t : Heap) : load (x :: t) 0 = x := rfl

theorem load_cons_succ (x : object) (t : Heap) (n : Nat) : load (x :: t) (n + 1) = load t n := rfl

theorem unmarkedCount_mono : ∀ (h1 h2 : Heap), h2.length = h1.length →
    (∀ a, (load h1 a).marked = true → (load h2 a).marked = true) →
    unmarkedCount h2 ≤ unmarkedCount h1 := by
  intro h1
  induction h1 with
  | nil =>
    intro h2 hl _
    have : h2 = [] := List.length_eq_zero.mp hl
    subst this
    exact Nat.le_refl _
  | cons x t ih =>
    intro h2 hl hmono
    cases h2 with
    | nil => simp at hl
    | cons y t2 =>
      have hl2 : t2.length = t.length := by simpa using hl
      have hrec := ih t2 hl2 (fun a ha => hmono (a + 1) ha)
      have h0 : x.marked = true → y.marked = true := hmono 0
      simp only [unmarkedCount, List.countP_cons] at hrec ⊢
      cases hx : x.marked <;> cases hy : y.marked <;> simp_all
      omega

theorem MarkStep.count_le {h1 h2 : Heap} (s : MarkStep h1 h2) :
    unmarkedCount h2 ≤ unmarkedCount h1 :=
  unmarkedCount_mono h1 h2 s.length_eq s.mono

/-- The recursion of `mark` is bounded by the number of unmarked objects: with more fuel than
unmarked objects the call never runs out of fuel, whatever the shape of the object graph. -/
theorem markFuel_ne_diverge : ∀ (f : Nat) (h : Heap) (o : Ptr), unmarkedCount h < f →
    markFuel f h o ≠ .diverge := by
  intro f
  induction f with
  | zero => intro h o hlt; omega
  | succ f ih =>
    intro h o hlt
    cases o with
    | none => simp [markFuel]
    | some a =>
      rw [markFuel]
      by_cases hm : (load h a).marked = true
      · rw [if_pos hm]; simp
      · rw [if_neg hm]
        simp only []
        by_cases hp : (load (h.set a { load h a with marked := true }) a).typeFlag = pairType
        · rw [if_pos hp]
          have hm0 : (load h a).marked = false := by simpa using hm
          have s1 : MarkStep h (h.set a { load h a with marked := true }) :=
            MarkStep.set_marked h a
          have ha : a < h.length := by
            have := lt_of_pair _ a hp
            rwa [s1.length_eq] at this
          have hc := unmarkedCount_set_marked h a ha hm0
          have hlt1 : unmarkedCount (h.set a { load h a with marked := true }) < f := by omega
          cases h1r : markFuel f (h.set a { load h a with marked := true })
              (load (h.set a { load h a with marked := true }) a).head with
          | panic e s => simp
          | diverge => exact absurd h1r (ih _ _ hlt1)
          | ok u h3 =>
            simp only []
            have := ((markFuel_step f _ _).1 u h3 h1r).count_le
            exact ih _ _ (by omega)
        · rw [if_neg hp]; simp

theorem mark_ne_diverge (h : Heap) (o : Ptr) : mark h o ≠ .diverge :=
  markFuel_ne_diverge _ h o (Nat.lt_succ_of_le (unmarkedCount_le h))

theorem markAllLoop_post (stack : List Ptr) : ∀ (n i : Nat) (h h2 : Heap), HeapValid h →
    (∀ p ∈ stack, ValidPtr h p) → markAllLoop stack n i h = .ok () h2 →
    MarkAllPost stack i n h h2 := by
  intro n
  induction n with
  | zero =>
    intro i h h2 _ _ hr
    simp only [markAllLoop] at hr
    injection hr with _ hr
    subst hr
    exact ⟨MarkStep.refl h, fun j h1 h2 => by omega, fun x h1 h0 => by simp [h1] at h0,
      fun x h1 h0 => by simp [h1] at h0⟩
  | succ n ih =>
    intro i h h2 hv hs hr
    rw [markAllLoop] at hr
    cases hsi : stack[i]? with
    | none => rw [hsi] at hr; simp at hr
    | some p =>
      rw [hsi] at hr
      simp only [] at hr
      have hpmem : p ∈ stack := List.getElem?_mem hsi
      cases hmr : mark h p with
      | panic e s => rw [hmr] at hr; simp at hr
      | diverge => rw [hmr] at hr; simp at hr
      | ok u h1 =>
        rw [hmr] at hr
        simp only [] at hr
        have p1 : MarkPost h p h1 := markFuel_post _ h p h1 hv (hs p hpmem) hmr
        have hv1 := p1.step.heapValid hv
        have p2 := ih (i + 1) h1 h2 hv1 (fun q hq => p1.step.validPtr (hs q hq)) hr
        refine ⟨p1.step.trans p2.step, ?_, ?_, ?_⟩
        · intro j hij hjn
          by_cases hji : j = i
          · subst hji
            obtain ⟨a, ha, ham⟩ := p1.root
            exact ⟨a, by rw [hsi, ha], p2.step.mono a ham⟩
          · exact p2.roots j (by omega) (by omega)
        · intro x hx2 hx0 hxp
          by_cases hx1 : (load h1 x).marked = true
          · obtain ⟨⟨b, hb, hbm⟩, ⟨c, hc, hcm⟩⟩ := p1.closed x hx1 hx0 hxp
            exact ⟨⟨b, hb, p2.step.mono b hbm⟩, ⟨c, hc, p2.step.mono c hcm⟩⟩
          · have hx1f : (load h1 x).marked = false := by simpa using hx1
            obtain ⟨⟨b, hb, hbm⟩, ⟨c, hc, hcm⟩⟩ :=
              p2.closed x hx2 hx1f (by rw [p1.step.typeFlag_eq]; exact hxp)
            rw [p1.step.head_eq] at hb
            rw [p1.step.tail_eq] at hc
            exact ⟨⟨b, hb, hbm⟩, ⟨c, hc, hcm⟩⟩
        · intro x hx2 hx0
          by_cases hx1 : (load h1 x).marked = true
          · obtain ⟨r, hr1, hr2⟩ := p1.reach x hx1 hx0
            exact ⟨i, r, Nat.le_refl i, by omega, by rw [hsi, hr1], hr2⟩
          · have hx1f : (load h1 x).marked = false := by simpa using hx1
            obtain ⟨j, r, hj1, hj2, hj3, hj4⟩ := p2.reach x hx2 hx1f
            exact ⟨j, r, by omega, by omega, hj3, (p1.step.reach r x).1 hj4⟩

theorem markAllLoop_step (stack : List Ptr) : ∀ (n i : Nat) (h : Heap),
    (∀ u s, markAllLoop stack n i h = .ok u s → MarkStep h s) ∧
    (∀ e s, markAllLoop stack n i h = .panic e s → MarkStep h s) := by
  intro n
  induction n with
  | zero =>
    intro i h
    simp only [markAllLoop]
    refine ⟨fun u s hr => ?_, fun e s hr => by simp at hr⟩
    injection hr with _ hs
    subst hs
    exact MarkStep.refl h
  | succ n ih =>
    intro i h
    rw [markAllLoop]
    cases hsi : stack[i]? with
    | none =>
      simp only []
      refine ⟨fun u s hr => by simp at hr, fun e s hr => ?_⟩
      injection hr with _ hs
      subst hs
      exact MarkStep.refl h
    | some p =>
      simp only []
      cases hmr : mark h p with
      | panic e s =>
        simp only []
        refine ⟨fun u s hr => by simp at hr, fun e2 s2 hr => ?_⟩
        injection hr with _ hs
        subst hs
        exact (markFuel_step _ h p).2 e s hmr
      | diverge => simp
      | ok u h1 =>
        simp only []
        have s1 := (markFuel_step _ h p).1 u h1 hmr
        exact ⟨fun u2 s hr => s1.trans ((ih _ _).1 u2 s hr),
          fun e s hr => s1.trans ((ih _ _).2 e s hr)⟩

theorem markAllLoop_ne_diverge (stack : List Ptr) : ∀ (n i : Nat) (h : Heap),
    markAllLoop stack n i h ≠ .diverge := by
  intro n
  induction n with
  | zero => intro i h; simp [markAllLoop]
  | succ n ih =>
    intro i h
    rw [markAllLoop]
    cases hsi : stack[i]? with
    | none => simp
    | some p =>
      simp only []
      cases hmr : mark h p with
      | panic e s => simp
      | diverge => exact absurd hmr (mark_ne_diverge h p)
      | ok u h1 => exact ih _ _

theorem markAll_ne_diverge (v : vm) : markAll v ≠ .diverge := by
  unfold markAll
  cases hr : markAllLoop v.stack v.stackSize.toNat 0 v.mem with
  | ok u h => simp
  | panic e h => simp
  | diverge => exact absurd hr (markAllLoop_ne_diverge _ _ _ _)

theorem IsChain.congr {h1 h2 : Heap} : ∀ (l : List Nat) (p : Ptr),
    (∀ x ∈ l, (load h2 x).next = (load h1 x).next) → IsChain h1 p l → IsChain h2 p l := by
  intro l
  induction l with
  | nil => intro p _ hc; exact hc
  | cons a t ih =>
    intro p hn hc
    refine ⟨hc.1, ?_⟩
    rw [hn a (List.mem_cons_self a t)]
    exact ih _ (fun x hx => hn x (List.mem_cons_of_mem a hx)) hc.2

theorem IsChain.unique {h : Heap} : ∀ (l1 l2 : List Nat) (p : Ptr),
    IsChain h p l1 → IsChain h p l2 → l1 = l2 := by
  intro l1
  induction l1 with
  | nil =>
    intro l2 p h1 h2
    cases l2 with
    | nil => rfl
    | cons b t2 =>
      have e1 : p = none := h1
      have e2 : p = some b := h2.1
      rw [e1] at e2
      exact absurd e2 (by simp)
  | cons a t ih =>
    intro l2 p h1 h2
    cases l2 with
    | nil =>
      have e1 : p = some a := h1.1
      have e2 : p = none := h2
      rw [e1] at e2
      exact absurd e2 (by simp)
    | cons b t2 =>
      have e1 : p = some a := h1.1
      have e2 : p = some b := h2.1
      have hab : a = b := by rw [e1] at e2; exact Option.some.inj e2
      subst hab
      rw [ih t2 _ h1.2 h2.2]

theorem IsChain.suffix {h : Heap} : ∀ (l1 l2 : List Nat) (p : Ptr),
    IsChain h p (l1 ++ l2) → ∃ q, IsChain h q l2 := by
  intro l1
  induction l1 with
  | nil => intro l2 p hc; exact ⟨p, hc⟩
  | cons a t ih => intro l2 p hc; exact ih l2 _ hc.2

theorem IsChain.nodup {h : Heap} : ∀ (l : List Nat) (p : Ptr), IsChain h p l → l.Nodup := by
  intro l
  induction l with
  | nil => intro _ _; exact List.nodup_nil
  | cons a t ih =>
    intro p hc
    refine List.nodup_cons.mpr ⟨?_, ih _ hc.2⟩
    intro hat
    obtain ⟨t1, t2, ht⟩ := List.append_of_mem hat
    have hc2 := hc.2
    rw [ht] at hc2
    obtain ⟨q, hq⟩ := IsChain.suffix t1 (a :: t2) _ hc2
    have hq2 : IsChain h (load h a).next t2 := hq.2
    have := IsChain.unique _ _ _ hc.2 hq2
    have hl := congrArg List.length this
    rw [ht] at hl
    simp at hl
    omega

theorem sweepLoop_nil (f : Nat) (v : vm) (prev : Ptr) : sweepLoop f v none prev = .ok () v := by
  cases f <;> rfl

theorem sweepLoop_succ (f : Nat) (v : vm) (a : Nat) (prev : Ptr) :
    sweepLoop (f + 1) v (some a) prev =
      if (load v.mem a).marked = false then
        printFreed
          (match prev with
              | none => { v with firstObject := (load v.mem a).next }
              | some p =>
                { v with mem := v.mem.set p { load v.mem p with next := (load v.mem a).next } }
              : vm).mem a
          (sweepLoop f
            { (match prev with
                | none => { v with firstObject := (load v.mem a).next }
                | some p =>
                  { v with mem := v.mem.set p { load v.mem p with next := (load v.mem a).next } }
                : vm) with
              numObjects := (match prev with
                | none => { v with firstObject := (load v.mem a).next }
                | some p =>
                  { v with mem := v.mem.set p { load v.mem p with next := (load v.mem a).next } }
                : vm).numObjects - 1 }
            (load (match prev with
                | none => { v with firstObject := (load v.mem a).next }
                | some p =>
                  { v with mem := v.mem.set p { load v.mem p with next := (load v.mem a).next } }
                : vm).mem a).next prev)
      else
        sweepLoop f { v with mem := v.mem.set a { load v.mem a with marked := false } }
          (load (v.mem.set a { load v.mem a with marked := false }) a).next (some a) := rfl

theorem sweepLoop_post : ∀ (l : List Nat) (f : Nat) (v : vm) (o prev : Ptr),
    IsChain v.mem o l → l.Nodup → (∀ p, prev = some p → p ∉ l ∧ p < v.mem.length) →
    link v prev = o → l.length < f →
    (∀ x ∈ l, (load v.mem x).marked = false → Printable v.mem x) →
    ∃ v2, sweepLoop f v o prev = .ok () v2 ∧ SweepPost v prev l v2 := by
  intro l
  induction l with
  | nil =>
    intro f v o prev hc _ _ hl _ _
    have ho : o = none := hc
    subst ho
    refine ⟨v, sweepLoop_nil f v prev, ?_⟩
    exact
      { stack_eq := rfl, stackSize_eq := rfl, maxObjects_eq := rfl,
        numObjects_eq := by simp, length_eq := rfl,
        typeFlag_eq := fun _ => rfl, value_eq := fun _ => rfl, head_eq := fun _ => rfl,
        tail_eq := fun _ => rfl, marked_eq := fun a => by simp,
        chain := hl, frame := fun _ _ _ => rfl, first_eq := fun _ => rfl }
  | cons a t ih =>
    intro f v o prev hc hnd hprev hl hf hpr
    obtain ⟨ho, hct⟩ := hc
    subst ho
    obtain ⟨hat, hndt⟩ := List.nodup_cons.mp hnd
    cases f with
    | zero => simp at hf
    | succ f =>
      have hf2 : t.length < f := by simpa using hf
      rw [sweepLoop_succ]
      by_cases hm : (load v.mem a).marked = false
      · rw [if_pos hm]
        cases prev with
        | none =>
          obtain ⟨v2, hrun, post⟩ := ih f
            { v with firstObject := (load v.mem a).next, numObjects := v.numObjects - 1 }
            (load v.mem a).next none hct hndt (by simp) rfl hf2
            (fun x hx => hpr x (List.mem_cons_of_mem a hx))
          refine ⟨v2, ?_, ?_⟩
          · show printFreed v.mem a _ = _
            rw [printFreed_of_printable _ _ _ (hpr a (List.mem_cons_self a t) hm)]
            exact hrun
          exact
            { stack_eq := post.stack_eq, stackSize_eq := post.stackSize_eq,
              maxObjects_eq := post.maxObjects_eq,
              numObjects_eq := by
                have := post.numObjects_eq
                simp only [List.filter_cons, hm] at this ⊢
                simp only [Bool.not_false, if_true, List.length_cons] at this ⊢
                push_cast
                omega
              length_eq := post.length_eq,
              typeFlag_eq := post.typeFlag_eq, value_eq := post.value_eq,
              head_eq := post.head_eq, tail_eq := post.tail_eq,
              marked_eq := fun x => by
                rw [post.marked_eq]
                by_cases hxa : x = a
                · subst hxa; simp [hm]
                · simp [hxa]
              chain := by
                have := post.chain
                simpa [List.filter_cons, hm] using this
              frame := fun x hx hp =>
                post.frame x (fun hxt => hx (List.mem_cons_of_mem a hxt)) hp
              first_eq := fun hne => absurd rfl hne }
        | some p =>
          obtain ⟨hpl, hplt⟩ := hprev p rfl
          have hpa : p ≠ a := fun e => hpl (e ▸ List.mem_cons_self a t)
          have hpt : p ∉ t := fun e => hpl (List.mem_cons_of_mem a e)
          have other : ∀ x, x ≠ p →
              load (v.mem.set p { load v.mem p with next := (load v.mem a).next }) x
                = load v.mem x := fun x hx => load_set_ne v.mem p x _ (Ne.symm hx)
          have self := load_set_eq v.mem p { load v.mem p with next := (load v.mem a).next } hplt
          have hmk : ∀ x,
              (load (v.mem.set p { load v.mem p with next := (load v.mem a).next }) x).marked
                = (load v.mem x).marked := by
            intro x
            by_cases hx : x = p
            · subst hx; rw [self]
            · rw [other x hx]
          have ea := other a (Ne.symm hpa)
          obtain ⟨v2, hrun, post⟩ := ih f
            { v with mem := v.mem.set p { load v.mem p with next := (load v.mem a).next },
                     numObjects := v.numObjects - 1 }
            (load (v.mem.set p { load v.mem p with next := (load v.mem a).next }) a).next (some p)
            (by
              rw [ea]
              exact IsChain.congr t _
                (fun x hx => by rw [other x (fun e => hpt (e ▸ hx))]) hct)
            hndt
            (fun q hq => by
              have : q = p := (Option.some.inj hq).symm
              subst this
              exact ⟨hpt, by simpa using hplt⟩)
            (by simp only [link]; rw [self, ea])
            hf2
            (fun x hx hxm =>
              (printable_set v.mem p { load v.mem p with next := (load v.mem a).next }
                rfl rfl rfl rfl x).2
                (hpr x (List.mem_cons_of_mem a hx) (by rw [← hmk x]; exact hxm)))
          have hrun2 : printFreed
              (v.mem.set p { load v.mem p with next := (load v.mem a).next }) a
              (sweepLoop f
                { v with mem := v.mem.set p { load v.mem p with next := (load v.mem a).next },
                         numObjects := v.numObjects - 1 }
                (load (v.mem.set p { load v.mem p with next := (load v.mem a).next }) a).next
                (some p)) = .ok () v2 := by
            rw [printFreed_of_printable _ _ _
              ((printable_set v.mem p { load v.mem p with next := (load v.mem a).next }
                rfl rfl rfl rfl a).2
                (hpr a (List.mem_cons_self a t) hm))]
            exact hrun
          refine ⟨v2, hrun2, ?_⟩
          have hfilt1 : (t.filter fun x => !(load (v.mem.set p
              { load v.mem p with next := (load v.mem a).next }) x).marked)
              = t.filter fun x => !(load v.mem x).marked :=
            List.filter_congr (fun x _ => by rw [hmk x])
          have hfilt2 : (t.filter fun x => (load (v.mem.set p
              { load v.mem p with next := (load v.mem a).next }) x).marked)
              = t.filter fun x => (load v.mem x).marked :=
            List.filter_congr (fun x _ => by rw [hmk x])
          have fld : ∀ x, (load (v.mem.set p
              { load v.mem p with next := (load v.mem a).next }) x).typeFlag
                = (load v.mem x).typeFlag ∧
              (load (v.mem.set p { load v.mem p with next := (load v.mem a).next }) x).value
                = (load v.mem x).value ∧
              (load (v.mem.set p { load v.mem p with next := (load v.mem a).next }) x).head
                = (load v.mem x).head ∧
              (load (v.mem.set p { load v.mem p with next := (load v.mem a).next }) x).tail
                = (load v.mem x).tail := by
            intro x
            by_cases hx : x = p
            · subst hx; rw [self]; exact ⟨rfl, rfl, rfl, rfl⟩
            · rw [other x hx]; exact ⟨rfl, rfl, rfl, rfl⟩
          exact
            { stack_eq := post.stack_eq, stackSize_eq := post.stackSize_eq,
              maxObjects_eq := post.maxObjects_eq,
              numObjects_eq := by
                have := post.numObjects_eq
                simp only [hfilt1] at this
                simp only [List.filter_cons, hm] at this ⊢
                simp only [Bool.not_false, if_true, List.length_cons] at this ⊢
                push_cast
                omega
              length_eq := by rw [post.length_eq]; simp,
              typeFlag_eq := fun x => (post.typeFlag_eq x).trans (fld x).1,
              value_eq := fun x => (post.value_eq x).trans (fld x).2.1,
              head_eq := fun x => (post.head_eq x).trans (fld x).2.2.1,
              tail_eq := fun x => (post.tail_eq x).trans (fld x).2.2.2,
              marked_eq := fun x => by
                rw [post.marked_eq]
                simp only [hmk]
                by_cases hxa : x = a
                · subst hxa; simp [hm]
                · simp [hxa]
              chain := by
                have := post.chain
                simp only [hfilt2] at this
                simpa [List.filter_cons, hm] using this
              frame := fun x hx hp => by
                rw [post.frame x (fun hxt => hx (List.mem_cons_of_mem a hxt)) hp]
                exact other x (fun e => hp (by rw [e]))
              first_eq := fun _ => post.first_eq (by simp) }
      · rw [if_neg hm]
        have hm1 : (load v.mem a).marked = true := by simpa using hm
        have halt : a < v.mem.length := lt_of_marked _ _ hm1
        have other : ∀ x, x ≠ a →
            load (v.mem.set a { load v.mem a with marked := false }) x = load v.mem x :=
          fun x hx => load_set_ne v.mem a x _ (Ne.symm hx)
        have self := load_set_eq v.mem a { load v.mem a with marked := false } halt
        obtain ⟨v2, hrun, post⟩ := ih f
          { v with mem := v.mem.set a { load v.mem a with marked := false } }
          (load (v.mem.set a { load v.mem a with marked := false }) a).next (some a)
          (by
            rw [self]
            exact IsChain.congr t _
              (fun x hx => by rw [other x (fun e => hat (e ▸ hx))]) hct)
          hndt
          (fun q hq => by
            have : q = a := (Option.some.inj hq).symm
            subst this
            exact ⟨hat, by simpa using halt⟩)
          rfl hf2
          (fun x hx hxm => by
            have hxa : x ≠ a := fun e => hat (e ▸ hx)
            rw [other x hxa] at hxm
            exact (printable_set v.mem a { load v.mem a with marked := false } rfl rfl rfl rfl x).2
              (hpr x (List.mem_cons_of_mem a hx) hxm))
        refine ⟨v2, hrun, ?_⟩
        have hfilt1 : (t.filter fun x => !(load (v.mem.set a
            { load v.mem a with marked := false }) x).marked)
            = t.filter fun x => !(load v.mem x).marked :=
          List.filter_congr (fun x hx => by rw [other x (fun e => hat (e ▸ hx))])
        have hfilt2 : (t.filter fun x => (load (v.mem.set a
            { load v.mem a with marked := false }) x).marked)
            = t.filter fun x => (load v.mem x).marked :=
          List.filter_congr (fun x hx => by rw [other x (fun e => hat (e ▸ hx))])
        have fld : ∀ x, (load (v.mem.set a { load v.mem a with marked := false }) x).typeFlag
              = (load v.mem x).typeFlag ∧
            (load (v.mem.set a { load v.mem a with marked := false }) x).value
              = (load v.mem x).value ∧
            (load (v.mem.set a { load v.mem a with marked := false }) x).head
              = (load v.mem x).head ∧
            (load (v.mem.set a { load v.mem a with marked := false }) x).tail
              = (load v.mem x).tail := by
          intro x
          by_cases hx : x = a
          · subst hx; rw [self]; exact ⟨rfl, rfl, rfl, rfl⟩
          · rw [other x hx]; exact ⟨rfl, rfl, rfl, rfl⟩
        exact
          { stack_eq := post.stack_eq, stackSize_eq := post.stackSize_eq,
            maxObjects_eq := post.maxObjects_eq,
            numObjects_eq := by
              have := post.numObjects_eq
              simp only [hfilt1] at this
              simp only [List.filter_cons, hm1] at this ⊢
              simpa using this
            length_eq := by rw [post.length_eq]; simp,
            typeFlag_eq := fun x => (post.typeFlag_eq x).trans (fld x).1,
            value_eq := fun x => (post.value_eq x).trans (fld x).2.1,
            head_eq := fun x => (post.head_eq x).trans (fld x).2.2.1,
            tail_eq := fun x => (post.tail_eq x).trans (fld x).2.2.2,
            marked_eq := fun x => by
              rw [post.marked_eq]
              by_cases hxa : x = a
              · subst hxa; rw [self]; simp
              · rw [other x hxa]; simp [hxa]
            chain := by
              have hc2 := post.chain
              simp only [hfilt2] at hc2
              simp only [List.filter_cons, hm1, if_true]
              refine ⟨?_, hc2⟩
              cases prev with
              | none =>
                simp only [link] at hl ⊢
                rw [post.first_eq (by simp)]
                exact hl
              | some p =>
                obtain ⟨hpl, _⟩ := hprev p rfl
                have hpa : p ≠ a := fun e => hpl (e ▸ List.mem_cons_self a t)
                have hpt : p ∉ t := fun e => hpl (List.mem_cons_of_mem a e)
                simp only [link] at hl ⊢
                rw [post.frame p hpt (by simpa using Ne.symm hpa), other p hpa]
                exact hl
            frame := fun x hx hp => by
              have hxa : x ≠ a := fun e => hx (e ▸ List.mem_cons_self a t)
              rw [post.frame x (fun hxt => hx (List.mem_cons_of_mem a hxt))
                (by simpa using Ne.symm hxa)]
              exact other x hxa
            first_eq := fun hne => post.first_eq (by simp) }

theorem IsChain.lt_length {h : Heap} (hv : HeapValid h) : ∀ (l : List Nat) (p : Ptr),
    ValidPtr h p → IsChain h p l → ∀ x ∈ l, x < h.length := by
  intro l
  induction l with
  | nil => intro p _ _ x hx; simp at hx
  | cons a t ih =>
    intro p hp hc x hx
    rcases List.mem_cons.mp hx with rfl | hxt
    · have e : p = some x := hc.1
      subst e
      exact hp
    · exact ih _ (hv.valid_at a).2.2 hc.2 x hxt


theorem MarkStep.isChain {h1 h2 : Heap} (s : MarkStep h1 h2) (p : Ptr) (l : List Nat)
    (hc : IsChain h1 p l) : IsChain h2 p l :=
  IsChain.congr l p (fun x _ => s.next_eq x) hc

/-- A sweep loop that returns has printed every object it freed. -/
theorem sweepLoop_printable : ∀ (l : List Nat) (f : Nat) (v : vm) (o prev : Ptr) (u : Unit)
    (s : vm), IsChain v.mem o l → l.Nodup → (∀ p, prev = some p → p ∉ l ∧ p < v.mem.length) →
    sweepLoop f v o prev = .ok u s →
    ∀ x ∈ l, (load v.mem x).marked = false → Printable v.mem x := by
  intro l
  induction l with
  | nil =>
    intro f v o prev u s _ _ _ _ x hx
    simp at hx
  | cons a t ih =>
    intro f v o prev u s hc hnd hprev hr x hx hxm
    obtain ⟨ho, hct⟩ := hc
    subst ho
    obtain ⟨hat, hndt⟩ := List.nodup_cons.mp hnd
    cases f with
    | zero => simp [sweepLoop] at hr
    | succ f =>
      rw [sweepLoop_succ] at hr
      by_cases hm : (load v.mem a).marked = false
      · rw [if_pos hm] at hr
        cases prev with
        | none =>
          obtain ⟨hpa, hr2⟩ := printFreed_ok v.mem a _ u s hr
          rcases List.mem_cons.mp hx with e | hxt
          · rw [e]
            exact hpa
          · exact ih f
              { v with firstObject := (load v.mem a).next, numObjects := v.numObjects - 1 }
              (load v.mem a).next none u s hct hndt (by simp) hr2 x hxt hxm
        | some p =>
          obtain ⟨hpl, hplt⟩ := hprev p rfl
          have hpa : p ≠ a := fun e => hpl (e ▸ List.mem_cons_self a t)
          have hpt : p ∉ t := fun e => hpl (List.mem_cons_of_mem a e)
          have other : ∀ y, y ≠ p →
              load (v.mem.set p { load v.mem p with next := (load v.mem a).next }) y
                = load v.mem y := fun y hy => load_set_ne v.mem p y _ (Ne.symm hy)
          have self := load_set_eq v.mem p { load v.mem p with next := (load v.mem a).next } hplt
          have hmk : ∀ y,
              (load (v.mem.set p { load v.mem p with next := (load v.mem a).next }) y).marked
                = (load v.mem y).marked := by
            intro y
            by_cases hy : y = p
            · subst hy; rw [self]
            · rw [other y hy]
          have ea := other a (Ne.symm hpa)
          obtain ⟨hpr, hr2⟩ := printFreed_ok
            (v.mem.set p { load v.mem p with next := (load v.mem a).next }) a _ u s hr
          have hback := fun y =>
            (printable_set v.mem p { load v.mem p with next := (load v.mem a).next }
              rfl rfl rfl rfl y).1
          rcases List.mem_cons.mp hx with e | hxt
          · rw [e]
            exact hback a hpr
          · refine hback x (ih f
              { v with mem := v.mem.set p { load v.mem p with next := (load v.mem a).next },
                       numObjects := v.numObjects - 1 }
              (load (v.mem.set p { load v.mem p with next := (load v.mem a).next }) a).next
              (some p) u s ?_ hndt ?_ hr2 x hxt ?_)
            · rw [ea]
              exact IsChain.congr t _
                (fun y hy => by rw [other y (fun e => hpt (e ▸ hy))]) hct
            · intro q hq
              have : q = p := (Option.some.inj hq).symm
              subst this
              exact ⟨hpt, by simpa using hplt⟩
            · show (load (v.mem.set p { load v.mem p with next := (load v.mem a).next }) x).marked
                = false
              rw [hmk x]
              exact hxm
      · rw [if_neg hm] at hr
        have hm1 : (load v.mem a).marked = true := by simpa using hm
        have halt : a < v.mem.length := lt_of_marked _ _ hm1
        have other : ∀ y, y ≠ a →
            load (v.mem.set a { load v.mem a with marked := false }) y = load v.mem y :=
          fun y hy => load_set_ne v.mem a y _ (Ne.symm hy)
        have self := load_set_eq v.mem a { load v.mem a with marked := false } halt
        rcases List.mem_cons.mp hx with e | hxt
        · rw [e] at hxm
          rw [hxm] at hm1
          exact absurd hm1 (by decide)
        · have hxa : x ≠ a := fun e => hat (e ▸ hxt)
          refine (printable_set v.mem a { load v.mem a with marked := false }
            rfl rfl rfl rfl x).1 (ih f
              { v with mem := v.mem.set a { load v.mem a with marked := false } }
              (load (v.mem.set a { load v.mem a with marked := false }) a).next (some a) u s
              ?_ hndt ?_ hr x hxt ?_)
          · rw [self]
            exact IsChain.congr t _
              (fun y hy => by rw [other y (fun e => hat (e ▸ hy))]) hct
          · intro q hq
            have : q = a := (Option.some.inj hq).symm
            subst this
            exact ⟨hat, by simpa using halt⟩
          · show (load (v.mem.set a { load v.mem a with marked := false }) x).marked = false
            rw [other x hxa]
            exact hxm

theorem MarkStep.printable {h1 h2 : Heap} (s : MarkStep h1 h2) (a : Nat) :
    Printable h2 a ↔ Printable h1 a :=
  printable_congr h1 h2 s.length_eq
    (fun x => ⟨s.typeFlag_eq x, s.value_eq x, s.head_eq x, s.tail_eq x⟩) a

theorem MarkStep.unmarked {h1 h2 : Heap} (s : MarkStep h1 h2) (a : Nat)
    (h : (load h2 a).marked = false) : (load h1 a).marked = false := by
  by_contra hc
  have h1t : (load h1 a).marked = true := by simpa using hc
  rw [s.mono a h1t] at h
  exact absurd h (by decide)

/-- On a registry that is a `nil`-terminated chain the sweep ends and filters the chain, when
`String` returns on every object it frees. -/
theorem sweep_post (v : vm) (l : List Nat) (hv : HeapValid v.mem)
    (hf : ValidPtr v.mem v.firstObject) (hreg : Registry v l)
    (hpr : ∀ x ∈ l, (load v.mem x).marked = false → Printable v.mem x) :
    ∃ v2, sweep v = .ok () v2 ∧ SweepPost v none l v2 := by
  have hnd := IsChain.nodup l _ hreg
  have hlen := length_le_of_nodup_lt l _ hnd (IsChain.lt_length hv l _ hf hreg)
  exact sweepLoop_post l (v.mem.length + 1) v v.firstObject none hreg hnd (by simp) rfl
    (Nat.lt_succ_of_le hlen) hpr

theorem markAll_ok_inv (v v1 : vm) (hm : markAll v = .ok () v1) :
    markAllLoop v.stack v.stackSize.toNat 0 v.mem = .ok () v1.mem ∧
    v1 = { v with mem := v1.mem } := by
  unfold markAll at hm
  cases hr : markAllLoop v.stack v.stackSize.toNat 0 v.mem with
  | ok u h =>
    rw [hr] at hm
    simp only [] at hm
    injection hm with _ hm
    subst hm
    exact ⟨rfl, rfl⟩
  | panic e h => rw [hr] at hm; simp at hm
  | diverge => rw [hr] at hm; simp at hm

theorem markAll_post (v v1 : vm) (wf : WF v) (hm : markAll v = .ok () v1) :
    MarkAllPost v.stack 0 v.stackSize.toNat v.mem v1.mem :=
  markAllLoop_post v.stack _ 0 v.mem v1.mem wf.1 wf.2.1 (markAll_ok_inv v v1 hm).1

theorem root_iff (v : vm) (a : Nat) :
    Root v a ↔ ∃ j, 0 ≤ j ∧ j < 0 + v.stackSize.toNat ∧ v.stack[j]? = some (some a) := by
  constructor
  · rintro ⟨i, hi, hs⟩
    exact ⟨i, Nat.zero_le i, by omega, hs⟩
  · rintro ⟨j, _, hj, hs⟩
    exact ⟨j, by omega, hs⟩

/-- After a returning mark phase every root is non-nil and marked. -/
theorem markAll_root_marked (v v1 : vm) (wf : WF v) (hm : markAll v = .ok () v1)
    (r : Nat) (hr : Root v r) : (load v1.mem r).marked = true := by
  obtain ⟨j, hj0, hj1, hs⟩ := (root_iff v r).1 hr
  obtain ⟨a, ha, ham⟩ := (markAll_post v v1 wf hm).roots j hj0 hj1
  rw [hs] at ha
  have : r = a := Option.some.inj (Option.some.inj ha)
  subst this
  exact ham

/-- Starting without marks, the mark phase marks every object reachable from the roots. -/
theorem markAll_marks_reachable (v v1 : vm) (wf : WF v) (nm : NoMarks v.mem)
    (hm : markAll v = .ok () v1) (x : Nat) (hx : Reachable v x) :
    (load v1.mem x).marked = true := by
  obtain ⟨r, hr, hpath⟩ := hx
  have post := markAll_post v v1 wf hm
  induction hpath with
  | refl => exact markAll_root_marked v v1 wf hm r hr
  | @tail y z _ hedge ih =>
    obtain ⟨⟨b, hb, hbm⟩, ⟨c, hc, hcm⟩⟩ := post.closed y ih (nm.unmarked_at y) hedge.1
    rcases hedge.2 with hh | ht
    · rw [hb] at hh
      rw [← Option.some.inj hh]
      exact hbm
    · rw [hc] at ht
      rw [← Option.some.inj ht]
      exact hcm

/-- The mark phase only marks objects reachable from the roots. -/
theorem markAll_marked_reachable (v v1 : vm) (wf : WF v) (hm : markAll v = .ok () v1)
    (x : Nat) (hx1 : (load v1.mem x).marked = true) (hx0 : (load v.mem x).marked = false) :
    Reachable v x := by
  obtain ⟨j, r, hj0, hj1, hs, hpath⟩ := (markAll_post v v1 wf hm).reach x hx1 hx0
  exact ⟨r, (root_iff v r).2 ⟨j, hj0, hj1, hs⟩, hpath⟩

theorem filter_length_split (p : Nat → Bool) (l : List Nat) :
    (l.filter p).length + (l.filter fun x => !p x).length = l.length := by
  induction l with
  | nil => rfl
  | cons a t ih =>
    cases hp : p a <;> simp [List.filter_cons, hp] <;> omega

theorem WF.of_markAll {v v1 : vm} (wf : WF v) (hm : markAll v = .ok () v1) : WF v1 := by
  obtain ⟨hloop, hv1⟩ := markAll_ok_inv v v1 hm
  have step := (markAllLoop_step v.stack _ 0 v.mem).1 () v1.mem hloop
  rw [hv1]
  exact ⟨step.heapValid wf.1, fun p hp => step.validPtr (wf.2.1 p hp), step.validPtr wf.2.2⟩

theorem gc_ok_inv (v v2 : vm) (hg : gc v = .ok () v2) :
    ∃ v1 v3, markAll v = .ok () v1 ∧ sweep v1 = .ok () v3 ∧
      v2 = { v3 with maxObjects := v3.numObjects * 2 } := by
  unfold gc at hg
  cases hm : markAll v with
  | panic e s => rw [hm] at hg; simp at hg
  | diverge => rw [hm] at hg; simp at hg
  | ok u v1 =>
    rw [hm] at hg
    simp only [] at hg
    cases hs : sweep v1 with
    | panic e s => rw [hs] at hg; simp at hg
    | diverge => rw [hs] at hg; simp at hg
    | ok u3 v3 =>
      rw [hs] at hg
      simp only [] at hg
      injection hg with _ hg
      exact ⟨v1, v3, rfl, hs, hg.symm⟩

/-- A returning mark phase is followed by a returning sweep that filters the registry, when
`String` returns on every object the sweep frees. -/
theorem gc_post (v v1 : vm) (l : List Nat) (wf : WF v) (hreg : Registry v l)
    (hm : markAll v = .ok () v1)
    (hpr : ∀ x ∈ l, (load v1.mem x).marked = false → Printable v1.mem x) :
    ∃ v3, sweep v1 = .ok () v3 ∧ SweepPost v1 none l v3 ∧
      gc v = .ok () { v3 with maxObjects := v3.numObjects * 2 } := by
  obtain ⟨hloop, hv1⟩ := markAll_ok_inv v v1 hm
  have step := (markAllLoop_step v.stack _ 0 v.mem).1 () v1.mem hloop
  have wf1 := wf.of_markAll hm
  have hreg1 : Registry v1 l := by
    have : v1.firstObject = v.firstObject := by rw [hv1]
    unfold Registry
    rw [this]
    exact step.isChain _ _ hreg
  obtain ⟨v3, hs, post⟩ := sweep_post v1 l wf1.1 wf1.2.2 hreg1 hpr
  refine ⟨v3, hs, post, ?_⟩
  unfold gc
  rw [hm]
  simp only []
  rw [hs]

/-- The objects that are unmarked after the mark phase were unmarked before it, and `String`
returns the same text on them. -/
theorem printable_after_mark (v v1 : vm) (l : List Nat) (hm : markAll v = .ok () v1)
    (hpr : ∀ x ∈ l, (load v.mem x).marked = false → Printable v.mem x) :
    ∀ x ∈ l, (load v1.mem x).marked = false → Printable v1.mem x := by
  obtain ⟨hloop, _⟩ := markAll_ok_inv v v1 hm
  have step := (markAllLoop_step v.stack _ 0 v.mem).1 () v1.mem hloop
  intro x hx hxm
  exact (step.printable x).2 (hpr x hx (step.unmarked x hxm))

/-- With valid pointers and a registry that is a `nil`-terminated chain, `gc` terminates when
`String` returns on every registered object that is unmarked. -/
theorem gc_ne_diverge (v : vm) (l : List Nat) (wf : WF v) (hreg : Registry v l)
    (hpr : ∀ x ∈ l, (load v.mem x).marked = false → Printable v.mem x) :
    gc v ≠ .diverge := by
  cases hm : markAll v with
  | diverge => exact absurd hm (markAll_ne_diverge v)
  | panic e s => unfold gc; rw [hm]; simp
  | ok u v1 =>
    obtain ⟨v3, _, _, hg⟩ := gc_post v v1 l wf hreg hm (printable_after_mark v v1 l hm hpr)
    rw [hg]
    simp

/-- Everything a returning `gc` does, in terms of the memory `v1.mem` left by its mark phase. -/
theorem gc_spec (v v2 : vm) (l : List Nat) (wf : WF v) (hreg : Registry v l)
    (hg : gc v = .ok () v2) :
    ∃ v1, markAll v = .ok () v1 ∧
      Registry v2 (l.filter fun x => (load v1.mem x).marked) ∧
      v2.numObjects = v.numObjects - ((l.filter fun x => !(load v1.mem x).marked).length : Int) ∧
      v2.maxObjects = v2.numObjects * 2 ∧
      v2.stack = v.stack ∧ v2.stackSize = v.stackSize ∧ v2.mem.length = v.mem.length ∧
      (∀ a, (load v2.mem a).typeFlag = (load v.mem a).typeFlag ∧
        (load v2.mem a).value = (load v.mem a).value ∧
        (load v2.mem a).head = (load v.mem a).head ∧
        (load v2.mem a).tail = (load v.mem a).tail) ∧
      (∀ a, (load v2.mem a).marked = ((load v1.mem a).marked && decide (a ∉ l))) := by
  obtain ⟨v1, v3', hm, hs', hv2'⟩ := gc_ok_inv v v2 hg
  have hreg1 : IsChain v1.mem v1.firstObject l := by
    obtain ⟨hloop0, hv10⟩ := markAll_ok_inv v v1 hm
    have h1 : v1.firstObject = v.firstObject := by rw [hv10]
    rw [h1]
    exact ((markAllLoop_step v.stack _ 0 v.mem).1 () v1.mem hloop0).isChain _ _ hreg
  have hpr := sweepLoop_printable l _ v1 _ none () v3' hreg1 (IsChain.nodup l _ hreg1)
    (by simp) hs'
  obtain ⟨v3, hs, post, hg3⟩ := gc_post v v1 l wf hreg hm hpr
  rw [hg] at hg3
  injection hg3 with _ hv2
  obtain ⟨hloop, hv1⟩ := markAll_ok_inv v v1 hm
  have step := (markAllLoop_step v.stack _ 0 v.mem).1 () v1.mem hloop
  have e1 : v1.stack = v.stack := by rw [hv1]
  have e2 : v1.stackSize = v.stackSize := by rw [hv1]
  have e3 : v1.numObjects = v.numObjects := by rw [hv1]
  subst hv2
  refine ⟨v1, hm, post.chain, ?_, rfl, post.stack_eq.trans e1, post.stackSize_eq.trans e2,
    post.length_eq.trans step.length_eq, ?_, post.marked_eq⟩
  · show v3.numObjects = _
    rw [post.numObjects_eq, e3]
  · intro a
    exact ⟨(post.typeFlag_eq a).trans (step.typeFlag_eq a),
      (post.value_eq a).trans (step.value_eq a),
      (post.head_eq a).trans (step.head_eq a),
      (post.tail_eq a).trans (step.tail_eq a)⟩

theorem MarkStep.incomplete {h1 h2 : Heap} (s : MarkStep h1 h2) (a : Nat) :
    Incomplete h2 a ↔ Incomplete h1 a := by
  simp only [Incomplete, s.typeFlag_eq, s.head_eq, s.tail_eq]

/-- When no object reachable from `a` is an incomplete pair, `mark` does not panic. -/
theorem markFuel_no_panic : ∀ (f : Nat) (h : Heap) (a : Nat),
    (∀ x, Reach h a x → ¬ Incomplete h x) → ∀ e s, markFuel f h (some a) ≠ .panic e s := by
  intro f
  induction f with
  | zero => intro h a _ e s; simp [markFuel]
  | succ f ih =>
    intro h a hsafe e s
    rw [markFuel]
    by_cases hm : (load h a).marked = true
    · rw [if_pos hm]; simp
    · rw [if_neg hm]
      simp only []
      have s1 : MarkStep h (h.set a { load h a with marked := true }) :=
        MarkStep.set_marked h a
      by_cases hp : (load (h.set a { load h a with marked := true }) a).typeFlag = pairType
      · rw [if_pos hp]
        have hp0 : (load h a).typeFlag = pairType := by rw [← s1.typeFlag_eq]; exact hp
        have hcomp : ¬ Incomplete h a := hsafe a Relation.ReflTransGen.refl
        have hhd : ∃ b, (load h a).head = some b := by
          cases hh : (load h a).head with
          | none => exact absurd ⟨hp0, Or.inl hh⟩ hcomp
          | some b => exact ⟨b, rfl⟩
        have htl : ∃ c, (load h a).tail = some c := by
          cases ht : (load h a).tail with
          | none => exact absurd ⟨hp0, Or.inr ht⟩ hcomp
          | some c => exact ⟨c, rfl⟩
        obtain ⟨b, hb⟩ := hhd
        obtain ⟨c, hc⟩ := htl
        rw [(s1.head_eq a).trans hb]
        have safe1 : ∀ x, Reach (h.set a { load h a with marked := true }) b x →
            ¬ Incomplete (h.set a { load h a with marked := true }) x := by
          intro x hx
          rw [s1.incomplete]
          exact hsafe x (Relation.ReflTransGen.head ⟨hp0, Or.inl hb⟩ ((s1.reach b x).1 hx))
        cases h1r : markFuel f (h.set a { load h a with marked := true }) (some b) with
        | panic e1 s1 => exact absurd h1r (ih _ b safe1 e1 s1)
        | diverge => simp
        | ok u h3 =>
          simp only []
          have s3 := s1.trans ((markFuel_step f _ _).1 u h3 h1r)
          rw [(s3.tail_eq a).trans hc]
          apply ih
          intro x hx
          rw [s3.incomplete]
          exact hsafe x (Relation.ReflTransGen.head ⟨hp0, Or.inr hc⟩ ((s3.reach c x).1 hx))
      · rw [if_neg hp]; simp

theorem markAllLoop_no_panic (stack : List Ptr) : ∀ (n i : Nat) (h : Heap),
    (∀ j, i ≤ j → j < i + n →
      ∃ a, stack[j]? = some (some a) ∧ ∀ x, Reach h a x → ¬ Incomplete h x) →
    ∀ e s, markAllLoop stack n i h ≠ .panic e s := by
  intro n
  induction n with
  | zero => intro i h _ e s; simp [markAllLoop]
  | succ n ih =>
    intro i h hsafe e s
    rw [markAllLoop]
    obtain ⟨a, ha, hra⟩ := hsafe i (Nat.le_refl i) (by omega)
    rw [ha]
    simp only []
    cases hmr : mark h (some a) with
    | panic e1 s1 => exact absurd hmr (markFuel_no_panic _ h a hra e1 s1)
    | diverge => simp
    | ok u h1 =>
      simp only []
      have st := (markFuel_step _ h (some a)).1 u h1 hmr
      apply ih
      intro j hj1 hj2
      obtain ⟨b, hb, hrb⟩ := hsafe j (by omega) (by omega)
      refine ⟨b, hb, fun x hx => ?_⟩
      rw [st.incomplete]
      exact hrb x ((st.reach b x).1 hx)

theorem Sound.reach_complete {s : vm} (snd : Sound s) (a : Nat) (ha : ¬ Incomplete s.mem a) :
    ∀ x, Reach s.mem a x → ¬ Incomplete s.mem x := by
  intro x hx
  induction hx with
  | refl => exact ha
  | @tail y z _ hedge _ => exact snd.edges y z hedge

/-- In a sound state the mark phase returns. -/
theorem Sound.markAll_ok {s : vm} (snd : Sound s) : ∃ s1, markAll s = .ok () s1 := by
  have hnp := markAllLoop_no_panic s.stack s.stackSize.toNat 0 s.mem (by
    intro j _ hj
    obtain ⟨a, ha, hc⟩ := snd.roots j (by omega)
    exact ⟨a, ha, snd.reach_complete a hc⟩)
  have hnd := markAllLoop_ne_diverge s.stack s.stackSize.toNat 0 s.mem
  unfold markAll
  cases hr : markAllLoop s.stack s.stackSize.toNat 0 s.mem with
  | ok u h => exact ⟨_, rfl⟩
  | panic e h => exact absurd hr (hnp e h)
  | diverge => exact absurd hr hnd

/-- In a sound state `gc` returns. -/
theorem Sound.gc_ok {s : vm} (snd : Sound s) : ∃ s2, gc s = .ok () s2 := by
  obtain ⟨s1, hm⟩ := snd.markAll_ok
  obtain ⟨l, hl⟩ := snd.registry
  obtain ⟨s3, _, _, hg⟩ := gc_post s s1 l snd.wf hl hm
    (printable_after_mark s s1 l hm (fun x _ _ => printable_of_older s.mem snd.older x))
  exact ⟨_, hg⟩

theorem Sound.newVM (cap : Nat) (t : Int) : Sound (newVM cap t) where
  wf := ⟨fun o ho => by simp [MarkSweep.newVM] at ho,
    fun p hp => by
      have : p = none := by
        simp only [MarkSweep.newVM] at hp
        exact (List.mem_replicate.mp hp).2
      subst this
      trivial,
    trivial⟩
  size_nonneg := Int.le_refl 0
  size_le := by simp [MarkSweep.newVM]
  registry := ⟨[], rfl⟩
  roots := fun i hi => by
    simp only [MarkSweep.newVM] at hi
    omega
  edges := fun x y he => by
    have : (load (MarkSweep.newVM cap t).mem x).typeFlag = pairType := he.1
    exact absurd this (by simp [MarkSweep.newVM, load, pairType, default])
  older := fun x y he => by
    have : (load (MarkSweep.newVM cap t).mem x).typeFlag = pairType := he.1
    exact absurd this (by simp [MarkSweep.newVM, load, pairType, default])

theorem pop_cases (s : vm) :
    (pop s = .panic .stackUnderflow s ∧ s.stackSize = 0) ∨
    (pop s = .panic .indexOutOfRange s ∧
      (s.stackSize - 1 < 0 ∨ s.stackSize - 1 ≥ s.stack.length)) ∨
    (pop s = .ok (s.stack.getD (s.stackSize - 1).toNat none)
        { s with stack := s.stack.set (s.stackSize - 1).toNat none,
                 stackSize := s.stackSize - 1 } ∧
      0 < s.stackSize ∧ s.stackSize ≤ s.stack.length) := by
  unfold pop
  by_cases h0 : s.stackSize = 0
  · left; rw [if_pos h0]; exact ⟨rfl, h0⟩
  · right
    rw [if_neg h0]
    by_cases h1 : s.stackSize - 1 < 0 ∨ s.stackSize - 1 ≥ s.stack.length
    · left; rw [if_pos h1]; exact ⟨rfl, h1⟩
    · right; rw [if_neg h1]; exact ⟨rfl, by omega, by omega⟩

theorem push_cases (p : Ptr) (s : vm) :
    (push p s = .panic .stackOverflow s ∧ s.stackSize ≥ s.stack.length) ∨
    (push p s = .panic .indexOutOfRange s ∧ s.stackSize < 0) ∨
    (push p s = .ok () { s with stack := s.stack.set s.stackSize.toNat p,
                                stackSize := s.stackSize + 1 } ∧
      0 ≤ s.stackSize ∧ s.stackSize < s.stack.length) := by
  unfold push
  by_cases h0 : s.stackSize ≥ s.stack.length
  · left; rw [if_pos h0]; exact ⟨rfl, h0⟩
  · right
    rw [if_neg h0]
    by_cases h1 : s.stackSize < 0
    · left; rw [if_pos h1]; exact ⟨rfl, h1⟩
    · right; rw [if_neg h1]; exact ⟨rfl, by omega, by omega⟩

/-- Popping in a sound state: the state stays sound and the value returned is a non-nil
reference to an allocated object that is not an incomplete pair. -/
theorem Sound.pop_ok {s s2 : vm} {p : Ptr} (snd : Sound s) (hp : pop s = .ok p s2) :
    Sound s2 ∧ s2.mem = s.mem ∧ s2.stackSize = s.stackSize - 1 ∧ 0 < s.stackSize ∧
    ∃ a, p = some a ∧ a < s.mem.length ∧ ¬ Incomplete s.mem a := by
  rcases pop_cases s with ⟨h, _⟩ | ⟨h, _⟩ | ⟨h, hpos, hle⟩
  · rw [h] at hp; simp at hp
  · rw [h] at hp; simp at hp
  · rw [h] at hp
    injection hp with hp1 hp2
    subst hp2
    have hidx : ((s.stackSize - 1).toNat : Int) = s.stackSize - 1 := by omega
    obtain ⟨a, ha, hac⟩ := snd.roots (s.stackSize - 1).toNat (by omega)
    have hmem : some a ∈ s.stack := List.getElem?_mem ha
    refine ⟨?_, rfl, rfl, hpos, a, ?_, snd.wf.2.1 _ hmem, hac⟩
    · exact
        { wf := ⟨snd.wf.1, fun q hq => by
              rcases List.mem_or_eq_of_mem_set hq with hq1 | hq1
              · exact snd.wf.2.1 q hq1
              · subst hq1; trivial,
            snd.wf.2.2⟩
          size_nonneg := by show 0 ≤ s.stackSize - 1; omega
          size_le := by
            show s.stackSize - 1 ≤ ((s.stack.set (s.stackSize - 1).toNat none).length : Int)
            rw [List.length_set]; omega
          registry := snd.registry
          roots := fun i hi => by
            have hi2 : (i : Int) < s.stackSize - 1 := hi
            obtain ⟨b, hb, hbc⟩ := snd.roots i (by omega)
            refine ⟨b, ?_, hbc⟩
            show (s.stack.set (s.stackSize - 1).toNat none)[i]? = some (some b)
            rw [List.getElem?_set_ne (by omega)]
            exact hb
          edges := snd.edges
          older := snd.older }
    · rw [← hp1, List.getD_eq_getElem?_getD, ha]
      rfl

/-- Pushing a non-nil reference to an allocated object that is not an incomplete pair keeps the
state sound. -/
theorem Sound.push_ok {s s2 : vm} {a : Nat} (snd : Sound s) (ha : a < s.mem.length)
    (hac : ¬ Incomplete s.mem a) (hp : push (some a) s = .ok () s2) : Sound s2 := by
  rcases push_cases (some a) s with ⟨h, _⟩ | ⟨h, _⟩ | ⟨h, hpos, hlt⟩
  · rw [h] at hp; simp at hp
  · rw [h] at hp; simp at hp
  · rw [h] at hp
    injection hp with _ hp2
    subst hp2
    have hlt2 : s.stackSize.toNat < s.stack.length := by omega
    exact
      { wf := ⟨snd.wf.1, fun q hq => by
            rcases List.mem_or_eq_of_mem_set hq with hq1 | hq1
            · exact snd.wf.2.1 q hq1
            · subst hq1; exact ha,
          snd.wf.2.2⟩
        size_nonneg := by show 0 ≤ s.stackSize + 1; omega
        size_le := by
          show s.stackSize + 1 ≤ ((s.stack.set s.stackSize.toNat (some a)).length : Int)
          rw [List.length_set]; omega
        registry := snd.registry
        roots := fun i hi => by
          have hi2 : (i : Int) < s.stackSize + 1 := hi
          show ∃ b, (s.stack.set s.stackSize.toNat (some a))[i]? = some (some b) ∧
            ¬ Incomplete s.mem b
          by_cases hie : i = s.stackSize.toNat
          · subst hie
            exact ⟨a, by simp [hlt2], hac⟩
          · obtain ⟨b, hb, hbc⟩ := snd.roots i (by omega)
            refine ⟨b, ?_, hbc⟩
            rw [List.getElem?_set_ne (Ne.symm hie)]
            exact hb
        edges := snd.edges
        older := snd.older }

theorem heapValid_set {h : Heap} (hv : HeapValid h) (a : Nat) (o : object)
    (ho : ValidPtr h o.head ∧ ValidPtr h o.tail ∧ ValidPtr h o.next) :
    HeapValid (h.set a o) := by
  have hl : (h.set a o).length = h.length := List.length_set _ _ _
  apply heapValid_of_forall
  intro x hx
  rw [hl] at hx
  by_cases hxa : x = a
  · subst hxa
    rw [load_set_eq h x o hx]
    exact ⟨validPtr_length_eq hl ho.1, validPtr_length_eq hl ho.2.1,
      validPtr_length_eq hl ho.2.2⟩
  · rw [load_set_ne h a x o (Ne.symm hxa)]
    exact ⟨validPtr_length_eq hl (hv.valid_at x).1, validPtr_length_eq hl (hv.valid_at x).2.1,
      validPtr_length_eq hl (hv.valid_at x).2.2⟩

/-- The sweep loop keeps every pointer valid. -/
theorem sweepLoop_wf : ∀ (f : Nat) (v : vm) (o prev : Ptr), WF v → ∀ u s,
    sweepLoop f v o prev = .ok u s → WF s := by
  intro f
  induction f with
  | zero =>
    intro v o prev wf u s hr
    cases o with
    | none =>
      rw [sweepLoop_nil] at hr
      injection hr with _ hs
      subst hs
      exact wf
    | some a => simp [sweepLoop] at hr
  | succ f ih =>
    intro v o prev wf u s hr
    cases o with
    | none =>
      rw [sweepLoop_nil] at hr
      injection hr with _ hs
      subst hs
      exact wf
    | some a =>
      rw [sweepLoop_succ] at hr
      by_cases hm : (load v.mem a).marked = false
      · rw [if_pos hm] at hr
        refine ih _ _ _ ?_ u s (printFreed_ok _ _ _ u s hr).2
        cases prev with
        | none => exact ⟨wf.1, wf.2.1, (wf.1.valid_at a).2.2⟩
        | some p =>
          have hl : (v.mem.set p { load v.mem p with next := (load v.mem a).next }).length
              = v.mem.length := List.length_set _ _ _
          exact ⟨heapValid_set wf.1 p _ ⟨(wf.1.valid_at p).1, (wf.1.valid_at p).2.1, (wf.1.valid_at a).2.2⟩,
            fun q hq => validPtr_length_eq hl (wf.2.1 q hq), validPtr_length_eq hl wf.2.2⟩
      · rw [if_neg hm] at hr
        refine ih _ _ _ ?_ u s hr
        have hl : (v.mem.set a { load v.mem a with marked := false }).length
            = v.mem.length := List.length_set _ _ _
        exact ⟨heapValid_set wf.1 a _ ⟨(wf.1.valid_at a).1, (wf.1.valid_at a).2.1, (wf.1.valid_at a).2.2⟩,
          fun q hq => validPtr_length_eq hl (wf.2.1 q hq), validPtr_length_eq hl wf.2.2⟩

/-- A returning `gc` keeps every pointer valid. -/
theorem WF.after_gc {v v2 : vm} (wf : WF v) (hg : gc v = .ok () v2) : WF v2 := by
  obtain ⟨v1, v3, hm, hs, hv2⟩ := gc_ok_inv v v2 hg
  have wf3 := sweepLoop_wf _ v1 _ _ (wf.of_markAll hm) () v3 hs
  rw [hv2]
  exact wf3

/-- Replacing the object at `a` by one with the same type and `next` link, whose head and tail
are either unchanged or references to objects that are not incomplete pairs, keeps the state
sound. -/
theorem Sound.update {s : vm} (snd : Sound s) (a : Nat) (o : object) (ha : a < s.mem.length)
    (htf : o.typeFlag = (load s.mem a).typeFlag) (hnx : o.next = (load s.mem a).next)
    (hhd : o.head = (load s.mem a).head ∨
      ∃ b, o.head = some b ∧ b < a ∧ ¬ Incomplete s.mem b)
    (htl : o.tail = (load s.mem a).tail ∨
      ∃ b, o.tail = some b ∧ b < a ∧ ¬ Incomplete s.mem b) :
    Sound { s with mem := s.mem.set a o } := by
  have hl : (s.mem.set a o).length = s.mem.length := List.length_set _ _ _
  have self : load (s.mem.set a o) a = o := load_set_eq s.mem a o ha
  have other : ∀ x, x ≠ a → load (s.mem.set a o) x = load s.mem x :=
    fun x hx => load_set_ne s.mem a x o (Ne.symm hx)
  have hvh : ValidPtr s.mem o.head := by
    rcases hhd with h | ⟨b, hb, hbl, _⟩
    · rw [h]; exact (snd.wf.1.valid_at a).1
    · rw [hb]; exact Nat.lt_trans hbl ha
  have hvt : ValidPtr s.mem o.tail := by
    rcases htl with h | ⟨b, hb, hbl, _⟩
    · rw [h]; exact (snd.wf.1.valid_at a).2.1
    · rw [hb]; exact Nat.lt_trans hbl ha
  have hvn : ValidPtr s.mem o.next := by rw [hnx]; exact (snd.wf.1.valid_at a).2.2
  have inc : ∀ y, Incomplete (s.mem.set a o) y → Incomplete s.mem y := by
    intro y hy
    by_cases hya : y = a
    · subst hya
      obtain ⟨h1, h2⟩ := hy
      rw [self] at h1 h2
      refine ⟨htf ▸ h1, ?_⟩
      rcases h2 with h2 | h2
      · rcases hhd with h | ⟨b, hb, _, _⟩
        · left; rw [← h]; exact h2
        · rw [hb] at h2; simp at h2
      · rcases htl with h | ⟨b, hb, _, _⟩
        · right; rw [← h]; exact h2
        · rw [hb] at h2; simp at h2
    · unfold Incomplete at hy
      rw [other y hya] at hy
      exact hy
  obtain ⟨l, hreg⟩ := snd.registry
  exact
    { wf := ⟨heapValid_set snd.wf.1 a o ⟨hvh, hvt, hvn⟩,
        fun q hq => validPtr_length_eq hl (snd.wf.2.1 q hq), validPtr_length_eq hl snd.wf.2.2⟩
      size_nonneg := snd.size_nonneg
      size_le := snd.size_le
      registry := ⟨l, IsChain.congr l _ (fun x _ => by
        by_cases hxa : x = a
        · subst hxa; rw [self]; exact hnx
        · rw [other x hxa]) hreg⟩
      roots := fun i hi => by
        obtain ⟨b, hb, hbc⟩ := snd.roots i hi
        exact ⟨b, hb, fun hinc => hbc (inc b hinc)⟩
      edges := fun x y he hinc => by
        have hy := inc y hinc
        by_cases hxa : x = a
        · subst hxa
          obtain ⟨h1, h2⟩ := he
          rw [self] at h1 h2
          rcases h2 with h2 | h2
          · rcases hhd with h | ⟨b, hb, _, hbc⟩
            · exact snd.edges x y ⟨htf ▸ h1, Or.inl (h ▸ h2)⟩ hy
            · rw [hb] at h2
              exact hbc (Option.some.inj h2 ▸ hy)
          · rcases htl with h | ⟨b, hb, _, hbc⟩
            · exact snd.edges x y ⟨htf ▸ h1, Or.inr (h ▸ h2)⟩ hy
            · rw [hb] at h2
              exact hbc (Option.some.inj h2 ▸ hy)
        · unfold Edge at he
          rw [other x hxa] at he
          exact snd.edges x y he hy
      older := fun x y he => by
        by_cases hxa : x = a
        · subst hxa
          obtain ⟨h1, h2⟩ := he
          rw [self] at h1 h2
          rcases h2 with h2 | h2
          · rcases hhd with h | ⟨b, hb, hbl, _⟩
            · exact snd.older x y ⟨htf ▸ h1, Or.inl (h ▸ h2)⟩
            · rw [hb] at h2
              exact Option.some.inj h2 ▸ hbl
          · rcases htl with h | ⟨b, hb, hbl, _⟩
            · exact snd.older x y ⟨htf ▸ h1, Or.inr (h ▸ h2)⟩
            · rw [hb] at h2
              exact Option.some.inj h2 ▸ hbl
        · unfold Edge at he
          rw [other x hxa] at he
          exact snd.older x y he }

/-- A returning `gc` keeps the state sound. -/
theorem Sound.sound_gc {s s2 : vm} (snd : Sound s) (hg : gc s = .ok () s2) : Sound s2 := by
  obtain ⟨l, hl⟩ := snd.registry
  obtain ⟨v1, _, hreg2, _, _, hst, hsz, _, hfld, _⟩ := gc_spec s s2 l snd.wf hl hg
  have inc : ∀ y, Incomplete s2.mem y ↔ Incomplete s.mem y := by
    intro y
    simp only [Incomplete, (hfld y).1, (hfld y).2.2.1, (hfld y).2.2.2]
  exact
    { wf := snd.wf.after_gc hg
      size_nonneg := by rw [hsz]; exact snd.size_nonneg
      size_le := by rw [hsz, hst]; exact snd.size_le
      registry := ⟨_, hreg2⟩
      roots := fun i hi => by
        rw [hsz] at hi
        obtain ⟨b, hb, hbc⟩ := snd.roots i hi
        exact ⟨b, by rw [hst]; exact hb, fun h => hbc ((inc b).1 h)⟩
      edges := fun x y he hinc => by
        have he2 : Edge s.mem x y := by
          simpa only [Edge, (hfld x).1, (hfld x).2.2.1, (hfld x).2.2.2] using he
        exact snd.edges x y he2 ((inc y).1 hinc)
      older := fun x y he => by
        have he2 : Edge s.mem x y := by
          simpa only [Edge, (hfld x).1, (hfld x).2.2.1, (hfld x).2.2.2] using he
        exact snd.older x y he2 }

/-- Allocation keeps the state sound; the new object sits at the old end of memory and has the
requested type and `nil` head and tail. -/
theorem Sound.allocate {s : vm} (snd : Sound s) (t : Int) :
    ∃ s1, allocate t s = .ok s.mem.length s1 ∧ Sound s1 ∧
      s1.mem.length = s.mem.length + 1 ∧
      load s1.mem s.mem.length = ⟨false, t, 0, none, none, s.firstObject⟩ ∧
      s1.stack = s.stack ∧ s1.stackSize = s.stackSize := by
  refine ⟨_, rfl, ?_, by simp, load_append_length _ _, rfl, rfl⟩
  have hl : (s.mem ++ [(⟨false, t, 0, none, none, s.firstObject⟩ : object)]).length
      = s.mem.length + 1 := by simp
  have old : ∀ x, x < s.mem.length →
      load (s.mem ++ [(⟨false, t, 0, none, none, s.firstObject⟩ : object)]) x = load s.mem x :=
    fun x hx => load_append_lt _ _ x hx
  have new : load (s.mem ++ [(⟨false, t, 0, none, none, s.firstObject⟩ : object)]) s.mem.length
      = ⟨false, t, 0, none, none, s.firstObject⟩ := load_append_length _ _
  have grow : ∀ p, ValidPtr s.mem p →
      ValidPtr (s.mem ++ [(⟨false, t, 0, none, none, s.firstObject⟩ : object)]) p := by
    intro p hp
    cases p with
    | none => trivial
    | some a => exact (show a < _ by rw [hl]; exact Nat.lt_succ_of_lt hp)
  have inc : ∀ y, y < s.mem.length →
      (Incomplete (s.mem ++ [(⟨false, t, 0, none, none, s.firstObject⟩ : object)]) y ↔
        Incomplete s.mem y) := by
    intro y hy
    simp only [Incomplete, old y hy]
  obtain ⟨l, hreg⟩ := snd.registry
  have hlt := IsChain.lt_length snd.wf.1 l _ snd.wf.2.2 hreg
  exact
    { wf := by
        refine ⟨heapValid_of_forall fun x hx => ?_, fun q hq => grow q (snd.wf.2.1 q hq), ?_⟩
        · rw [hl] at hx
          by_cases hxl : x < s.mem.length
          · rw [old x hxl]
            exact ⟨grow _ (snd.wf.1.valid_at x).1, grow _ (snd.wf.1.valid_at x).2.1,
              grow _ (snd.wf.1.valid_at x).2.2⟩
          · have : x = s.mem.length := by omega
            subst this
            rw [new]
            exact ⟨trivial, trivial, grow _ snd.wf.2.2⟩
        · exact (show s.mem.length < _ by rw [hl]; exact Nat.lt_succ_self _)
      size_nonneg := snd.size_nonneg
      size_le := snd.size_le
      registry := ⟨s.mem.length :: l, rfl, by
        rw [new]
        exact IsChain.congr l _ (fun x hx => by rw [old x (hlt x hx)]) hreg⟩
      roots := fun i hi => by
        obtain ⟨b, hb, hbc⟩ := snd.roots i hi
        have hbl : b < s.mem.length := snd.wf.2.1 _ (List.getElem?_mem hb)
        exact ⟨b, hb, fun h => hbc ((inc b hbl).1 h)⟩
      edges := fun x y he hinc => by
        by_cases hxl : x < s.mem.length
        · unfold Edge at he
          rw [old x hxl] at he
          have hyl : y < s.mem.length := by
            rcases he.2 with h | h
            · have := (snd.wf.1.valid_at x).1
              rw [h] at this
              exact this
            · have := (snd.wf.1.valid_at x).2.1
              rw [h] at this
              exact this
          exact snd.edges x y he ((inc y hyl).1 hinc)
        · by_cases hxe : x = s.mem.length
          · subst hxe
            obtain ⟨_, h2⟩ := he
            rw [new] at h2
            simp at h2
          · have := lt_of_pair _ x he.1
            rw [hl] at this
            omega
      older := fun x y he => by
        by_cases hxl : x < s.mem.length
        · unfold Edge at he
          rw [old x hxl] at he
          exact snd.older x y he
        · by_cases hxe : x = s.mem.length
          · subst hxe
            obtain ⟨_, h2⟩ := he
            rw [new] at h2
            simp at h2
          · have := lt_of_pair _ x he.1
            rw [hl] at this
            omega }

/-- In a sound state `newObject` returns; the state stays sound and the object returned is
allocated, has the requested type and `nil` head and tail. -/
theorem Sound.newObject_ok {s : vm} (snd : Sound s) (t : Int) :
    ∃ a s1, newObject t s = .ok a s1 ∧ Sound s1 ∧ a < s1.mem.length ∧
      (load s1.mem a).typeFlag = t ∧ (load s1.mem a).head = none ∧
      (load s1.mem a).tail = none ∧ s1.stackSize = s.stackSize ∧
      ∀ q ∈ s1.stack, ∀ b, q = some b → b < a := by
  unfold newObject
  by_cases hc : s.numObjects = s.maxObjects
  · rw [if_pos hc]
    obtain ⟨s2, hg⟩ := snd.gc_ok
    have snd2 := snd.sound_gc hg
    obtain ⟨l, hl⟩ := snd.registry
    obtain ⟨_, _, _, _, _, _, hsz, _⟩ := gc_spec s s2 l snd.wf hl hg
    rw [hg]
    obtain ⟨s1, ha, snd1, hlen, hnew, hst1, hsz1⟩ := snd2.allocate t
    refine ⟨_, s1, ha, snd1, by omega, by rw [hnew], by rw [hnew], by rw [hnew],
      by rw [hsz1, hsz], ?_⟩
    intro q hq b hb
    rw [hst1] at hq
    have := snd2.wf.2.1 q hq
    rw [hb] at this
    exact this
  · rw [if_neg hc]
    obtain ⟨s1, ha, snd1, hlen, hnew, hst1, hsz1⟩ := snd.allocate t
    refine ⟨_, s1, ha, snd1, by omega, by rw [hnew], by rw [hnew], by rw [hnew], hsz1, ?_⟩
    intro q hq b hb
    rw [hst1] at hq
    have := snd.wf.2.1 q hq
    rw [hb] at this
    exact this

/-- A returning `pop` returns a value of the stack and leaves only values of the stack, or
`nil`, in the slots. -/
theorem pop_stack_mem (s s2 : vm) (p : Ptr) (hp : pop s = .ok p s2) :
    p ∈ s.stack ∧ ∀ q ∈ s2.stack, q = none ∨ q ∈ s.stack := by
  rcases pop_cases s with ⟨h, _⟩ | ⟨h, _⟩ | ⟨h, hpos, hle⟩
  · rw [h] at hp; simp at hp
  · rw [h] at hp; simp at hp
  · rw [h] at hp
    injection hp with hp1 hp2
    have hlt : (s.stackSize - 1).toNat < s.stack.length := by omega
    constructor
    · rw [← hp1, List.getD_eq_getElem?_getD, List.getElem?_eq_getElem hlt]
      exact List.getElem_mem hlt
    · intro q hq
      rw [← hp2] at hq
      rcases List.mem_or_eq_of_mem_set hq with h1 | h1
      · exact Or.inr h1
      · exact Or.inl h1

theorem Sound.push_state {s s2 : vm} {a : Nat} (snd : Sound s) (ha : a < s.mem.length)
    (hac : ¬ Incomplete s.mem a) (hp : (push (some a) s).state? = some s2) : Sound s2 := by
  rcases push_cases (some a) s with ⟨h, _⟩ | ⟨h, _⟩ | ⟨h, _, _⟩
  · rw [h] at hp
    exact Option.some.inj hp ▸ snd
  · rw [h] at hp
    exact Option.some.inj hp ▸ snd
  · rw [h] at hp
    have e := Option.some.inj hp
    exact snd.push_ok ha hac (h.trans (by rw [← e]))

theorem Sound.pop_state {s s2 : vm} (snd : Sound s) (hp : (pop s).state? = some s2) :
    Sound s2 := by
  rcases pop_cases s with ⟨h, _⟩ | ⟨h, _⟩ | ⟨h, _, _⟩
  · rw [h] at hp
    exact Option.some.inj hp ▸ snd
  · rw [h] at hp
    exact Option.some.inj hp ▸ snd
  · rw [h] at hp
    have e := Option.some.inj hp
    exact (snd.pop_ok (h.trans (by rw [← e]))).1

theorem popInt_state (s : vm) : (popInt s).state? = (pop s).state? := by
  unfold popInt
  cases hp : pop s with
  | ok p v1 =>
    cases p with
    | none => rfl
    | some a =>
      simp only []
      split <;> rfl
  | panic e v1 => rfl
  | diverge => rfl

theorem popPair_state (s : vm) : (popPair s).state? = (pop s).state? := by
  unfold popPair
  cases hp : pop s with
  | ok p v1 =>
    cases p with
    | none => rfl
    | some a =>
      simp only []
      split <;> rfl
  | panic e v1 => rfl
  | diverge => rfl

theorem Sound.pushInt_state {s s2 : vm} (snd : Sound s) (n : Int)
    (hp : (pushInt n s).state? = some s2) : Sound s2 := by
  obtain ⟨a, s1, hn, snd1, ha, htf, _, _, _⟩ := snd.newObject_ok intType
  unfold pushInt at hp
  rw [hn] at hp
  simp only [] at hp
  have snd1u := snd1.update a { load s1.mem a with value := n } ha rfl rfl (Or.inl rfl)
    (Or.inl rfl)
  refine snd1u.push_state (by simpa using ha) ?_ hp
  intro hinc
  have h1 := hinc.1
  simp only [load_set_eq s1.mem a _ ha, htf] at h1
  exact absurd h1 (by decide)

theorem Sound.pushPair_state {s s2 : vm} (snd : Sound s)
    (hp : (pushPair s).state? = some s2) : Sound s2 := by
  obtain ⟨a, s1, hn, snd1, ha, htf, _, _, _, hstk⟩ := snd.newObject_ok pairType
  unfold pushPair at hp
  rw [hn] at hp
  simp only [] at hp
  cases hp1 : pop s1 with
  | diverge => rw [hp1] at hp; simp [Outcome.state?] at hp
  | panic e s1p =>
    rw [hp1] at hp
    exact snd1.pop_state (by rw [hp1]; exact hp)
  | ok t v2 =>
    rw [hp1] at hp
    simp only [] at hp
    obtain ⟨snd2, hmem2, _, _, b, hb, hbl, hbc⟩ := snd1.pop_ok hp1
    obtain ⟨hin1, hsub1⟩ := pop_stack_mem s1 v2 t hp1
    subst hb
    have hba : b < a := hstk _ hin1 b rfl
    have ha2 : a < v2.mem.length := by rw [hmem2]; exact ha
    have snd2u := snd2.update a { load v2.mem a with tail := some b } ha2 rfl rfl (Or.inl rfl)
      (Or.inr ⟨b, rfl, hba, by rw [hmem2]; exact hbc⟩)
    cases hp2 : pop { v2 with mem := v2.mem.set a { load v2.mem a with tail := some b } } with
    | diverge => rw [hp2] at hp; simp [Outcome.state?] at hp
    | panic e s2p =>
      rw [hp2] at hp
      exact snd2u.pop_state (by rw [hp2]; exact hp)
    | ok hd v3 =>
      rw [hp2] at hp
      simp only [] at hp
      obtain ⟨snd3, hmem3, _, _, c, hc, hcl, hcc⟩ := snd2u.pop_ok hp2
      obtain ⟨hin2, _⟩ := pop_stack_mem _ v3 hd hp2
      subst hc
      have hca : c < a := by
        rcases hsub1 _ hin2 with h | h
        · simp at h
        · exact hstk _ h c rfl
      have hmem3b : v3.mem = v2.mem.set a { load v2.mem a with tail := some b } := hmem3
      have ha3 : a < v3.mem.length := by rw [hmem3b]; simpa using ha2
      have snd3u := snd3.update a { load v3.mem a with head := some c } ha3 rfl rfl
        (Or.inr ⟨c, rfl, hca, by rw [hmem3]; exact hcc⟩) (Or.inl rfl)
      refine snd3u.push_state (by simpa using ha3) ?_ hp
      intro hinc
      have h2 := hinc.2
      simp only [load_set_eq v3.mem a _ ha3] at h2
      rw [hmem3b, load_set_eq v2.mem a _ ha2] at h2
      simp at h2

theorem Sound.add_state {s s2 : vm} (snd : Sound s) (hp : (add s).state? = some s2) :
    Sound s2 := by
  unfold add at hp
  cases hp1 : popInt s with
  | diverge => rw [hp1] at hp; simp [Outcome.state?] at hp
  | panic e s1 =>
    rw [hp1] at hp
    exact snd.pop_state (by rw [← popInt_state, hp1]; exact hp)
  | ok r v1 =>
    rw [hp1] at hp
    simp only [] at hp
    have snd1 : Sound v1 := snd.pop_state (by rw [← popInt_state, hp1]; rfl)
    cases hp2 : popInt v1 with
    | diverge => rw [hp2] at hp; simp [Outcome.state?] at hp
    | panic e s1 =>
      rw [hp2] at hp
      exact snd1.pop_state (by rw [← popInt_state, hp2]; exact hp)
    | ok l v2 =>
      rw [hp2] at hp
      simp only [] at hp
      have snd2 : Sound v2 := snd1.pop_state (by rw [← popInt_state, hp2]; rfl)
      exact snd2.pushInt_state _ hp

/-- Every operation keeps the state sound, whether it returns or panics, as long as `push` only
receives non-nil references to objects that are not incomplete pairs. -/
theorem Sound.step {s s2 : vm} (snd : Sound s) (op : Op) (hal : CompleteRefs op s)
    (hp : (op.run s).state? = some s2) : Sound s2 := by
  cases op with
  | newObject t =>
    obtain ⟨a, s1, hn, snd1, _⟩ := snd.newObject_ok t
    simp only [Op.run, hn, discard, Outcome.state?] at hp
    exact Option.some.inj hp ▸ snd1
  | push p =>
    obtain ⟨a, hpa, hal, hac⟩ := hal
    subst hpa
    exact snd.push_state hal hac hp
  | pop =>
    refine snd.pop_state ?_
    simp only [Op.run] at hp
    cases hq : pop s <;> rw [hq] at hp <;> exact hp
  | pushInt n => exact snd.pushInt_state n hp
  | popInt =>
    refine snd.pop_state ?_
    rw [← popInt_state]
    simp only [Op.run] at hp
    cases hq : popInt s <;> rw [hq] at hp <;> exact hp
  | pushPair => exact snd.pushPair_state hp
  | popPair =>
    refine snd.pop_state ?_
    rw [← popPair_state]
    simp only [Op.run] at hp
    cases hq : popPair s <;> rw [hq] at hp <;> exact hp
  | add => exact snd.add_state hp
  | gc =>
    obtain ⟨s3, hg⟩ := snd.gc_ok
    simp only [Op.run, hg, Outcome.state?] at hp
    exact Option.some.inj hp ▸ snd.sound_gc hg

theorem Sound.of_steps {s0 s : vm} (snd : Sound s0) (hs : Steps CompleteRefs s0 s) :
    Sound s := by
  induction hs with
  | init => exact snd
  | step s1 s2 op _ hal hp ih => exact ih.step op hal hp

theorem noMarks_of_forall {h : Heap} (hm : ∀ a, (load h a).marked = false) : NoMarks h := by
  intro o ho
  obtain ⟨a, _, hao⟩ := exists_load_of_mem h o ho
  rw [← hao]
  exact hm a

/-- What `allocate` does to a state with valid pointers whose registry is the chain `l`. -/
theorem allocate_spec (v : vm) (t : Int) (l : List Nat) (wf : WF v) (hreg : Registry v l) :
    ∃ s1, allocate t v = .ok v.mem.length s1 ∧ WF s1 ∧ Registry s1 (v.mem.length :: l) ∧
      s1.mem = v.mem ++ [⟨false, t, 0, none, none, v.firstObject⟩] ∧
      s1.numObjects = v.numObjects + 1 ∧ s1.maxObjects = v.maxObjects ∧
      s1.stack = v.stack ∧ s1.stackSize = v.stackSize := by
  refine ⟨_, rfl, ?_, ?_, rfl, rfl, rfl, rfl, rfl⟩
  · have hl : (v.mem ++ [(⟨false, t, 0, none, none, v.firstObject⟩ : object)]).length
        = v.mem.length + 1 := by simp
    have grow : ∀ p, ValidPtr v.mem p →
        ValidPtr (v.mem ++ [(⟨false, t, 0, none, none, v.firstObject⟩ : object)]) p := by
      intro p hp
      cases p with
      | none => trivial
      | some a => exact (show a < _ by rw [hl]; exact Nat.lt_succ_of_lt hp)
    refine ⟨heapValid_of_forall fun x hx => ?_, fun q hq => grow q (wf.2.1 q hq), ?_⟩
    · rw [hl] at hx
      by_cases hxl : x < v.mem.length
      · rw [load_append_lt _ _ x hxl]
        exact ⟨grow _ (wf.1.valid_at x).1, grow _ (wf.1.valid_at x).2.1,
          grow _ (wf.1.valid_at x).2.2⟩
      · have : x = v.mem.length := by omega
        subst this
        rw [load_append_length]
        exact ⟨trivial, trivial, grow _ wf.2.2⟩
    · exact (show v.mem.length < _ by rw [hl]; exact Nat.lt_succ_self _)
  · refine ⟨rfl, ?_⟩
    have hlt := IsChain.lt_length wf.1 l _ wf.2.2 hreg
    show IsChain _ (load (v.mem ++ [_]) v.mem.length).next l
    rw [load_append_length]
    exact IsChain.congr l _ (fun x hx => by rw [load_append_lt _ _ x (hlt x hx)]) hreg

theorem newObject_of_ne (t : Int) (v : vm) (h : v.numObjects ≠ v.maxObjects) :
    newObject t v = allocate t v := by
  unfold newObject
  rw [if_neg h]

theorem newObject_of_eq (t : Int) (v : vm) (h : v.numObjects = v.maxObjects) :
    newObject t v =
      match gc v with
      | .ok _ v1 => allocate t v1
      | .panic e s => .panic e s
      | .diverge => .diverge := by
  unfold newObject
  rw [if_pos h]

/-- Allocations below the threshold: no collection runs and only the counter moves. -/
theorem newObjects_counts : ∀ (ts : List Int) (v : vm),
    (∀ j : Nat, j < ts.length → v.numObjects + j ≠ v.maxObjects) →
    ∃ s, newObjects ts v = .ok () s ∧ s.numObjects = v.numObjects + ts.length ∧
      s.maxObjects = v.maxObjects := by
  intro ts
  induction ts with
  | nil => intro v _; exact ⟨v, rfl, by simp, rfl⟩
  | cons t ts ih =>
    intro v hno
    have h0 : v.numObjects ≠ v.maxObjects := by
      have := hno 0 (by simp)
      simpa using this
    obtain ⟨s, hs, hn, hm⟩ := ih
      { v with
        mem := v.mem ++ [⟨false, t, 0, none, none, v.firstObject⟩],
        firstObject := some v.mem.length,
        numObjects := v.numObjects + 1 }
      (fun j hj => by
        have := hno (j + 1) (by simpa using hj)
        show v.numObjects + 1 + (j : Int) ≠ v.maxObjects
        intro h
        apply this
        push_cast
        omega)
    refine ⟨s, ?_, ?_, hm⟩
    · rw [newObjects, newObject_of_ne t v h0]
      exact hs
    · rw [hn]
      show v.numObjects + 1 + (ts.length : Int) = v.numObjects + ((t :: ts).length : Int)
      simp only [List.length_cons]
      push_cast
      omega

/-- Unrooted allocations below the threshold, starting from `j` registered objects at the
addresses `0 .. j-1`: the registry grows at its head and nothing is collected. -/
theorem newObjects_below : ∀ (ts : List Int) (v : vm) (j : Nat), WF v → NoMarks v.mem →
    Registry v (List.range j).reverse → v.mem.length = j → v.numObjects = j →
    (j + ts.length : Int) ≤ v.maxObjects →
    ∃ s, newObjects ts v = .ok () s ∧ WF s ∧ NoMarks s.mem ∧
      Registry s (List.range (j + ts.length)).reverse ∧ s.mem.length = j + ts.length ∧
      s.numObjects = (j + ts.length : Nat) ∧ s.maxObjects = v.maxObjects ∧
      s.stackSize = v.stackSize ∧ s.stack = v.stack := by
  intro ts
  induction ts with
  | nil =>
    intro v j wf nm hreg hlen hnum _
    exact ⟨v, rfl, wf, nm, hreg, hlen, by simpa using hnum, rfl, rfl, rfl⟩
  | cons t ts ih =>
    intro v j wf nm hreg hlen hnum hmax
    have h0 : v.numObjects ≠ v.maxObjects := by
      simp only [List.length_cons] at hmax
      push_cast at hmax
      omega
    obtain ⟨s1, ha, wf1, hreg1, hmem1, hnum1, hmax1, hst1, hsz1⟩ :=
      allocate_spec v t _ wf hreg
    have hreg1b : Registry s1 (List.range (j + 1)).reverse := by
      rw [List.range_succ, List.reverse_append]
      rw [hlen] at hreg1
      exact hreg1
    have nm1 : NoMarks s1.mem := by
      rw [hmem1]
      intro o ho
      rcases List.mem_append.mp ho with h | h
      · exact nm o h
      · have : o = ⟨false, t, 0, none, none, v.firstObject⟩ := by simpa using h
        rw [this]
    obtain ⟨s, hs, wfs, nms, hregs, hlens, hnums, hmaxs, hszs, hsts⟩ := ih s1 (j + 1) wf1 nm1
      hreg1b (by rw [hmem1]; simp [hlen]) (by rw [hnum1, hnum]; push_cast; rfl)
      (by
        rw [hmax1]
        simp only [List.length_cons] at hmax
        push_cast at hmax ⊢
        omega)
    have e : j + 1 + ts.length = j + (t :: ts).length := by simp only [List.length_cons]; omega
    refine ⟨s, ?_, wfs, nms, e ▸ hregs, e ▸ hlens, e ▸ hnums, hmaxs.trans hmax1,
      hszs.trans hsz1, hsts.trans hst1⟩
    rw [newObjects, newObject_of_ne t v h0, ha]
    exact hs

theorem markAll_of_empty (v : vm) (h : v.stackSize = 0) : markAll v = .ok () v := by
  cases v with
  | mk mem stack stackSize firstObject numObjects maxObjects =>
    simp only at h
    subst h
    rfl

/-! ### The fuel of the model does not cut runs short -/

theorem markFuel_succ_some (f : Nat) (h : Heap) (a : Nat) :
    markFuel (f + 1) h (some a) =
      if (load h a).marked then .ok () h
      else
        if (load (h.set a { load h a with marked := true }) a).typeFlag = pairType then
          match markFuel f (h.set a { load h a with marked := true })
              (load (h.set a { load h a with marked := true }) a).head with
          | .ok _ h2 => markFuel f h2 (load h2 a).tail
          | r => r
        else .ok () (h.set a { load h a with marked := true }) := rfl

/-- More fuel does not change the result of a `mark` run that ended. -/
theorem markFuel_mono : ∀ (f : Nat) (h : Heap) (o : Ptr) (r : Outcome Heap Unit),
    markFuel f h o = r → r ≠ .diverge → markFuel (f + 1) h o = r := by
  intro f
  induction f with
  | zero =>
    intro h o r hr hnd
    simp only [markFuel] at hr
    exact absurd hr.symm hnd
  | succ f ih =>
    intro h o r hr hnd
    cases o with
    | none => simpa [markFuel] using hr
    | some a =>
      rw [markFuel_succ_some] at hr ⊢
      by_cases hm : (load h a).marked = true
      · rw [if_pos hm] at hr ⊢; exact hr
      · rw [if_neg hm] at hr ⊢
        by_cases hp : (load (h.set a { load h a with marked := true }) a).typeFlag = pairType
        · rw [if_pos hp] at hr ⊢
          cases h1r : markFuel f (h.set a { load h a with marked := true })
              (load (h.set a { load h a with marked := true }) a).head with
          | diverge =>
            rw [h1r] at hr
            exact absurd hr.symm hnd
          | panic e s =>
            rw [h1r] at hr
            rw [ih _ _ _ h1r (by simp)]
            exact hr
          | ok u h3 =>
            rw [h1r] at hr
            rw [ih _ _ _ h1r (by simp)]
            simp only [] at hr ⊢
            exact ih _ _ _ hr hnd
        · rw [if_neg hp] at hr ⊢; exact hr

theorem markFuel_add (k f : Nat) (h : Heap) (o : Ptr) (r : Outcome Heap Unit)
    (hr : markFuel f h o = r) (hnd : r ≠ .diverge) : markFuel (f + k) h o = r := by
  induction k with
  | zero => exact hr
  | succ k ih => exact markFuel_mono _ h o r ih hnd

/-- The fuel that `mark` supplies is enough: whatever a run of `markFuel` with any amount of
fuel returns or panics with, `mark` returns or panics with the same. -/
theorem mark_adequate (f : Nat) (h : Heap) (o : Ptr) (r : Outcome Heap Unit)
    (hr : markFuel f h o = r) (hnd : r ≠ .diverge) : mark h o = r := by
  have a := markFuel_add (h.length + 1) f h o r hr hnd
  have b := markFuel_add f (h.length + 1) h o (mark h o) rfl (mark_ne_diverge h o)
  rw [Nat.add_comm] at b
  exact b.symm.trans a

theorem set_load_self : ∀ (h : Heap) (a : Nat), h.set a (load h a) = h := by
  intro h
  induction h with
  | nil => intro a; rfl
  | cons x t ih =>
    intro a
    cases a with
    | zero => rfl
    | succ n =>
      show x :: t.set n (load t n) = x :: t
      rw [ih n]

/-- A sweep loop that returns has walked a `nil`-terminated chain. -/
theorem sweepLoop_chain : ∀ (f : Nat) (v : vm) (o prev : Ptr) (u : Unit) (s : vm),
    sweepLoop f v o prev = .ok u s → ∃ l, IsChain v.mem o l := by
  intro f
  induction f with
  | zero =>
    intro v o prev u s hr
    cases o with
    | none => exact ⟨[], rfl⟩
    | some a => simp [sweepLoop] at hr
  | succ f ih =>
    intro v o prev u s hr
    cases o with
    | none => exact ⟨[], rfl⟩
    | some a =>
      rw [sweepLoop_succ] at hr
      by_cases hm : (load v.mem a).marked = false
      · rw [if_pos hm] at hr
        obtain ⟨l1, hl1⟩ := ih _ _ _ u s (printFreed_ok _ _ _ u s hr).2
        cases prev with
        | none => exact ⟨a :: l1, rfl, hl1⟩
        | some p =>
          simp only [] at hl1
          by_cases hplt : p < v.mem.length
          · by_cases hpa : p = a
            · subst hpa
              have e : v.mem.set p { load v.mem p with next := (load v.mem p).next } = v.mem :=
                set_load_self v.mem p
              rw [e] at hl1
              exact ⟨p :: l1, rfl, hl1⟩
            · have other : ∀ x, x ≠ p →
                  load (v.mem.set p { load v.mem p with next := (load v.mem a).next }) x
                    = load v.mem x := fun x hx => load_set_ne v.mem p x _ (Ne.symm hx)
              rw [other a (Ne.symm hpa)] at hl1
              by_cases hpl : p ∈ l1
              · exfalso
                obtain ⟨t1, t2, ht⟩ := List.append_of_mem hpl
                have hl1b := hl1
                rw [ht] at hl1b
                obtain ⟨q, hq⟩ := IsChain.suffix t1 (p :: t2) _ hl1b
                have hq2 := hq.2
                rw [load_set_eq v.mem p _ hplt] at hq2
                have := IsChain.unique _ _ _ hl1 hq2
                have hlen := congrArg List.length this
                rw [ht] at hlen
                simp at hlen
                omega
              · exact ⟨a :: l1, rfl, IsChain.congr l1 _
                  (fun x hx => by rw [other x (fun e => hpl (e ▸ hx))]) hl1⟩
          · have e : v.mem.set p { load v.mem p with next := (load v.mem a).next }
                = v.mem := List.set_eq_of_length_le (Nat.le_of_not_lt hplt)
            rw [e] at hl1
            exact ⟨a :: l1, rfl, hl1⟩
      · rw [if_neg hm] at hr
        obtain ⟨l1, hl1⟩ := ih _ _ _ u s hr
        have hm1 : (load v.mem a).marked = true := by simpa using hm
        have halt : a < v.mem.length := lt_of_marked _ _ hm1
        have self := load_set_eq v.mem a { load v.mem a with marked := false } halt
        have other : ∀ x, x ≠ a →
            load (v.mem.set a { load v.mem a with marked := false }) x = load v.mem x :=
          fun x hx => load_set_ne v.mem a x _ (Ne.symm hx)
        simp only [] at hl1
        rw [self] at hl1
        refine ⟨a :: l1, rfl, IsChain.congr l1 _ (fun x _ => ?_) hl1⟩
        by_cases hxa : x = a
        · subst hxa; rw [self]
        · rw [other x hxa]

theorem sweepLoop_add : ∀ (f : Nat) (v : vm) (o prev : Ptr) (u : Unit) (s : vm) (k : Nat),
    sweepLoop f v o prev = .ok u s → sweepLoop (f + k) v o prev = .ok u s := by
  intro f
  induction f with
  | zero =>
    intro v o prev u s k hr
    cases o with
    | none => rw [sweepLoop_nil] at hr ⊢; exact hr
    | some a => simp [sweepLoop] at hr
  | succ f ih =>
    intro v o prev u s k hr
    cases o with
    | none => rw [sweepLoop_nil] at hr ⊢; exact hr
    | some a =>
      have e : f + 1 + k = (f + k) + 1 := by omega
      rw [e]
      rw [sweepLoop_succ] at hr ⊢
      by_cases hm : (load v.mem a).marked = false
      · rw [if_pos hm] at hr ⊢
        obtain ⟨hp, hr2⟩ := printFreed_ok _ _ _ u s hr
        rw [printFreed_of_printable _ _ _ hp]
        exact ih _ _ _ u s k hr2
      · rw [if_neg hm] at hr ⊢
        exact ih _ _ _ u s k hr

/-- The fuel that `sweep` supplies is enough in a state with valid pointers: a sweep loop that
returns with any amount of fuel returns the same state with the fuel of `sweep`. -/
theorem sweep_adequate (f : Nat) (v s : vm) (u : Unit) (wf : WF v)
    (hr : sweepLoop f v v.firstObject none = .ok u s) : sweep v = .ok u s := by
  obtain ⟨l, hl⟩ := sweepLoop_chain f v _ _ u s hr
  obtain ⟨s2, hs2, _⟩ := sweep_post v l wf.1 wf.2.2 hl
    (sweepLoop_printable l f v _ none u s hl (IsChain.nodup l _ hl) (by simp) hr)
  have a := sweepLoop_add f v _ _ u s (v.mem.length + 1) hr
  have b := sweepLoop_add (v.mem.length + 1) v _ _ () s2 f hs2
  rw [Nat.add_comm] at b
  rw [a] at b
  rw [hs2]
  exact b.symm

/-- A `gc` that returns started from a registry that is a `nil`-terminated chain. -/
theorem registry_of_gc_ok (v v2 : vm) (hg : gc v = .ok () v2) : ∃ l, Registry v l := by
  obtain ⟨v1, v3, hm, hs, _⟩ := gc_ok_inv v v2 hg
  obtain ⟨l, hl⟩ := sweepLoop_chain _ v1 _ _ () v3 hs
  obtain ⟨hloop, hv1⟩ := markAll_ok_inv v v1 hm
  have step := (markAllLoop_step v.stack _ 0 v.mem).1 () v1.mem hloop
  have hf : v1.firstObject = v.firstObject := by rw [hv1]
  rw [hf] at hl
  exact ⟨l, IsChain.congr l _ (fun x _ => (step.next_eq x).symm) hl⟩

/-- Starting without marks, `gc` terminates when `String` returns on every registered object
that is not reachable from the roots: these are the objects the sweep frees and prints. -/
theorem gc_ne_diverge_of_noMarks (v : vm) (l : List Nat) (wf : WF v) (hreg : Registry v l)
    (nm : NoMarks v.mem) (hpr : ∀ x ∈ l, ¬ Reachable v x → Printable v.mem x) :
    gc v ≠ .diverge := by
  cases hm : markAll v with
  | diverge => exact absurd hm (markAll_ne_diverge v)
  | panic e s => unfold gc; rw [hm]; simp
  | ok u v1 =>
    obtain ⟨hloop, _⟩ := markAll_ok_inv v v1 hm
    have step := (markAllLoop_step v.stack _ 0 v.mem).1 () v1.mem hloop
    obtain ⟨v3, _, _, hg⟩ := gc_post v v1 l wf hreg hm (fun x hx hxm => by
      refine (step.printable x).2 (hpr x hx (fun hr => ?_))
      rw [markAll_marks_reachable v v1 wf nm hm x hr] at hxm
      exact absurd hxm (by decide))
    rw [hg]
    simp

/-- Allocating objects one after the other keeps the state sound. -/
theorem newObjects_sound : ∀ (ts : List Int) (v s : vm), Sound v →
    newObjects ts v = .ok () s → Sound s := by
  intro ts
  induction ts with
  | nil =>
    intro v s snd h
    simp only [newObjects] at h
    injection h with _ h
    exact h ▸ snd
  | cons t ts ih =>
    intro v s snd h
    obtain ⟨a, s1, hn, snd1, _⟩ := snd.newObject_ok t
    simp only [newObjects, hn] at h
    exact ih s1 s snd1 h

theorem not_printable_of_cycle (h : Heap) (a : Nat) (hc : Relation.TransGen (Edge h) a a) :
    ¬ Printable h a := by
  rintro ⟨s, hs⟩
  have := stringFuel_cycle h a hc (h.length + 1)
  unfold objectString at hs
  rw [this] at hs
  simp at hs

/-- The sweep loop does not return, whatever the fuel, when it meets an unmarked object on
which `String` does not return. -/
theorem sweepLoop_diverge_of_not_printable (f : Nat) (v : vm) (a : Nat)
    (hm : (load v.mem a).marked = false) (hp : ¬ Printable v.mem a) :
    sweepLoop f v (some a) none = .diverge := by
  cases f with
  | zero => rfl
  | succ f =>
    rw [sweepLoop_succ, if_pos hm]
    exact printFreed_of_not_printable _ _ _ hp

/-- The sweep loop never panics. -/
theorem sweepLoop_ne_panic : ∀ (f : Nat) (v : vm) (o prev : Ptr) (e : Panic) (s : vm),
    sweepLoop f v o prev ≠ .panic e s := by
  intro f
  induction f with
  | zero =>
    intro v o prev e s
    cases o with
    | none => rw [sweepLoop_nil]; simp
    | some a => simp [sweepLoop]
  | succ f ih =>
    intro v o prev e s
    cases o with
    | none => rw [sweepLoop_nil]; simp
    | some a =>
      rw [sweepLoop_succ]
      by_cases hm : (load v.mem a).marked = false
      · rw [if_pos hm]
        exact fun h => ih _ _ _ e s (printFreed_panic _ _ _ e s h)
      · rw [if_neg hm]; exact ih _ _ _ e s

/-- With valid pointers and a registry that is a `nil`-terminated chain `l`, `gc` terminates
exactly when `String` returns on every object that its sweep frees and prints: the objects of
`l` that the mark phase leaves unmarked. -/
theorem gc_terminates_iff (v : vm) (l : List Nat) (wf : WF v) (hreg : Registry v l) :
    gc v ≠ .diverge ↔
      ∀ v1, markAll v = .ok () v1 →
        ∀ x ∈ l, (load v1.mem x).marked = false → Printable v.mem x := by
  constructor
  · intro hnd v1 hm x hx hxm
    obtain ⟨hloop, hv1⟩ := markAll_ok_inv v v1 hm
    have step := (markAllLoop_step v.stack _ 0 v.mem).1 () v1.mem hloop
    have hreg1 : IsChain v1.mem v1.firstObject l := by
      have h1 : v1.firstObject = v.firstObject := by rw [hv1]
      rw [h1]
      exact step.isChain _ _ hreg
    have hsw : ∃ v3, sweep v1 = .ok () v3 := by
      cases hs : sweep v1 with
      | ok u v3 => exact ⟨v3, rfl⟩
      | panic e s => exact absurd hs (sweepLoop_ne_panic _ _ _ _ e s)
      | diverge =>
        exfalso
        apply hnd
        unfold gc
        rw [hm]
        simp only []
        rw [hs]
    obtain ⟨v3, hs⟩ := hsw
    exact (step.printable x).1
      (sweepLoop_printable l _ v1 _ none () v3 hreg1 (IsChain.nodup l _ hreg1) (by simp) hs
        x hx hxm)
  · intro h
    cases hm : markAll v with
    | diverge => exact absurd hm (markAll_ne_diverge v)
    | panic e s => unfold gc; rw [hm]; simp
    | ok u v1 =>
      obtain ⟨hloop, _⟩ := markAll_ok_inv v v1 hm
      have step := (markAllLoop_step v.stack _ 0 v.mem).1 () v1.mem hloop
      obtain ⟨v3, _, _, hg⟩ := gc_post v v1 l wf hreg hm
        (fun x hx hxm => (step.printable x).2 (h v1 hm x hx hxm))
      rw [hg]
      simp

/-- Starting without marks, the objects that the sweep of `gc` frees are the registered
objects that are not reachable from the roots, so `gc` terminates exactly when its mark phase
panics or `String` returns on every registered object that is not reachable. -/
theorem gc_terminates_iff_of_noMarks (v : vm) (l : List Nat) (wf : WF v) (hreg : Registry v l)
    (nm : NoMarks v.mem) :
    gc v ≠ .diverge ↔
      ((∃ v1, markAll v = .ok () v1) → ∀ x ∈ l, ¬ Reachable v x → Printable v.mem x) := by
  rw [gc_terminates_iff v l wf hreg]
  constructor
  · rintro h ⟨v1, hm⟩ x hx hnr
    refine h v1 hm x hx ?_
    by_contra hc
    have hmk : (load v1.mem x).marked = true := by simpa using hc
    exact hnr (markAll_marked_reachable v v1 wf hm x hmk (nm.unmarked_at x))
  · intro h v1 hm x hx hxm
    refine h ⟨v1, hm⟩ x hx (fun hr => ?_)
    rw [markAll_marks_reachable v v1 wf nm hm x hr] at hxm
    exact absurd hxm (by decide)

/-! ## Reachability preservation, reclamation, termination, mark bits, threshold -/

/-- C1. Reachability preservation. In a state with valid pointers, a registry that is a
`nil`-terminated chain `l` and no marked object, `gc` terminates exactly when its mark phase
panics or `String` returns on every registered object that is not reachable (the sweep prints
the objects it frees; on a freed pair that lies on a head/tail cycle the print never returns).
When `gc` returns, every object that was reachable from the occupied root-stack slots and
registered before the collection is in the registry afterwards, with the same `typeFlag`,
`value`, `head` and `tail`. -/
theorem gc_preserves_reachable (v : vm) (l : List Nat) (wf : WF v) (hreg : Registry v l)
    (nm : NoMarks v.mem) :
    (gc v ≠ .diverge ↔
      ((∃ v1, markAll v = .ok () v1) → ∀ x ∈ l, ¬ Reachable v x → Printable v.mem x)) ∧
    ∀ v2, gc v = .ok () v2 → ∃ l2, Registry v2 l2 ∧
      ∀ x, Reachable v x → x ∈ l →
        x ∈ l2 ∧ (load v2.mem x).typeFlag = (load v.mem x).typeFlag ∧
        (load v2.mem x).value = (load v.mem x).value ∧
        (load v2.mem x).head = (load v.mem x).head ∧
        (load v2.mem x).tail = (load v.mem x).tail := by
  refine ⟨gc_terminates_iff_of_noMarks v l wf hreg nm, fun v2 hg => ?_⟩
  obtain ⟨v1, hm, hreg2, _, _, _, _, _, hfld, _⟩ := gc_spec v v2 l wf hreg hg
  refine ⟨_, hreg2, fun x hx hxl => ⟨?_, hfld x⟩⟩
  exact List.mem_filter.mpr ⟨hxl, markAll_marks_reachable v v1 wf nm hm x hx⟩

theorem demoVM_reachable : Reachable demoVM 0 :=
  ⟨2, ⟨0, by decide, rfl⟩, Relation.ReflTransGen.single ⟨rfl, Or.inl rfl⟩⟩

theorem gc_preserves_reachable_witness :
    WF demoVM ∧ Registry demoVM [3, 2, 1, 0] ∧ NoMarks demoVM.mem ∧ Reachable demoVM 0 ∧
    ∃ v2 l2, gc demoVM = .ok () v2 ∧ Registry v2 l2 ∧ 0 ∈ l2 ∧
      (load v2.mem 0).typeFlag = (load demoVM.mem 0).typeFlag ∧
      (load v2.mem 0).value = (load demoVM.mem 0).value ∧
      (load v2.mem 0).head = (load demoVM.mem 0).head ∧
      (load v2.mem 0).tail = (load demoVM.mem 0).tail := by
  obtain ⟨l2, hreg2, h⟩ :=
    (gc_preserves_reachable demoVM [3, 2, 1, 0] (by decide) (by decide) (by decide)).2 _ rfl
  exact ⟨by decide, by decide, by decide, demoVM_reachable, _, l2, rfl, hreg2,
    h 0 demoVM_reachable (by decide)⟩

set_option maxRecDepth 100000

/-- C2, as stated, fails: the only object of `staleMarkVM` is registered and has no path from
any root (the stack is empty), yet it is still in the registry after `gc`, because it carried a
mark when the collection started and `sweep` keeps every marked object. The listed operations
lead to such states when a `gc` panics half-way through its mark phase: after `pushInt 1`,
`newObject(pairType)`, `push` of the incomplete pair and the panicking `gc`, both objects are
marked; once they are popped, a second `gc` keeps both in the registry. -/
theorem gc_keeps_marked_unreachable :
    (WF staleMarkVM ∧ Registry staleMarkVM [0] ∧ ¬ Reachable staleMarkVM 0 ∧
      ∃ v2, gc staleMarkVM = .ok () v2 ∧ Registry v2 [0]) ∧
    ∃ s1 s2 s3 s4,
      runOps [.pushInt 1, .newObject pairType, .push (some 1)]
        (newVM maxStackSize initialGCThreshold) = .ok () s1 ∧
      gc s1 = .panic .nilDeref s2 ∧ runOps [.pop, .pop] s2 = .ok () s3 ∧
      Registry s3 [1, 0] ∧ s3.stackSize = 0 ∧ gc s3 = .ok () s4 ∧ Registry s4 [1, 0] := by
  refine ⟨⟨by decide, by decide, ?_, _, rfl, by decide⟩,
    ⟨_, _, _, _, rfl, rfl, rfl, by decide, rfl, rfl, by decide⟩⟩
  rintro ⟨r, ⟨i, hi, _⟩, _⟩
  simp only [staleMarkVM] at hi
  omega

/-- C2, amended. In a state with valid pointers and a registry that is a `nil`-terminated chain
`l`, `gc` terminates exactly when `String` returns on every registered object that the mark
phase leaves unmarked (the sweep prints the objects it frees), and when `gc` returns every
registered object that was unmarked and had no head/tail path from any occupied root-stack
slot is absent from the registry. In the scenario push 1, push 2, pushPair, allocate an
unrooted int 123, `gc`: the object 123 is gone and `numObjects = 3`. -/
theorem gc_reclaims_unreachable (v : vm) (l : List Nat) (wf : WF v) (hreg : Registry v l) :
    ((gc v ≠ .diverge ↔
      ∀ v1, markAll v = .ok () v1 →
        ∀ x ∈ l, (load v1.mem x).marked = false → Printable v.mem x) ∧
      ∀ v2, gc v = .ok () v2 → ∃ l2, Registry v2 l2 ∧
        ∀ x, x ∈ l → (load v.mem x).marked = false → ¬ Reachable v x → x ∉ l2) ∧
    ∃ s1 s2 s3 a s4 s5,
      pushInt 1 (newVM maxStackSize initialGCThreshold) = .ok () s1 ∧
      pushInt 2 s1 = .ok () s2 ∧ pushPair s2 = .ok () s3 ∧
      newObject intType s3 = .ok a s4 ∧
      gc { s4 with mem := s4.mem.set a { load s4.mem a with value := 123 } } = .ok () s5 ∧
      Registry s5 [2, 1, 0] ∧ a = 3 ∧ s5.numObjects = 3 := by
  refine ⟨⟨gc_terminates_iff v l wf hreg, fun v2 hg => ?_⟩, ?_⟩
  · obtain ⟨v1, hm, hreg2, _, _, _, _, _, _, _⟩ := gc_spec v v2 l wf hreg hg
    refine ⟨_, hreg2, fun x _ hx0 hnr hx2 => ?_⟩
    exact hnr (markAll_marked_reachable v v1 wf hm x (List.mem_filter.mp hx2).2 hx0)
  · exact ⟨_, _, _, _, _, _, rfl, rfl, rfl, rfl, rfl, by decide, rfl, rfl⟩

theorem demoVM_unreachable : ¬ Reachable demoVM 3 := by
  rintro ⟨r, ⟨i, hi, hs⟩, hp⟩
  have hi0 : i = 0 := by
    simp only [demoVM] at hi
    omega
  subst hi0
  have hr : r = 2 := by
    have : some (some 2) = some (some r) := hs
    exact (Option.some.inj (Option.some.inj this)).symm
  subst hr
  have key : ∀ x, Reach demoVM.mem 2 x → x ≤ 2 := by
    intro x hx
    induction hx with
    | refl => exact Nat.le_refl 2
    | @tail y z _ hedge ih =>
      have hy : y = 0 ∨ y = 1 ∨ y = 2 := by omega
      rcases hy with rfl | rfl | rfl
      · exact absurd hedge.1 (by decide)
      · exact absurd hedge.1 (by decide)
      · rcases hedge.2 with h | h
        · have : some 0 = some z := h
          have := Option.some.inj this
          omega
        · have : some 1 = some z := h
          have := Option.some.inj this
          omega
  have := key 3 hp
  omega

theorem gc_reclaims_unreachable_witness :
    WF demoVM ∧ Registry demoVM [3, 2, 1, 0] ∧ (load demoVM.mem 3).marked = false ∧
    ¬ Reachable demoVM 3 ∧
    ∃ v2 l2, gc demoVM = .ok () v2 ∧ Registry v2 l2 ∧ 3 ∉ l2 := by
  obtain ⟨l2, hreg2, h⟩ :=
    (gc_reclaims_unreachable demoVM [3, 2, 1, 0] (by decide) (by decide)).1.2 _ rfl
  exact ⟨by decide, by decide, rfl, demoVM_unreachable, _, l2, rfl, hreg2,
    h 3 (by decide) rfl demoVM_unreachable⟩

/-- C3 fails in the code. `mark` and `markAll` terminate on every memory, cycles included (more
fuel than there are unmarked objects is always enough), and `gc` returns on the pair whose head
and tail are the pair itself while that pair is the sole root (`numObjects = 1`, the registry
holds the pair once). But `gc` does not terminate on every finite object graph: once that pair
is popped, the next `gc` frees it, `sweep` prints it with the verb `%s`, and `String` recurses
through `head` and `tail` without a visited check. With no amount of fuel does `String`
return on the pair or the sweep loop end, and `gc` does not return. -/
theorem gc_diverges_on_cyclic_garbage :
    (∀ (h : Heap) f o, unmarkedCount h < f → markFuel f h o ≠ .diverge) ∧
    (∀ (h : Heap) o, mark h o ≠ .diverge) ∧
    (∀ v : vm, markAll v ≠ .diverge) ∧
    ∃ a s1 s2 s3 s4,
      newObject pairType (newVM maxStackSize initialGCThreshold) = .ok a s1 ∧
      push (some a)
        { s1 with mem := s1.mem.set a { load s1.mem a with head := some a, tail := some a } }
        = .ok () s2 ∧
      (load s2.mem a).head = some a ∧ (load s2.mem a).tail = some a ∧
      Registry s2 [a] ∧ Root s2 a ∧
      gc s2 = .ok () s3 ∧ s3.numObjects = 1 ∧ Registry s3 [a] ∧
      pop s3 = .ok (some a) s4 ∧
      WF s4 ∧ Registry s4 [a] ∧ NoMarks s4.mem ∧ s4.stackSize = 0 ∧
      markAll s4 = .ok () s4 ∧
      (∀ f, stringFuel f s4.mem (some a) = none) ∧
      (∀ f, sweepLoop f s4 s4.firstObject none = .diverge) ∧
      gc s4 = .diverge :=
  ⟨fun h f o hf => markFuel_ne_diverge f h o hf, mark_ne_diverge, markAll_ne_diverge,
    ⟨0, _, _, _, _, rfl, rfl, rfl, rfl, by decide, ⟨0, by decide, rfl⟩, rfl, rfl, by decide,
      rfl, by decide, by decide, by decide, rfl, rfl,
      stringFuel_cycle _ 0 (Relation.TransGen.single ⟨rfl, Or.inl rfl⟩),
      fun f => sweepLoop_diverge_of_not_printable f _ 0 rfl
        (not_printable_of_cycle _ 0 (Relation.TransGen.single ⟨rfl, Or.inl rfl⟩)),
      rfl⟩⟩

/-- C4. Mark-bit restoration. In a state with valid pointers and a registry that is a
`nil`-terminated chain (every `gc` that returns starts from such a registry, see
`registry_of_gc_ok`), `gc` terminates exactly when `String` returns on every registered
object that the mark phase leaves unmarked (the sweep prints the objects it frees), and when
`gc` returns every object left in the registry has `marked = false`, whatever marks were set
before the collection. -/
theorem gc_clears_marks (v : vm) (l : List Nat) (wf : WF v) (hreg : Registry v l) :
    (gc v ≠ .diverge ↔
      ∀ v1, markAll v = .ok () v1 →
        ∀ x ∈ l, (load v1.mem x).marked = false → Printable v.mem x) ∧
    ∀ v2, gc v = .ok () v2 → ∃ l2, Registry v2 l2 ∧ ∀ x ∈ l2, (load v2.mem x).marked = false := by
  refine ⟨gc_terminates_iff v l wf hreg, fun v2 hg => ?_⟩
  obtain ⟨v1, _, hreg2, _, _, _, _, _, _, hmk⟩ := gc_spec v v2 l wf hreg hg
  refine ⟨_, hreg2, fun x hx => ?_⟩
  rw [hmk x]
  simp [(List.mem_filter.mp hx).1]

theorem gc_clears_marks_witness :
    WF staleMarkVM ∧ Registry staleMarkVM [0] ∧
    ∃ v2, gc staleMarkVM = .ok () v2 ∧ ∃ l2, Registry v2 l2 ∧
      ∀ x ∈ l2, (load v2.mem x).marked = false :=
  ⟨by decide, by decide, _, rfl,
    (gc_clears_marks staleMarkVM [0] (by decide) (by decide)).2 _ rfl⟩

/-- C6. Threshold update. In a state with valid pointers and a registry that is a
`nil`-terminated chain `l` (every `gc` that returns starts from such a registry, see
`registry_of_gc_ok`), `gc` terminates exactly when `String` returns on every registered
object that the mark phase leaves unmarked (the sweep prints the objects it frees), and when
`gc` returns `maxObjects` is twice the `numObjects` left by the sweep; when `numObjects`
counted the registry before the collection, it counts the registry left by the sweep. -/
theorem gc_threshold (v : vm) (l : List Nat) (wf : WF v) (hreg : Registry v l) :
    (gc v ≠ .diverge ↔
      ∀ v1, markAll v = .ok () v1 →
        ∀ x ∈ l, (load v1.mem x).marked = false → Printable v.mem x) ∧
    ∀ v2, gc v = .ok () v2 →
      v2.maxObjects = 2 * v2.numObjects ∧
      ∃ l2, Registry v2 l2 ∧ (v.numObjects = l.length → v2.numObjects = l2.length) := by
  refine ⟨gc_terminates_iff v l wf hreg, fun v2 hg => ?_⟩
  obtain ⟨v1, _, hreg2, hnum, hmax, _⟩ := gc_spec v v2 l wf hreg hg
  refine ⟨by rw [hmax]; ring, _, hreg2, fun hcount => ?_⟩
  have := filter_length_split (fun x => (load v1.mem x).marked) l
  rw [hnum, hcount]
  omega

theorem gc_threshold_witness :
    WF demoVM ∧ Registry demoVM [3, 2, 1, 0] ∧
    ∃ v2, gc demoVM = .ok () v2 ∧ v2.maxObjects = 2 * v2.numObjects ∧
      ∃ l2, Registry v2 l2 ∧ (demoVM.numObjects = ([3, 2, 1, 0] : List Nat).length →
        v2.numObjects = l2.length) :=
  ⟨by decide, by decide, _, rfl,
    (gc_threshold demoVM [3, 2, 1, 0] (by decide) (by decide)).2 _ rfl⟩

/-! ## The collector never fails -/

/-- C5, as stated, fails: `newObject(pairType)` returns a pair whose head and tail are `nil`;
pushing that reference with `push` and calling `gc` makes `mark` dereference `nil`. -/
theorem gc_panics_on_incomplete_pair :
    ∃ a s1 s2 s3,
      newObject pairType (newVM maxStackSize initialGCThreshold) = .ok a s1 ∧
      push (some a) s1 = .ok () s2 ∧
      Steps AnyOp (newVM maxStackSize initialGCThreshold) s2 ∧
      gc s2 = .panic .nilDeref s3 :=
  ⟨_, _, _, _, rfl, rfl,
    Steps.step _ _ (.push (some 0))
      (Steps.step _ _ (.newObject pairType) Steps.init trivial rfl)
      (Nat.zero_lt_succ 0) rfl,
    rfl⟩

/-- C5, amended. In every state reached from `newVM` through `newObject`, `push`, `pop`,
`pushInt`, `popInt`, `pushPair`, `popPair`, `add` and `gc` (operations that panic included),
where `push` is only given non-nil references to objects that are not pairs with a `nil` head
or tail, a call of `gc` returns without panic. -/
theorem gc_never_fails (cap : Nat) (t : Int) (s : vm)
    (hs : Steps CompleteRefs (newVM cap t) s) : ∃ s2, gc s = .ok () s2 :=
  ((Sound.newVM cap t).of_steps hs).gc_ok

theorem gc_never_fails_witness :
    Steps CompleteRefs (newVM 4 10) pairVM ∧ ∃ s2, gc pairVM = .ok () s2 :=
  have h : Steps CompleteRefs (newVM 4 10) pairVM :=
    Steps.step _ _ .pushPair
      (Steps.step _ _ (.pushInt 2)
        (Steps.step _ _ (.pushInt 1) Steps.init trivial rfl) trivial rfl) trivial rfl
  ⟨h, gc_never_fails 4 10 pairVM h⟩

/-! ## Threshold policy -/

/-- C7 fails in the code: after ten unrooted allocations from `newVM(256, 10)` the eleventh
collects and leaves `numObjects = 1` but `maxObjects = 0`, not the threshold 2 that the
specification expects for one live object. The threshold is computed by `gc`, before the new
object is counted, as twice the zero objects that survived; with `maxObjects = 0` the check
`numObjects == maxObjects` of `newObject` is false from then on. -/
theorem threshold_after_first_gc_is_zero :
    ∃ s a s2,
      newObjects (List.replicate 10 intType) (newVM maxStackSize initialGCThreshold) = .ok () s ∧
      newObject intType s = .ok a s2 ∧
      s2.numObjects = 1 ∧ s2.maxObjects = 0 ∧ s2.maxObjects ≠ 2 :=
  ⟨_, _, _, rfl, rfl, rfl, rfl, by decide⟩

/-- The same for every initial threshold. Starting from `newVM(cap, t)` and calling `newObject`
once for each of the `t` kinds in `ts` with nothing pushed on the root stack, no call collects
and the count reaches the threshold (`numObjects = maxObjects = t`, the registry holds the `t`
objects). The next call triggers a collection that frees all `t` objects (the registry becomes
empty, the count 0) before the new object is registered; the resulting state has the new
object alone in the registry, `numObjects = 1` and `maxObjects = 0`. -/
theorem auto_gc_at_threshold (cap : Nat) (ts : List Int) (k : Int) :
    ∃ s g s2,
      newObjects ts (newVM cap ts.length) = .ok () s ∧
      s.numObjects = ts.length ∧ s.maxObjects = ts.length ∧
      Registry s (List.range ts.length).reverse ∧
      gc s = .ok () g ∧ Registry g [] ∧ g.numObjects = 0 ∧
      newObject k s = .ok ts.length s2 ∧ allocate k g = .ok ts.length s2 ∧
      Registry s2 [ts.length] ∧ s2.numObjects = 1 ∧ s2.maxObjects = 0 := by
  have snd0 := Sound.newVM cap ts.length
  obtain ⟨s, hs, wf, nm, hreg, hlen, hnum, hmax, hsz, _⟩ :=
    newObjects_below ts (newVM cap ts.length) 0 snd0.wf
      (fun o ho => by simp [newVM] at ho) rfl rfl rfl
      (by show ((0 : Nat) + ts.length : Int) ≤ (ts.length : Int); simp)
  simp only [Nat.zero_add] at hreg hlen hnum
  have hmax2 : s.maxObjects = ts.length := hmax
  have hsz2 : s.stackSize = 0 := hsz
  have hm := markAll_of_empty s hsz2
  have snds : Sound s := newObjects_sound ts _ s snd0 hs
  obtain ⟨v3, _, _, hg⟩ := gc_post s s _ wf hreg hm
    (fun x _ _ => printable_of_older s.mem snds.older x)
  obtain ⟨v1, hm1, hregg, hnumg, hmaxg, _, _, hleng, _, _⟩ := gc_spec s _ _ wf hreg hg
  have hv1 : v1 = s := by
    rw [hm] at hm1
    injection hm1 with _ h
    exact h.symm
  subst hv1
  have hnone : ∀ x, (load v1.mem x).marked = false := nm.unmarked_at
  have hf1 : ((List.range ts.length).reverse.filter fun x => (load v1.mem x).marked) = [] := by
    rw [List.filter_eq_nil_iff]
    intro x _
    simp [hnone x]
  have hf2 : ((List.range ts.length).reverse.filter fun x => !(load v1.mem x).marked)
      = (List.range ts.length).reverse := by
    rw [List.filter_eq_self]
    intro x _
    simp [hnone x]
  rw [hf1] at hregg
  rw [hf2] at hnumg
  have hnumg0 : ({ v3 with maxObjects := v3.numObjects * 2 } : vm).numObjects = 0 := by
    rw [hnumg, hnum]
    simp
  have wfg := wf.after_gc hg
  obtain ⟨s2, ha, _, hreg2, _, hnum2, hmax2', _, _⟩ :=
    allocate_spec { v3 with maxObjects := v3.numObjects * 2 } k [] wfg hregg
  have hlen2 : ({ v3 with maxObjects := v3.numObjects * 2 } : vm).mem.length = ts.length :=
    hleng.trans hlen
  rw [hlen2] at ha hreg2
  refine ⟨v1, _, s2, hs, hnum, hmax2, hreg, hg, hregg, hnumg0, ?_, ha, hreg2, ?_, ?_⟩
  · rw [newObject_of_eq k v1 (hnum.trans hmax2.symm), hg]
    exact ha
  · rw [hnum2, hnumg0]
    rfl
  · rw [hmax2', hmaxg, hnumg0]
    rfl

/-- C8. Collection never triggers earlier than the threshold. Let `s` be the state a returning
`gc` leaves, with `n = numObjects` live objects, and let `newObject` be called for the `n`
kinds of `ts`. Before each of these `n` calls the count differs from the threshold, so the call
is a plain allocation without `gc`; before the call that follows them the count equals the
threshold, and that call runs `gc` first and registers and counts its new object in the state
`gc` returns. -/
theorem no_gc_before_threshold (s0 s : vm) (hg : gc s0 = .ok () s) (ts : List Int)
    (hts : (ts.length : Int) = s.numObjects) :
    s.maxObjects = 2 * s.numObjects ∧
    (∀ k, k < ts.length → ∃ sk, newObjects (ts.take k) s = .ok () sk ∧
      sk.numObjects ≠ sk.maxObjects ∧ ∀ t, newObject t sk = allocate t sk) ∧
    ∃ sn, newObjects ts s = .ok () sn ∧ sn.numObjects = sn.maxObjects ∧
      ∀ t a s2, newObject t sn = .ok a s2 → ∃ g, gc sn = .ok () g ∧ allocate t g = .ok a s2 := by
  have hmax : s.maxObjects = 2 * s.numObjects := by
    obtain ⟨_, v3, _, _, hv⟩ := gc_ok_inv s0 s hg
    rw [hv]
    show v3.numObjects * 2 = 2 * v3.numObjects
    ring
  refine ⟨hmax, fun k hk => ?_, ?_⟩
  · have hlk : (ts.take k).length = k := by
      rw [List.length_take]
      omega
    obtain ⟨sk, hsk, hn, hm⟩ := newObjects_counts (ts.take k) s (fun j hj => by
      rw [hlk] at hj
      omega)
    rw [hlk] at hn
    have hne : sk.numObjects ≠ sk.maxObjects := by
      rw [hn, hm]
      omega
    exact ⟨sk, hsk, hne, fun t => newObject_of_ne t sk hne⟩
  · obtain ⟨sn, hsn, hn, hm⟩ := newObjects_counts ts s (fun j hj => by omega)
    have heq : sn.numObjects = sn.maxObjects := by
      rw [hn, hm]
      omega
    refine ⟨sn, hsn, heq, fun t a s2 hnew => ?_⟩
    rw [newObject_of_eq t sn heq] at hnew
    cases hgc : gc sn with
    | ok u g =>
      rw [hgc] at hnew
      exact ⟨g, rfl, hnew⟩
    | panic e x => rw [hgc] at hnew; simp at hnew
    | diverge => rw [hgc] at hnew; simp at hnew

theorem no_gc_before_threshold_witness :
    gc demoVM = .ok () demoCollectedVM ∧
    (([0, 1, 0] : List Int).length : Int) = demoCollectedVM.numObjects ∧
    demoCollectedVM.maxObjects = 2 * demoCollectedVM.numObjects ∧
    (∀ k, k < ([0, 1, 0] : List Int).length →
      ∃ sk, newObjects (([0, 1, 0] : List Int).take k) demoCollectedVM = .ok () sk ∧
        sk.numObjects ≠ sk.maxObjects ∧ ∀ t, newObject t sk = allocate t sk) ∧
    ∃ sn, newObjects [0, 1, 0] demoCollectedVM = .ok () sn ∧ sn.numObjects = sn.maxObjects ∧
      ∀ t a s2, newObject t sn = .ok a s2 → ∃ g, gc sn = .ok () g ∧ allocate t g = .ok a s2 :=
  ⟨rfl, rfl, no_gc_before_threshold demoVM demoCollectedVM rfl [0, 1, 0] rfl⟩

/-! ## Idempotence of collection -/

/-- C9, as stated, fails. The operations `pushInt 1`, `pop`, `push`, `push` (the popped
reference, twice), `pushInt 2`, `pushPair`, `pop`, `gc`, `pop`, `push` (the reference of the
pair that `gc` has just unlinked) lead to a state without marks whose root is an unregistered
pair with a registered head. The first `gc` keeps that head (registry `[0]`, `numObjects = 1`,
`maxObjects = 2`) but leaves the unregistered pair marked; the second `gc` therefore stops at
the pair and frees the head (empty registry, `numObjects = 0`, `maxObjects = 0`). A registered
object that is unreachable but already marked, as in `staleMarkVM`, is likewise kept by the
first `gc` and freed by the second. -/
theorem gc_twice_differs :
    (∃ s s1 s2,
      runOps [.pushInt 1, .pop, .push (some 0), .push (some 0), .pushInt 2, .pushPair, .pop,
          .gc, .pop, .push (some 2)] (newVM maxStackSize initialGCThreshold) = .ok () s ∧
      NoMarks s.mem ∧ WF s ∧ Registry s [0] ∧ Root s 2 ∧
      gc s = .ok () s1 ∧ gc s1 = .ok () s2 ∧
      Registry s1 [0] ∧ s1.numObjects = 1 ∧ s1.maxObjects = 2 ∧
      Registry s2 [] ∧ s2.numObjects = 0 ∧ s2.maxObjects = 0) ∧
    ∃ s1 s2,
      gc staleMarkVM = .ok () s1 ∧ gc s1 = .ok () s2 ∧
      Registry s1 [0] ∧ s1.numObjects = 1 ∧ s1.maxObjects = 2 ∧
      Registry s2 [] ∧ s2.numObjects = 0 ∧ s2.maxObjects = 0 :=
  ⟨⟨_, _, _, rfl, by decide, by decide, by decide, ⟨0, by decide, rfl⟩, rfl, rfl, by decide, rfl,
      rfl, by decide, rfl, rfl⟩,
    ⟨_, _, rfl, rfl, by decide, rfl, rfl, by decide, rfl, rfl⟩⟩

theorem reachable_congr (v v1 : vm) (hst : v1.stack = v.stack) (hsz : v1.stackSize = v.stackSize)
    (hfld : ∀ a, (load v1.mem a).typeFlag = (load v.mem a).typeFlag ∧
      (load v1.mem a).value = (load v.mem a).value ∧
      (load v1.mem a).head = (load v.mem a).head ∧
      (load v1.mem a).tail = (load v.mem a).tail) (x : Nat) :
    Reachable v1 x ↔ Reachable v x := by
  have hedge : ∀ a b, Edge v1.mem a b ↔ Edge v.mem a b := by
    intro a b
    simp only [Edge, (hfld a).1, (hfld a).2.2.1, (hfld a).2.2.2]
  have hroot : ∀ r, Root v1 r ↔ Root v r := by
    intro r
    simp only [Root, hst, hsz]
  constructor
  · rintro ⟨r, hr, hp⟩
    exact ⟨r, (hroot r).1 hr, Relation.ReflTransGen.mono (fun a b => (hedge a b).1) hp⟩
  · rintro ⟨r, hr, hp⟩
    exact ⟨r, (hroot r).2 hr, Relation.ReflTransGen.mono (fun a b => (hedge a b).2) hp⟩

theorem reachable_lt_length (v : vm) (wf : WF v) (x : Nat) (hx : Reachable v x) :
    x < v.mem.length := by
  obtain ⟨r, ⟨i, _, hs⟩, hp⟩ := hx
  induction hp with
  | refl => exact wf.2.1 _ (List.getElem?_mem hs)
  | @tail y z _ hedge _ =>
    rcases hedge.2 with h | h
    · have := (wf.1.valid_at y).1
      rw [h] at this
      exact this
    · have := (wf.1.valid_at y).2.1
      rw [h] at this
      exact this

/-- C9, amended. In a state with valid pointers, a registry that is a `nil`-terminated chain,
no marked object and every object reachable from the root stack registered, `gc` terminates
exactly when its mark phase panics or `String` returns on every registered object that is not
reachable (the sweep prints the objects it frees). When `gc` returns, a second `gc` returns
too (it frees nothing) and leaves the same registry (same objects, same order), the same
`numObjects` and the same `maxObjects`. -/
theorem gc_idempotent (v : vm) (l : List Nat) (wf : WF v) (hreg : Registry v l)
    (nm : NoMarks v.mem) (hall : ∀ x, Reachable v x → x ∈ l) :
    (gc v ≠ .diverge ↔
      ((∃ v1, markAll v = .ok () v1) → ∀ x ∈ l, ¬ Reachable v x → Printable v.mem x)) ∧
    ∀ v1, gc v = .ok () v1 → ∃ v2 l1, gc v1 = .ok () v2 ∧ Registry v1 l1 ∧ Registry v2 l1 ∧
      v2.numObjects = v1.numObjects ∧ v2.maxObjects = v1.maxObjects := by
  refine ⟨gc_terminates_iff_of_noMarks v l wf hreg nm, fun v1 hg => ?_⟩
  obtain ⟨w, hm, hreg1, _, hmax1, hst, hsz, _, hfld, hmk⟩ := gc_spec v v1 l wf hreg hg
  have post := markAll_post v w wf hm
  have hmr : ∀ x, (load w.mem x).marked = true → Reachable v x :=
    fun x hx => markAll_marked_reachable v w wf hm x hx (nm.unmarked_at x)
  have hrm : ∀ x, Reachable v x → (load w.mem x).marked = true :=
    markAll_marks_reachable v w wf nm hm
  have wf1 := wf.after_gc hg
  have nm1 : NoMarks v1.mem := by
    apply noMarks_of_forall
    intro a
    rw [hmk a]
    by_cases hwa : (load w.mem a).marked = true
    · simp [hall a (hmr a hwa)]
    · simp [hwa]
  have hreach := reachable_congr v v1 hst hsz hfld
  have hinc : ∀ x, Incomplete v1.mem x ↔ Incomplete v.mem x := by
    intro x
    simp only [Incomplete, (hfld x).1, (hfld x).2.2.1, (hfld x).2.2.2]
  have hedge : ∀ a b, Edge v1.mem a b ↔ Edge v.mem a b := by
    intro a b
    simp only [Edge, (hfld a).1, (hfld a).2.2.1, (hfld a).2.2.2]
  have hnp := markAllLoop_no_panic v1.stack v1.stackSize.toNat 0 v1.mem (by
    intro j hj0 hj1
    rw [hsz] at hj1
    obtain ⟨a, ha, _⟩ := post.roots j hj0 hj1
    refine ⟨a, by rw [hst]; exact ha, fun x hx hix => ?_⟩
    have hxr : Reachable v x :=
      ⟨a, (root_iff v a).2 ⟨j, hj0, hj1, ha⟩,
        Relation.ReflTransGen.mono (fun p q => (hedge p q).1) hx⟩
    have hix0 := (hinc x).1 hix
    obtain ⟨⟨b, hb, _⟩, ⟨c, hc, _⟩⟩ := post.closed x (hrm x hxr) (nm.unmarked_at x) hix0.1
    rcases hix0.2 with h | h
    · rw [hb] at h; simp at h
    · rw [hc] at h; simp at h)
  have hnd := markAllLoop_ne_diverge v1.stack v1.stackSize.toNat 0 v1.mem
  have hm1 : ∃ w1, markAll v1 = .ok () w1 := by
    unfold markAll
    cases hr : markAllLoop v1.stack v1.stackSize.toNat 0 v1.mem with
    | ok u h => exact ⟨_, rfl⟩
    | panic e h => exact absurd hr (hnp e h)
    | diverge => exact absurd hr hnd
  obtain ⟨w1, hm1⟩ := hm1
  have hall0 : ∀ x ∈ l.filter (fun x => (load w.mem x).marked),
      (load w1.mem x).marked = true := by
    intro x hx
    have hxr : Reachable v x := hmr x (List.mem_filter.mp hx).2
    exact markAll_marks_reachable v1 w1 wf1 nm1 hm1 x ((hreach x).2 hxr)
  obtain ⟨v3, _, _, hg2⟩ := gc_post v1 w1 _ wf1 hreg1 hm1 (fun x hx hxm => by
    rw [hall0 x hx] at hxm
    exact absurd hxm (by decide))
  obtain ⟨w1b, hm1b, hreg2, hnum2, hmax2, _⟩ := gc_spec v1 _ _ wf1 hreg1 hg2
  have hw : w1b = w1 := by
    rw [hm1] at hm1b
    injection hm1b with _ h
    exact h.symm
  subst hw
  have hall1 : ∀ x ∈ l.filter (fun x => (load w.mem x).marked),
      (load w1b.mem x).marked = true := by
    intro x hx
    have hxr : Reachable v x := hmr x (List.mem_filter.mp hx).2
    exact markAll_marks_reachable v1 w1b wf1 nm1 hm1 x ((hreach x).2 hxr)
  have hf1 : ((l.filter fun x => (load w.mem x).marked).filter
      fun x => (load w1b.mem x).marked) = l.filter fun x => (load w.mem x).marked := by
    rw [List.filter_eq_self]
    exact hall1
  have hf2 : ((l.filter fun x => (load w.mem x).marked).filter
      fun x => !(load w1b.mem x).marked) = [] := by
    rw [List.filter_eq_nil_iff]
    intro x hx
    simp [hall1 x hx]
  rw [hf1] at hreg2
  rw [hf2] at hnum2
  have hnum2b : ({ v3 with maxObjects := v3.numObjects * 2 } : vm).numObjects = v1.numObjects := by
    rw [hnum2]
    simp
  refine ⟨_, _, hg2, hreg1, hreg2, hnum2b, ?_⟩
  rw [hmax2, hnum2b, hmax1]

theorem gc_idempotent_witness :
    WF demoVM ∧ Registry demoVM [3, 2, 1, 0] ∧ NoMarks demoVM.mem ∧
    gc demoVM = .ok () demoCollectedVM ∧
    ∃ v2 l1, gc demoCollectedVM = .ok () v2 ∧ Registry demoCollectedVM l1 ∧ Registry v2 l1 ∧
      v2.numObjects = demoCollectedVM.numObjects ∧
      v2.maxObjects = demoCollectedVM.maxObjects :=
  ⟨by decide, by decide, by decide, rfl,
    (gc_idempotent demoVM [3, 2, 1, 0] (by decide) (by decide) (by decide)
      (fun x hx => by
        have h := reachable_lt_length demoVM (by decide) x hx
        have h4 : x < 4 := h
        simp only [List.mem_cons, List.mem_singleton, List.not_mem_nil, or_false]
        omega)).2 demoCollectedVM rfl⟩

/-! ## Failing operations -/

/-- C10, as stated, fails for the composite operations. On the empty machine `pushPair` panics
with `StackUnderflow` after its pair has been allocated and registered; on a machine without
stack slots `pushInt` panics with `StackOverflow` after its int has been allocated and
registered; `popPair` on an int and `popInt` on a pair panic with `TypeMismatch` after the
top slot has been popped; `add` on a single int panics with `StackUnderflow` after that int
has been popped. -/
theorem facade_fails_after_mutation :
    (∃ s, pushPair (newVM maxStackSize initialGCThreshold) = .panic .stackUnderflow s ∧
      (newVM maxStackSize initialGCThreshold).numObjects = 0 ∧ s.numObjects = 1 ∧
      Registry s [0]) ∧
    (∃ s, pushInt 5 (newVM 0 initialGCThreshold) = .panic .stackOverflow s ∧
      (newVM 0 initialGCThreshold).numObjects = 0 ∧ s.numObjects = 1 ∧ Registry s [0]) ∧
    (∃ s1 s2, pushInt 5 (newVM maxStackSize initialGCThreshold) = .ok () s1 ∧
      popPair s1 = .panic .typeMismatch s2 ∧ s1.stackSize = 1 ∧ s2.stackSize = 0 ∧
      s1.stack[0]? = some (some 0) ∧ s2.stack[0]? = some none) ∧
    (∃ s, popInt pairVM = .panic .typeMismatch s ∧ pairVM.stackSize = 1 ∧ s.stackSize = 0) ∧
    (∃ s1 s2, pushInt 5 (newVM maxStackSize initialGCThreshold) = .ok () s1 ∧
      add s1 = .panic .stackUnderflow s2 ∧ s1.stackSize = 1 ∧ s2.stackSize = 0) :=
  ⟨⟨_, rfl, rfl, rfl, by decide⟩, ⟨_, rfl, rfl, rfl, by decide⟩,
    ⟨_, _, rfl, rfl, rfl, rfl, rfl, rfl⟩, ⟨_, rfl, rfl, rfl⟩, ⟨_, _, rfl, rfl, rfl, rfl⟩⟩

theorem popInt_panic_inv (v s : vm) (e : Panic) (h : popInt v = .panic e s) :
    pop v = .panic e s ∨
    ∃ p, pop v = .ok p s ∧ (e = .typeMismatch ∨ e = .nilDeref) := by
  unfold popInt at h
  cases hp : pop v with
  | ok p v1 =>
    rw [hp] at h
    cases p with
    | none =>
      simp only [] at h
      injection h with he hs
      subst hs
      exact Or.inr ⟨none, rfl, Or.inr he.symm⟩
    | some a =>
      simp only [] at h
      split at h
      · simp at h
      · injection h with he hs
        subst hs
        exact Or.inr ⟨some a, rfl, Or.inl he.symm⟩
  | panic e1 s1 =>
    rw [hp] at h
    simp only [] at h
    injection h with he hs
    subst he
    subst hs
    exact Or.inl rfl
  | diverge => rw [hp] at h; simp at h

theorem popPair_panic_inv (v s : vm) (e : Panic) (h : popPair v = .panic e s) :
    pop v = .panic e s ∨
    ∃ p, pop v = .ok p s ∧ (e = .typeMismatch ∨ e = .nilDeref) := by
  unfold popPair at h
  cases hp : pop v with
  | ok p v1 =>
    rw [hp] at h
    cases p with
    | none =>
      simp only [] at h
      injection h with he hs
      subst hs
      exact Or.inr ⟨none, rfl, Or.inr he.symm⟩
    | some a =>
      simp only [] at h
      split at h
      · simp at h
      · injection h with he hs
        subst hs
        exact Or.inr ⟨some a, rfl, Or.inl he.symm⟩
  | panic e1 s1 =>
    rw [hp] at h
    simp only [] at h
    injection h with he hs
    subst he
    subst hs
    exact Or.inl rfl
  | diverge => rw [hp] at h; simp at h

theorem push_panic_state (p : Ptr) (v s : vm) (e : Panic) (h : push p v = .panic e s) :
    s = v := by
  rcases push_cases p v with ⟨h1, _⟩ | ⟨h1, _⟩ | ⟨h1, _⟩ <;> rw [h1] at h
  · injection h with _ hs; exact hs.symm
  · injection h with _ hs; exact hs.symm
  · simp at h

theorem pop_panic_state (v s : vm) (e : Panic) (h : pop v = .panic e s) :
    s = v ∧ e ≠ .typeMismatch ∧ e ≠ .nilDeref := by
  rcases pop_cases v with ⟨h1, _⟩ | ⟨h1, _⟩ | ⟨h1, _⟩ <;> rw [h1] at h
  · injection h with he hs; subst he; exact ⟨hs.symm, by decide, by decide⟩
  · injection h with he hs; subst he; exact ⟨hs.symm, by decide, by decide⟩
  · simp at h

theorem pop_ok_state (v s : vm) (p : Ptr) (h : pop v = .ok p s) :
    s = { v with stack := v.stack.set (v.stackSize - 1).toNat none,
                 stackSize := v.stackSize - 1 } := by
  rcases pop_cases v with ⟨h1, _⟩ | ⟨h1, _⟩ | ⟨h1, _⟩ <;> rw [h1] at h
  · simp at h
  · simp at h
  · injection h with _ hs; exact hs.symm

/-- C10, amended. A failing `push` or `pop` leaves the state as it was before the call, and so
do `popInt` and `popPair` when they fail with `StackUnderflow`. When `popInt` or `popPair`
fails with `TypeMismatch` the top reference has already been popped (its slot cleared,
`stackSize` decremented); memory, registry, `numObjects` and `maxObjects` are as before the
call. -/
theorem primitive_failure_atomic (v s : vm) (e : Panic) :
    (∀ p, push p v = .panic e s → s = v) ∧
    (pop v = .panic e s → s = v) ∧
    (popInt v = .panic .stackUnderflow s → s = v) ∧
    (popPair v = .panic .stackUnderflow s → s = v) ∧
    (popInt v = .panic .typeMismatch s ∨ popPair v = .panic .typeMismatch s →
      s = { v with stack := v.stack.set (v.stackSize - 1).toNat none,
                   stackSize := v.stackSize - 1 }) := by
  refine ⟨fun p h => push_panic_state p v s e h, fun h => (pop_panic_state v s e h).1,
    fun h => ?_, fun h => ?_, fun h => ?_⟩
  · rcases popInt_panic_inv v s _ h with h1 | ⟨p, _, h2 | h2⟩
    · exact (pop_panic_state v s _ h1).1
    · exact absurd h2 (by decide)
    · exact absurd h2 (by decide)
  · rcases popPair_panic_inv v s _ h with h1 | ⟨p, _, h2 | h2⟩
    · exact (pop_panic_state v s _ h1).1
    · exact absurd h2 (by decide)
    · exact absurd h2 (by decide)
  · rcases h with h | h
    · rcases popInt_panic_inv v s _ h with h1 | ⟨p, h1, _⟩
      · exact absurd rfl (pop_panic_state v s _ h1).2.1
      · exact pop_ok_state v s p h1
    · rcases popPair_panic_inv v s _ h with h1 | ⟨p, h1, _⟩
      · exact absurd rfl (pop_panic_state v s _ h1).2.1
      · exact pop_ok_state v s p h1

theorem primitive_failure_atomic_witness :
    pop (newVM 4 10) = .panic .stackUnderflow (newVM 4 10) ∧
    popInt (newVM 4 10) = .panic .stackUnderflow (newVM 4 10) ∧
    popInt pairVM = .panic .typeMismatch
      { pairVM with stack := [none, none, none, none], stackSize := 0 } ∧
    ({ pairVM with stack := [none, none, none, none], stackSize := 0 } : vm) =
      { pairVM with stack := pairVM.stack.set (pairVM.stackSize - 1).toNat none,
                    stackSize := pairVM.stackSize - 1 } :=
  ⟨rfl, rfl, rfl,
    (primitive_failure_atomic pairVM
      { pairVM with stack := [none, none, none, none], stackSize := 0 } .typeMismatch).2.2.2.2
      (Or.inl rfl)⟩

/-! ### Frame properties that hold in every state -/

theorem allocate_eq (t : Int) (v : vm) : allocate t v = .ok v.mem.length (allocated t v) := rfl

/-- The sweep loop touches neither the root stack nor the threshold and keeps the size of
memory. -/
theorem sweepLoop_frame : ∀ (f : Nat) (v : vm) (o prev : Ptr) (u : Unit) (s : vm),
    sweepLoop f v o prev = .ok u s →
    s.stack = v.stack ∧ s.stackSize = v.stackSize ∧ s.maxObjects = v.maxObjects ∧
    s.mem.length = v.mem.length := by
  intro f
  induction f with
  | zero =>
    intro v o prev u s hr
    cases o with
    | none =>
      rw [sweepLoop_nil] at hr
      injection hr with _ hs
      subst hs
      exact ⟨rfl, rfl, rfl, rfl⟩
    | some a => simp [sweepLoop] at hr
  | succ f ih =>
    intro v o prev u s hr
    cases o with
    | none =>
      rw [sweepLoop_nil] at hr
      injection hr with _ hs
      subst hs
      exact ⟨rfl, rfl, rfl, rfl⟩
    | some a =>
      rw [sweepLoop_succ] at hr
      by_cases hm : (load v.mem a).marked = false
      · rw [if_pos hm] at hr
        obtain ⟨h1, h2, h3, h4⟩ := ih _ _ _ u s (printFreed_ok _ _ _ u s hr).2
        cases prev with
        | none => exact ⟨h1, h2, h3, h4⟩
        | some p => exact ⟨h1, h2, h3, by rw [h4]; simp⟩
      · rw [if_neg hm] at hr
        obtain ⟨h1, h2, h3, h4⟩ := ih _ _ _ u s hr
        exact ⟨h1, h2, h3, by rw [h4]; simp⟩

/-- A `gc` that returns leaves the root stack and the size of memory as they were and sets the
threshold to twice the count. -/
theorem gc_frame (v g : vm) (hg : gc v = .ok () g) :
    g.stack = v.stack ∧ g.stackSize = v.stackSize ∧ g.mem.length = v.mem.length ∧
    g.maxObjects = g.numObjects * 2 := by
  obtain ⟨v1, v3, hm, hs, hv⟩ := gc_ok_inv v g hg
  obtain ⟨hloop, hv1⟩ := markAll_ok_inv v v1 hm
  have step := (markAllLoop_step v.stack _ 0 v.mem).1 () v1.mem hloop
  obtain ⟨h1, h2, _, h4⟩ := sweepLoop_frame _ v1 _ _ () v3 hs
  have e1 : v1.stack = v.stack := by rw [hv1]
  have e2 : v1.stackSize = v.stackSize := by rw [hv1]
  subst hv
  exact ⟨h1.trans e1, h2.trans e2, h4.trans step.length_eq, rfl⟩

/-- A `gc` that panics has panicked in its mark phase: only mark bits have changed. -/
theorem gc_panic_inv (v s : vm) (e : Panic) (hg : gc v = .panic e s) :
    ∃ h, s = { v with mem := h } ∧ MarkStep v.mem h ∧ markAll v = .panic e s := by
  unfold gc at hg
  cases hm : markAll v with
  | diverge => rw [hm] at hg; simp at hg
  | ok u v1 =>
    rw [hm] at hg
    simp only [] at hg
    cases hs : sweep v1 with
    | ok u3 v3 => rw [hs] at hg; simp at hg
    | diverge => rw [hs] at hg; simp at hg
    | panic e3 v3 => exact absurd hs (sweepLoop_ne_panic _ _ _ _ e3 v3)
  | panic e1 s1 =>
    rw [hm] at hg
    simp only [] at hg
    injection hg with he hs
    subst he
    subst hs
    unfold markAll at hm
    cases hr : markAllLoop v.stack v.stackSize.toNat 0 v.mem with
    | ok u h => rw [hr] at hm; simp at hm
    | diverge => rw [hr] at hm; simp at hm
    | panic e2 h =>
      rw [hr] at hm
      simp only [] at hm
      injection hm with he hs
      refine ⟨h, hs.symm, (markAllLoop_step v.stack _ 0 v.mem).2 e2 h hr, ?_⟩
      rw [← he, ← hs]

/-- How a returning `newObject` proceeds: `g` is the state after the collection, if the count
had reached the threshold, and the state it started from otherwise. -/
theorem newObject_ok_inv (t : Int) (v : vm) (a : Nat) (s2 : vm)
    (h : newObject t v = .ok a s2) :
    ∃ g, ((v.numObjects ≠ v.maxObjects ∧ g = v) ∨
        (v.numObjects = v.maxObjects ∧ gc v = .ok () g)) ∧
      a = g.mem.length ∧ s2 = allocated t g := by
  unfold newObject at h
  by_cases hc : v.numObjects = v.maxObjects
  · rw [if_pos hc] at h
    cases hg : gc v with
    | ok u g =>
      rw [hg] at h
      simp only [] at h
      rw [allocate_eq] at h
      injection h with h1 h2
      exact ⟨g, Or.inr ⟨hc, rfl⟩, h1.symm, h2.symm⟩
    | panic e s => rw [hg] at h; simp at h
    | diverge => rw [hg] at h; simp at h
  · rw [if_neg hc] at h
    rw [allocate_eq] at h
    injection h with h1 h2
    exact ⟨v, Or.inl ⟨hc, rfl⟩, h1.symm, h2.symm⟩

theorem newObject_frame (t : Int) (v : vm) (a : Nat) (s2 : vm)
    (h : newObject t v = .ok a s2) :
    a = v.mem.length ∧ s2.mem.length = v.mem.length + 1 ∧
    load s2.mem a = ⟨false, t, 0, none, none, (load s2.mem a).next⟩ ∧
    s2.stack = v.stack ∧ s2.stackSize = v.stackSize ∧ s2.firstObject = some a := by
  obtain ⟨g, hg, ha, hs⟩ := newObject_ok_inv t v a s2 h
  have hfr : g.stack = v.stack ∧ g.stackSize = v.stackSize ∧ g.mem.length = v.mem.length := by
    rcases hg with ⟨_, rfl⟩ | ⟨_, hgc⟩
    · exact ⟨rfl, rfl, rfl⟩
    · obtain ⟨h1, h2, h3, _⟩ := gc_frame v g hgc
      exact ⟨h1, h2, h3⟩
  subst hs
  subst ha
  have hl : load (allocated t g).mem g.mem.length = ⟨false, t, 0, none, none, g.firstObject⟩ :=
    load_append_length _ _
  refine ⟨hfr.2.2, ?_, ?_, hfr.1, hfr.2.1, rfl⟩
  · show (g.mem ++ [_]).length = _
    rw [List.length_append, hfr.2.2]
    rfl
  · rw [hl]

theorem push_ok_of (p : Ptr) (v : vm) (h0 : 0 ≤ v.stackSize)
    (h1 : v.stackSize < v.stack.length) :
    push p v = .ok () { v with stack := v.stack.set v.stackSize.toNat p,
                               stackSize := v.stackSize + 1 } := by
  rcases push_cases p v with ⟨_, h2⟩ | ⟨_, h2⟩ | ⟨h2, _⟩
  · omega
  · omega
  · exact h2

theorem pop_ok_of (v : vm) (h0 : 0 < v.stackSize) (h1 : v.stackSize ≤ v.stack.length) :
    pop v = .ok (v.stack.getD (v.stackSize - 1).toNat none)
      { v with stack := v.stack.set (v.stackSize - 1).toNat none,
               stackSize := v.stackSize - 1 } := by
  rcases pop_cases v with ⟨_, h3⟩ | ⟨_, h3⟩ | ⟨h3, _⟩
  · omega
  · omega
  · exact h3

theorem newObjects_append : ∀ (ts us : List Int) (v s : vm),
    newObjects ts v = .ok () s → newObjects (ts ++ us) v = newObjects us s := by
  intro ts
  induction ts with
  | nil =>
    intro us v s h
    simp only [newObjects] at h
    injection h with _ h
    subst h
    rfl
  | cons t ts ih =>
    intro us v s h
    simp only [newObjects, List.cons_append] at h ⊢
    cases hn : newObject t v with
    | ok a v1 =>
      rw [hn] at h
      exact ih us v1 s h
    | panic e s1 =>
      rw [hn] at h
      simp at h
    | diverge =>
      rw [hn] at h
      simp at h

theorem steps_of_newObjects {s0 : vm} : ∀ (ts : List Int) (v s : vm),
    Steps AnyOp s0 v → newObjects ts v = .ok () s → Steps AnyOp s0 s := by
  intro ts
  induction ts with
  | nil =>
    intro v s hv h
    simp only [newObjects] at h
    injection h with _ h
    subst h
    exact hv
  | cons t ts ih =>
    intro v s hv h
    simp only [newObjects] at h
    cases hn : newObject t v with
    | ok a v1 =>
      rw [hn] at h
      refine ih v1 s (Steps.step v v1 (.newObject t) hv trivial ?_) h
      show (discard (newObject t v)).state? = some v1
      rw [hn]
      rfl
    | panic e s1 =>
      rw [hn] at h
      simp at h
    | diverge =>
      rw [hn] at h
      simp at h

theorem prims_single {v s : vm} {W : List Nat} (h : Prim v W s) : Prims v W s := by
  have h2 := Prims.tail v v s [] W (Prims.refl v) h
  simpa using h2

theorem prims_append {v s s2 : vm} {U W : List Nat} (h1 : Prims v U s) (h2 : Prims s W s2) :
    Prims v (U ++ W) s2 := by
  induction h2 with
  | refl => simpa using h1
  | tail s3 s4 U2 W2 _ hp ih =>
    rw [← List.append_assoc]
    exact Prims.tail _ _ _ _ _ ih hp

theorem gcFreed_of_panic (v s : vm) (e : Panic) (hg : gc v = .panic e s) : gcFreed v = [] := by
  obtain ⟨_, _, _, hm⟩ := gc_panic_inv v s e hg
  unfold gcFreed
  rw [hm]

theorem prims_gc (v s : vm) (h : (gc v).state? = some s) : Prims v (gcFreed v) s := by
  cases hg : gc v with
  | ok u g =>
    rw [hg] at h
    injection h with h
    subst h
    exact prims_single (Prim.collect v g hg)
  | panic e s1 =>
    rw [hg] at h
    injection h with h
    subst h
    rw [gcFreed_of_panic v s1 e hg]
    obtain ⟨hp, hs, hstep, _⟩ := gc_panic_inv v s1 e hg
    rw [hs]
    exact prims_single (Prim.markPanic v hp hstep)
  | diverge =>
    rw [hg] at h
    simp [Outcome.state?] at h

theorem prims_newObject (t : Int) (v s : vm) (h : (newObject t v).state? = some s) :
    Prims v (newObjectFreed v) s := by
  unfold newObject at h
  unfold newObjectFreed
  by_cases hc : v.numObjects = v.maxObjects
  · rw [if_pos hc] at h ⊢
    cases hg : gc v with
    | ok u g =>
      rw [hg] at h
      injection h with h
      subst h
      have h2 := Prims.tail v g _ _ [] (prims_single (Prim.collect v g hg)) (Prim.alloc t g)
      simpa using h2
    | panic e s1 =>
      rw [hg] at h
      refine prims_gc v s ?_
      rw [hg]
      exact h
    | diverge =>
      rw [hg] at h
      simp [Outcome.state?] at h
  · rw [if_neg hc] at h ⊢
    injection h with h
    subst h
    exact prims_single (Prim.alloc t v)

theorem prims_push (p : Ptr) (v s : vm) (hp : ValidPtr v.mem p)
    (h : (push p v).state? = some s) : Prims v [] s := by
  cases hr : push p v with
  | ok u s1 =>
    rw [hr] at h
    injection h with h
    subst h
    exact prims_single (Prim.pushed v s1 p hp hr)
  | panic e s1 =>
    rw [hr] at h
    injection h with h
    subst h
    rw [push_panic_state p v s1 e hr]
    exact Prims.refl v
  | diverge =>
    rw [hr] at h
    simp [Outcome.state?] at h

theorem prims_pop (v s : vm) (h : (pop v).state? = some s) : Prims v [] s := by
  cases hr : pop v with
  | ok p s1 =>
    rw [hr] at h
    injection h with h
    subst h
    exact prims_single (Prim.popped v s1 p hr)
  | panic e s1 =>
    rw [hr] at h
    injection h with h
    subst h
    rw [(pop_panic_state v s1 e hr).1]
    exact Prims.refl v
  | diverge =>
    rw [hr] at h
    simp [Outcome.state?] at h

theorem prims_pushInt (n : Int) (v s : vm) (h : (pushInt n v).state? = some s) :
    Prims v (newObjectFreed v) s := by
  unfold pushInt at h
  cases hn : newObject intType v with
  | ok a v1 =>
    rw [hn] at h
    simp only [] at h
    obtain ⟨ha, hl, _⟩ := newObject_frame intType v a v1 hn
    have hlt : a < v1.mem.length := by omega
    have p1 : Prims v (newObjectFreed v) v1 := prims_newObject intType v v1 (by rw [hn]; rfl)
    have p2 := Prims.tail v v1 _ _ [] p1 (Prim.setValue v1 a n hlt)
    have p3 := prims_append p2 (prims_push (some a) _ s (by
      show a < (v1.mem.set a _).length
      rw [List.length_set]
      exact hlt) h)
    simpa using p3
  | panic e s1 =>
    rw [hn] at h
    exact prims_newObject intType v s (by rw [hn]; exact h)
  | diverge =>
    rw [hn] at h
    simp [Outcome.state?] at h

theorem prims_pushPair (v s : vm) (h : (pushPair v).state? = some s) :
    Prims v (newObjectFreed v) s := by
  unfold pushPair at h
  cases hn : newObject pairType v with
  | ok a v1 =>
    rw [hn] at h
    simp only [] at h
    obtain ⟨ha, hl, _⟩ := newObject_frame pairType v a v1 hn
    have hlt : a < v1.mem.length := by omega
    have p1 : Prims v (newObjectFreed v) v1 := prims_newObject pairType v v1 (by rw [hn]; rfl)
    cases hp1 : pop v1 with
    | ok t v2 =>
      rw [hp1] at h
      simp only [] at h
      have hm2 : v2.mem = v1.mem := by rw [pop_ok_state v1 v2 t hp1]
      have p2 := Prims.tail v v1 _ _ [] p1 (Prim.popTail v1 v2 a t hlt hp1)
      have hlt2 : a < ({ v2 with mem := v2.mem.set a { load v2.mem a with tail := t } } : vm).mem.length := by
        show a < (v2.mem.set a _).length
        rw [List.length_set, hm2]
        exact hlt
      cases hp2 : pop { v2 with mem := v2.mem.set a { load v2.mem a with tail := t } } with
      | ok hd v3 =>
        rw [hp2] at h
        simp only [] at h
        have hm3 : v3.mem = v2.mem.set a { load v2.mem a with tail := t } := by
          rw [pop_ok_state _ v3 hd hp2]
        have p3 := Prims.tail v _ _ _ [] p2 (Prim.popHead _ v3 a hd hlt2 hp2)
        have p4 := prims_append p3 (prims_push (some a) _ s (by
          show a < (v3.mem.set a _).length
          rw [List.length_set, hm3]
          exact hlt2) h)
        simpa using p4
      | panic e s1 =>
        rw [hp2] at h
        injection h with h
        subst h
        rw [(pop_panic_state _ s1 e hp2).1]
        simpa using p2
      | diverge =>
        rw [hp2] at h
        simp [Outcome.state?] at h
    | panic e s1 =>
      rw [hp1] at h
      injection h with h
      subst h
      rw [(pop_panic_state _ s1 e hp1).1]
      exact p1
    | diverge =>
      rw [hp1] at h
      simp [Outcome.state?] at h
  | panic e s1 =>
    rw [hn] at h
    exact prims_newObject pairType v s (by rw [hn]; exact h)
  | diverge =>
    rw [hn] at h
    simp [Outcome.state?] at h

theorem prims_popInt (v s : vm) (h : (popInt v).state? = some s) : Prims v [] s :=
  prims_pop v s (by rw [← popInt_state]; exact h)

theorem prims_popPair (v s : vm) (h : (popPair v).state? = some s) : Prims v [] s :=
  prims_pop v s (by rw [← popPair_state]; exact h)

theorem prims_add (v s : vm) (h : (add v).state? = some s) : Prims v (Op.freed .add v) s := by
  unfold add at h
  cases h1 : popInt v with
  | ok r v1 =>
    rw [h1] at h
    simp only [] at h
    have p1 : Prims v [] v1 := prims_popInt v v1 (by rw [h1]; rfl)
    cases h2 : popInt v1 with
    | ok l v2 =>
      rw [h2] at h
      simp only [] at h
      have hf : Op.freed .add v = newObjectFreed v2 := by simp only [Op.freed, h1, h2]
      have p2 : Prims v1 [] v2 := prims_popInt v1 v2 (by rw [h2]; rfl)
      have p3 := prims_append (prims_append p1 p2) (prims_pushInt _ v2 s h)
      rw [hf]
      simpa using p3
    | panic e s1 =>
      rw [h2] at h
      simp only [] at h
      have hf : Op.freed .add v = [] := by simp only [Op.freed, h1, h2]
      have p2 : Prims v1 [] s := prims_popInt v1 s (by rw [h2]; exact h)
      rw [hf]
      simpa using prims_append p1 p2
    | diverge =>
      rw [h2] at h
      simp [Outcome.state?] at h
  | panic e s1 =>
    rw [h1] at h
    simp only [] at h
    have hf : Op.freed .add v = [] := by simp only [Op.freed, h1]
    rw [hf]
    exact prims_popInt v s (by rw [h1]; exact h)
  | diverge =>
    rw [h1] at h
    simp [Outcome.state?] at h

theorem state_discard {α : Type} (r : Outcome vm α) : (discard r).state? = r.state? := by
  cases r <;> rfl

theorem prims_of_op (op : Op) (v s : vm) (hal : AnyOp op v) (h : (op.run v).state? = some s) :
    Prims v (op.freed v) s := by
  cases op with
  | newObject t => exact prims_newObject t v s (by rw [← state_discard]; exact h)
  | push p => exact prims_push p v s hal h
  | pop => exact prims_pop v s (by rw [← state_discard]; exact h)
  | pushInt n => exact prims_pushInt n v s h
  | popInt => exact prims_popInt v s (by rw [← state_discard]; exact h)
  | pushPair => exact prims_pushPair v s h
  | popPair => exact prims_popPair v s (by rw [← state_discard]; exact h)
  | add => exact prims_add v s h
  | gc => exact prims_gc v s h

theorem prims_of_trace {s0 s : vm} {U : List Nat} (h : Trace s0 s U) : Prims s0 U s := by
  induction h with
  | init => exact Prims.refl s0
  | step s1 s2 U1 op _ hal hr ih => exact prims_append ih (prims_of_op op s1 s2 hal hr)

theorem trace_of_steps {s0 s : vm} (h : Steps AnyOp s0 s) : ∃ U, Trace s0 s U := by
  induction h with
  | init => exact ⟨[], Trace.init⟩
  | step s1 s2 op _ hal hr ih =>
    obtain ⟨U, hU⟩ := ih
    exact ⟨_, Trace.step s1 s2 U op hU hal hr⟩

theorem sweepFreed_nil (f : Nat) (v : vm) (prev : Ptr) : sweepFreed f v none prev = [] := by
  cases f <;> rfl

theorem sweepFreed_succ (f : Nat) (v : vm) (a : Nat) (prev : Ptr) :
    sweepFreed (f + 1) v (some a) prev =
      if (load v.mem a).marked = false then
        a :: sweepFreed f
          { (match prev with
              | none => { v with firstObject := (load v.mem a).next }
              | some p =>
                { v with mem := v.mem.set p { load v.mem p with next := (load v.mem a).next } }
              : vm) with
            numObjects := (match prev with
              | none => { v with firstObject := (load v.mem a).next }
              | some p =>
                { v with mem := v.mem.set p { load v.mem p with next := (load v.mem a).next } }
              : vm).numObjects - 1 }
          (load (match prev with
              | none => { v with firstObject := (load v.mem a).next }
              | some p =>
                { v with mem := v.mem.set p { load v.mem p with next := (load v.mem a).next } }
              : vm).mem a).next prev
      else
        sweepFreed f { v with mem := v.mem.set a { load v.mem a with marked := false } }
          (load (v.mem.set a { load v.mem a with marked := false }) a).next (some a) := rfl

theorem sweepFreed_eq : ∀ (l : List Nat) (f : Nat) (v : vm) (o prev : Ptr),
    IsChain v.mem o l → l.Nodup → (∀ p, prev = some p → p ∉ l ∧ p < v.mem.length) →
    l.length < f →
    sweepFreed f v o prev = l.filter fun x => !(load v.mem x).marked := by
  intro l
  induction l with
  | nil =>
    intro f v o prev hc _ _ _
    have ho : o = none := hc
    subst ho
    rw [sweepFreed_nil]
    rfl
  | cons a t ih =>
    intro f v o prev hc hnd hprev hf
    obtain ⟨ho, hct⟩ := hc
    subst ho
    obtain ⟨hat, hndt⟩ := List.nodup_cons.mp hnd
    cases f with
    | zero => simp at hf
    | succ f =>
      have hf2 : t.length < f := by simpa using hf
      rw [sweepFreed_succ]
      by_cases hm : (load v.mem a).marked = false
      · rw [if_pos hm]
        cases prev with
        | none =>
          have h1 := ih f
            { v with firstObject := (load v.mem a).next, numObjects := v.numObjects - 1 }
            (load v.mem a).next none hct hndt (by simp) hf2
          simp only [List.filter_cons, hm, Bool.not_false, if_true]
          exact congrArg (List.cons a) h1
        | some p =>
          obtain ⟨hpl, hplt⟩ := hprev p rfl
          have hpa : p ≠ a := fun e => hpl (e ▸ List.mem_cons_self a t)
          have hpt : p ∉ t := fun e => hpl (List.mem_cons_of_mem a e)
          have other : ∀ x, x ≠ p →
              load (v.mem.set p { load v.mem p with next := (load v.mem a).next }) x
                = load v.mem x := fun x hx => load_set_ne v.mem p x _ (Ne.symm hx)
          have self := load_set_eq v.mem p { load v.mem p with next := (load v.mem a).next } hplt
          have hmk : ∀ x,
              (load (v.mem.set p { load v.mem p with next := (load v.mem a).next }) x).marked
                = (load v.mem x).marked := by
            intro x
            by_cases hx : x = p
            · subst hx; rw [self]
            · rw [other x hx]
          have ea := other a (Ne.symm hpa)
          have h1 := ih f
            { v with mem := v.mem.set p { load v.mem p with next := (load v.mem a).next },
                     numObjects := v.numObjects - 1 }
            (load (v.mem.set p { load v.mem p with next := (load v.mem a).next }) a).next (some p)
            (by
              rw [ea]
              exact IsChain.congr t _
                (fun x hx => by rw [other x (fun e => hpt (e ▸ hx))]) hct)
            hndt
            (fun q hq => by
              have : q = p := (Option.some.inj hq).symm
              subst this
              exact ⟨hpt, by simpa using hplt⟩)
            hf2
          have hfilt1 : (t.filter fun x => !(load (v.mem.set p
              { load v.mem p with next := (load v.mem a).next }) x).marked)
              = t.filter fun x => !(load v.mem x).marked :=
            List.filter_congr (fun x _ => by rw [hmk x])
          simp only [List.filter_cons, hm, Bool.not_false, if_true]
          rw [← hfilt1]
          exact congrArg (List.cons a) h1
      · rw [if_neg hm]
        have hm1 : (load v.mem a).marked = true := by simpa using hm
        have halt : a < v.mem.length := lt_of_marked _ _ hm1
        have other : ∀ x, x ≠ a →
            load (v.mem.set a { load v.mem a with marked := false }) x = load v.mem x :=
          fun x hx => load_set_ne v.mem a x _ (Ne.symm hx)
        have self := load_set_eq v.mem a { load v.mem a with marked := false } halt
        have h1 := ih f
          { v with mem := v.mem.set a { load v.mem a with marked := false } }
          (load (v.mem.set a { load v.mem a with marked := false }) a).next (some a)
          (by
            rw [self]
            exact IsChain.congr t _
              (fun x hx => by rw [other x (fun e => hat (e ▸ hx))]) hct)
          hndt
          (fun q hq => by
            have : q = a := (Option.some.inj hq).symm
            subst this
            exact ⟨hat, by simpa using halt⟩)
          hf2
        have hfilt1 : (t.filter fun x => !(load (v.mem.set a
            { load v.mem a with marked := false }) x).marked)
            = t.filter fun x => !(load v.mem x).marked :=
          List.filter_congr (fun x hx => by rw [other x (fun e => hat (e ▸ hx))])
        simp only [List.filter_cons, hm1, Bool.not_true]
        rw [← hfilt1]
        simpa using h1

theorem gcFreed_eq (v v1 : vm) (l : List Nat) (wf : WF v) (hreg : Registry v l)
    (hm : markAll v = .ok () v1) :
    gcFreed v = l.filter fun x => !(load v1.mem x).marked := by
  have wf1 := wf.of_markAll hm
  obtain ⟨hl, hv1⟩ := markAll_ok_inv v v1 hm
  have hstep := (markAll_post v v1 wf hm).step
  have hreg1 : IsChain v1.mem v1.firstObject l := by
    have h1 : v1.firstObject = v.firstObject := by rw [hv1]
    rw [h1]
    exact hstep.isChain _ _ hreg
  have hlen : l.length ≤ v1.mem.length :=
    length_le_of_nodup_lt l _ (IsChain.nodup l _ hreg1)
      (IsChain.lt_length wf1.1 l _ wf1.2.2 hreg1)
  unfold gcFreed
  rw [hm]
  exact sweepFreed_eq l _ v1 _ none hreg1 (IsChain.nodup l _ hreg1) (by simp) (by omega)

theorem pop_ok_inv (v s : vm) (p : Ptr) (h : pop v = .ok p s) :
    p = v.stack.getD (v.stackSize - 1).toNat none ∧
    s = { v with stack := v.stack.set (v.stackSize - 1).toNat none,
                 stackSize := v.stackSize - 1 } ∧
    0 < v.stackSize ∧ v.stackSize ≤ v.stack.length := by
  rcases pop_cases v with ⟨h1, _⟩ | ⟨h1, _⟩ | ⟨h1, hpos, hle⟩
  · rw [h1] at h; simp at h
  · rw [h1] at h; simp at h
  · rw [h1] at h
    injection h with hp hs
    exact ⟨hp.symm, hs.symm, hpos, hle⟩

theorem push_ok_inv (p : Ptr) (v s : vm) (h : push p v = .ok () s) :
    s = { v with stack := v.stack.set v.stackSize.toNat p, stackSize := v.stackSize + 1 } ∧
    0 ≤ v.stackSize ∧ v.stackSize < v.stack.length := by
  rcases push_cases p v with ⟨h1, _⟩ | ⟨h1, _⟩ | ⟨h1, hpos, hle⟩
  · rw [h1] at h; simp at h
  · rw [h1] at h; simp at h
  · rw [h1] at h
    injection h with _ hs
    exact ⟨hs.symm, hpos, hle⟩

theorem StackOK.of_eq {cap : Nat} {v s : vm} (ok : StackOK cap v) (h1 : s.stack = v.stack)
    (h2 : s.stackSize = v.stackSize) : StackOK cap s :=
  { size_nonneg := by rw [h2]; exact ok.size_nonneg
    size_le := by rw [h2]; exact ok.size_le
    length_eq := by rw [h1]; exact ok.length_eq
    above_nil := by rw [h1, h2]; exact ok.above_nil }

theorem StackOK.of_pop {cap : Nat} {v s : vm} {p : Ptr} (ok : StackOK cap v)
    (h : pop v = .ok p s) : StackOK cap s := by
  obtain ⟨_, hs, hpos, hle⟩ := pop_ok_inv v s p h
  subst hs
  have hlen := ok.length_eq
  exact
    { size_nonneg := by show 0 ≤ v.stackSize - 1; omega
      size_le := by
        have := ok.size_le
        show v.stackSize - 1 ≤ cap
        omega
      length_eq := by
        show (v.stack.set _ none).length = cap
        rw [List.length_set]
        exact hlen
      above_nil := by
        intro i hi hc
        have hi2 : v.stackSize - 1 ≤ i := hi
        show (v.stack.set (v.stackSize - 1).toNat none)[i]? = some none
        by_cases hx : (v.stackSize - 1).toNat = i
        · rw [hx]
          exact List.getElem?_set_self (by omega)
        · rw [List.getElem?_set_ne hx]
          exact ok.above_nil i (by omega) hc }

theorem StackOK.of_push {cap : Nat} {v s : vm} {p : Ptr} (ok : StackOK cap v)
    (h : push p v = .ok () s) : StackOK cap s := by
  obtain ⟨hs, hpos, hle⟩ := push_ok_inv p v s h
  subst hs
  have hlen := ok.length_eq
  exact
    { size_nonneg := by show 0 ≤ v.stackSize + 1; omega
      size_le := by
        show v.stackSize + 1 ≤ cap
        omega
      length_eq := by
        show (v.stack.set _ p).length = cap
        rw [List.length_set]
        exact hlen
      above_nil := by
        intro i hi hc
        have hi2 : v.stackSize + 1 ≤ i := hi
        show (v.stack.set v.stackSize.toNat p)[i]? = some none
        rw [List.getElem?_set_ne (by omega)]
        exact ok.above_nil i (by omega) hc }

theorem StackOK.of_prim {cap : Nat} {v s : vm} {W : List Nat} (ok : StackOK cap v)
    (h : Prim v W s) : StackOK cap s := by
  cases h with
  | collect _ g hg =>
    obtain ⟨h1, h2, _, _⟩ := gc_frame v s hg
    exact ok.of_eq h1 h2
  | markPanic _ h hstep => exact ok.of_eq rfl rfl
  | alloc t _ => exact ok.of_eq rfl rfl
  | setValue _ a n ha => exact ok.of_eq rfl rfl
  | popTail _ s1 a p ha hp => exact (ok.of_pop hp).of_eq rfl rfl
  | popHead _ s1 a p ha hp => exact (ok.of_pop hp).of_eq rfl rfl
  | pushed _ _ p hv hp => exact ok.of_push hp
  | popped _ _ p hp => exact ok.of_pop hp

theorem StackOK.of_prims {cap : Nat} {v s : vm} {U : List Nat} (ok : StackOK cap v)
    (h : Prims v U s) : StackOK cap s := by
  induction h with
  | refl => exact ok
  | tail s1 s2 U1 W1 _ hp ih => exact ih.of_prim hp

theorem StackOK.of_newVM (cap : Nat) (t : Int) : StackOK cap (newVM cap t) :=
  { size_nonneg := le_refl _
    size_le := by show (0 : Int) ≤ cap; omega
    length_eq := by simp [newVM]
    above_nil := by
      intro i _ hc
      simp [newVM, hc] }

theorem Book.of_stack {v s : vm} {U : List Nat} (b : Book v U) (hmem : s.mem = v.mem)
    (hfirst : s.firstObject = v.firstObject) (hnum : s.numObjects = v.numObjects)
    (hst : ∀ p ∈ s.stack, ValidPtr v.mem p) : Book s U := by
  obtain ⟨l, hreg, hiff, hn⟩ := b.registry
  exact
    { wf := ⟨by rw [hmem]; exact b.wf.1, by rw [hmem]; exact hst,
        by rw [hmem, hfirst]; exact b.wf.2.2⟩
      freed_lt := by rw [hmem]; exact b.freed_lt
      registry := ⟨l, by unfold Registry; rw [hmem, hfirst]; exact hreg,
        by rw [hmem]; exact hiff, by rw [hnum]; exact hn⟩ }

theorem Book.after_pop {v s : vm} {U : List Nat} {p : Ptr} (b : Book v U)
    (h : pop v = .ok p s) : Book s U ∧ ValidPtr v.mem p ∧ s.mem = v.mem := by
  obtain ⟨hp, hs, hpos, hle⟩ := pop_ok_inv v s p h
  subst hs
  refine ⟨b.of_stack rfl rfl rfl ?_, ?_, rfl⟩
  · intro q hq
    rcases List.mem_or_eq_of_mem_set hq with hq1 | hq1
    · exact b.wf.2.1 q hq1
    · rw [hq1]
      trivial
  · rw [hp]
    have hlt : (v.stackSize - 1).toNat < v.stack.length := by omega
    rw [List.getD_eq_getElem?_getD, List.getElem?_eq_getElem hlt]
    exact b.wf.2.1 _ (List.getElem_mem hlt)

theorem Book.after_push {v s : vm} {U : List Nat} {p : Ptr} (b : Book v U)
    (hv : ValidPtr v.mem p) (h : push p v = .ok () s) : Book s U := by
  obtain ⟨hs, _, _⟩ := push_ok_inv p v s h
  subst hs
  refine b.of_stack rfl rfl rfl ?_
  intro q hq
  rcases List.mem_or_eq_of_mem_set hq with hq1 | hq1
  · exact b.wf.2.1 q hq1
  · rw [hq1]
    exact hv

theorem Book.set_obj {v : vm} {U : List Nat} (b : Book v U) (a : Nat) (o : object)
    (ha : a < v.mem.length) (hh : ValidPtr v.mem o.head) (ht : ValidPtr v.mem o.tail)
    (hn : o.next = (load v.mem a).next) : Book { v with mem := v.mem.set a o } U := by
  obtain ⟨l, hreg, hiff, hnum⟩ := b.registry
  have hl : (v.mem.set a o).length = v.mem.length := List.length_set _ _ _
  have hnext : ∀ x, (load (v.mem.set a o) x).next = (load v.mem x).next := by
    intro x
    by_cases hx : x = a
    · subst hx
      rw [load_set_eq v.mem x o ha, hn]
    · rw [load_set_ne v.mem a x o (Ne.symm hx)]
  exact
    { wf := ⟨heapValid_set b.wf.1 a o ⟨hh, ht, by rw [hn]; exact (b.wf.1.valid_at a).2.2⟩,
        fun p hp => validPtr_length_eq hl (b.wf.2.1 p hp),
        validPtr_length_eq hl b.wf.2.2⟩
      freed_lt := fun x hx => by
        show x < (v.mem.set a o).length
        rw [hl]
        exact b.freed_lt x hx
      registry := ⟨l, IsChain.congr l _ (fun x _ => hnext x) hreg,
        fun x => by
          show x ∈ l ↔ x < (v.mem.set a o).length ∧ x ∉ U
          rw [hl]
          exact hiff x,
        hnum⟩ }

theorem Book.of_markPanic {v : vm} {U : List Nat} (b : Book v U) (h : Heap)
    (hstep : MarkStep v.mem h) : Book { v with mem := h } U := by
  obtain ⟨l, hreg, hiff, hnum⟩ := b.registry
  exact
    { wf := ⟨hstep.heapValid b.wf.1, fun p hp => hstep.validPtr (b.wf.2.1 p hp),
        hstep.validPtr b.wf.2.2⟩
      freed_lt := fun x hx => by
        show x < h.length
        rw [hstep.length_eq]
        exact b.freed_lt x hx
      registry := ⟨l, hstep.isChain _ _ hreg,
        fun x => by
          show x ∈ l ↔ x < h.length ∧ x ∉ U
          rw [hstep.length_eq]
          exact hiff x,
        hnum⟩ }

theorem Book.of_alloc {v : vm} {U : List Nat} (b : Book v U) (t : Int) :
    Book (allocated t v) U := by
  obtain ⟨l, hreg, hiff, hnum⟩ := b.registry
  obtain ⟨s1, ha, wf1, hreg1, hmem1, hnum1, _⟩ := allocate_spec v t l b.wf hreg
  rw [allocate_eq] at ha
  injection ha with _ hs
  subst hs
  have hl : (allocated t v).mem.length = v.mem.length + 1 := by
    rw [hmem1]
    simp
  exact
    { wf := wf1
      freed_lt := fun x hx => by
        rw [hl]
        exact Nat.lt_succ_of_lt (b.freed_lt x hx)
      registry := ⟨v.mem.length :: l, hreg1,
        fun x => by
          rw [hl, List.mem_cons, hiff x]
          constructor
          · rintro (h | ⟨h1, h2⟩)
            · subst h
              exact ⟨Nat.lt_succ_self _, fun hx => absurd (b.freed_lt _ hx) (lt_irrefl _)⟩
            · exact ⟨Nat.lt_succ_of_lt h1, h2⟩
          · rintro ⟨h1, h2⟩
            by_cases hx : x = v.mem.length
            · exact Or.inl hx
            · exact Or.inr ⟨by omega, h2⟩,
        by
          rw [hnum1, hnum]
          simp⟩ }

theorem Book.of_collect {v g : vm} {U : List Nat} (b : Book v U) (hg : gc v = .ok () g) :
    Book g (U ++ gcFreed v) := by
  obtain ⟨l, hreg, hiff, hnum⟩ := b.registry
  obtain ⟨v1, hm, hregg, hnumg, _, _, _, hlen, _, _⟩ := gc_spec v g l b.wf hreg hg
  have hF := gcFreed_eq v v1 l b.wf hreg hm
  have hsplit := filter_length_split (fun x => (load v1.mem x).marked) l
  exact
    { wf := b.wf.after_gc hg
      freed_lt := fun x hx => by
        rw [hlen]
        rcases List.mem_append.mp hx with h | h
        · exact b.freed_lt x h
        · rw [hF] at h
          exact ((hiff x).mp (List.mem_filter.mp h).1).1
      registry := ⟨_, hregg,
        fun x => by
          rw [hlen, hF, List.mem_filter, List.mem_append, List.mem_filter, hiff x]
          constructor
          · rintro ⟨⟨h1, h2⟩, h3⟩
            refine ⟨h1, ?_⟩
            rintro (h | ⟨_, h⟩)
            · exact h2 h
            · simp [h3] at h
          · rintro ⟨h1, h2⟩
            refine ⟨⟨h1, fun h => h2 (Or.inl h)⟩, ?_⟩
            by_contra h3
            exact h2 (Or.inr ⟨⟨h1, fun h => h2 (Or.inl h)⟩, by simpa using h3⟩),
        by
          rw [hnumg, hnum]
          omega⟩ }

theorem Book.after_prim {v s : vm} {U W : List Nat} (b : Book v U) (h : Prim v W s) :
    Book s (U ++ W) := by
  cases h with
  | collect _ g hg => exact b.of_collect hg
  | markPanic _ h hstep =>
    rw [List.append_nil]
    exact b.of_markPanic h hstep
  | alloc t _ =>
    rw [List.append_nil]
    exact b.of_alloc t
  | setValue _ a n ha =>
    rw [List.append_nil]
    exact b.set_obj a _ ha (b.wf.1.valid_at a).1 (b.wf.1.valid_at a).2.1 rfl
  | popTail _ s1 a p ha hp =>
    rw [List.append_nil]
    obtain ⟨b1, hv, hm⟩ := b.after_pop hp
    exact b1.set_obj a _ (by rw [hm]; exact ha) (b1.wf.1.valid_at a).1 (by rw [hm]; exact hv) rfl
  | popHead _ s1 a p ha hp =>
    rw [List.append_nil]
    obtain ⟨b1, hv, hm⟩ := b.after_pop hp
    exact b1.set_obj a _ (by rw [hm]; exact ha) (by rw [hm]; exact hv) (b1.wf.1.valid_at a).2.1 rfl
  | pushed _ _ p hv hp =>
    rw [List.append_nil]
    exact b.after_push hv hp
  | popped _ _ p hp =>
    rw [List.append_nil]
    exact (b.after_pop hp).1

theorem Book.after_prims {v s : vm} {U W : List Nat} (b : Book v U) (h : Prims v W s) :
    Book s (U ++ W) := by
  induction h with
  | refl =>
    rw [List.append_nil]
    exact b
  | tail s1 s2 U1 W1 _ hp ih =>
    rw [← List.append_assoc]
    exact ih.after_prim hp

theorem Book.at_newVM (cap : Nat) (t : Int) : Book (newVM cap t) [] :=
  { wf := (Sound.newVM cap t).wf
    freed_lt := fun a ha => by simp at ha
    registry := ⟨[], rfl, fun a => by simp [newVM], rfl⟩ }

theorem registered_iff {v : vm} {l : List Nat} (hreg : Registry v l) (a : Nat) :
    Registered v a ↔ a ∈ l := by
  constructor
  · rintro ⟨l2, h2, ha⟩
    rw [IsChain.unique l l2 _ hreg h2]
    exact ha
  · intro ha
    exact ⟨l, hreg, ha⟩

theorem Tidy.reachable {s : vm} (td : Tidy s) (x : Nat) (hx : Reachable s x) :
    Registered s x := by
  obtain ⟨r, hr, hp⟩ := hx
  induction hp with
  | refl => exact td.roots r hr
  | @tail y z _ hedge ih => exact td.closed y z ih hedge

theorem Tidy.tidy_gc {s s2 : vm} (snd : Sound s) (td : Tidy s) (hg : gc s = .ok () s2) :
    Tidy s2 := by
  obtain ⟨l, hl⟩ := snd.registry
  obtain ⟨v1, hm, hreg2, _, _, hst, hsz, _, hfld, hmk⟩ := gc_spec s s2 l snd.wf hl hg
  have hroot : ∀ r, Root s2 r → Root s r := by
    intro r hr
    simpa only [Root, hst, hsz] using hr
  have hedge : ∀ a b, Edge s2.mem a b → Edge s.mem a b := by
    intro a b h
    simpa only [Edge, (hfld a).1, (hfld a).2.2.1, (hfld a).2.2.2] using h
  have hin : ∀ x, Reachable s x → x ∈ l.filter fun x => (load v1.mem x).marked := by
    intro x hx
    exact List.mem_filter.mpr ⟨(registered_iff hl x).1 (td.reachable x hx),
      markAll_marks_reachable s v1 snd.wf td.noMarks hm x hx⟩
  exact
    { noMarks := by
        apply noMarks_of_forall
        intro a
        rw [hmk a]
        by_cases hmv : (load v1.mem a).marked = true
        · have hr := markAll_marked_reachable s v1 snd.wf hm a hmv (td.noMarks.unmarked_at a)
          have hal : a ∈ l := (registered_iff hl a).1 (td.reachable a hr)
          simp [hal]
        · simp [hmv]
      roots := fun a ha => ⟨_, hreg2, hin a ⟨a, hroot a ha, Relation.ReflTransGen.refl⟩⟩
      closed := fun x y hx hxy => by
        have hxf := (registered_iff hreg2 x).1 hx
        obtain ⟨_, hxm⟩ := List.mem_filter.mp hxf
        obtain ⟨r, hr, hp⟩ :=
          markAll_marked_reachable s v1 snd.wf hm x hxm (td.noMarks.unmarked_at x)
        exact ⟨_, hreg2, hin y ⟨r, hr, Relation.ReflTransGen.tail hp (hedge x y hxy)⟩⟩ }

theorem Tidy.tidy_allocate {s : vm} (snd : Sound s) (td : Tidy s) (t : Int) :
    Tidy (allocated t s) := by
  obtain ⟨l, hl⟩ := snd.registry
  obtain ⟨s1, ha, wf1, hreg1, hmem1, _⟩ := allocate_spec s t l snd.wf hl
  rw [allocate_eq] at ha
  injection ha with _ hs
  subst hs
  have hlt := IsChain.lt_length snd.wf.1 l _ snd.wf.2.2 hl
  exact
    { noMarks := by
        intro o ho
        rw [hmem1] at ho
        rcases List.mem_append.mp ho with h | h
        · exact td.noMarks o h
        · rw [List.mem_singleton.mp h]
      roots := fun a ha => by
        have h1 : Root s a := ha
        exact ⟨_, hreg1, List.mem_cons_of_mem _ ((registered_iff hl a).1 (td.roots a h1))⟩
      closed := fun x y hx hxy => by
        have hx1 := (registered_iff hreg1 x).1 hx
        rcases List.mem_cons.mp hx1 with h | h
        · subst h
          have hnew : load (allocated t s).mem s.mem.length
              = ⟨false, t, 0, none, none, s.firstObject⟩ := by
            rw [hmem1]
            exact load_append_length _ _
          obtain ⟨_, h2⟩ := hxy
          rw [hnew] at h2
          simp at h2
        · have hsame : load (allocated t s).mem x = load s.mem x := by
            rw [hmem1]
            exact load_append_lt _ _ _ (hlt x h)
          have hxy2 : Edge s.mem x y := by
            unfold Edge at hxy ⊢
            rw [hsame] at hxy
            exact hxy
          exact ⟨_, hreg1, List.mem_cons_of_mem _
            ((registered_iff hl y).1 (td.closed x y ⟨l, hl, h⟩ hxy2))⟩ }

theorem Tidy.tidy_update {s : vm} (snd : Sound s) (td : Tidy s) (a : Nat) (o : object)
    (ha : a < s.mem.length) (hmk : o.marked = false)
    (htf : o.typeFlag = (load s.mem a).typeFlag) (hnx : o.next = (load s.mem a).next)
    (hhd : o.head = (load s.mem a).head ∨ ∃ b, o.head = some b ∧ Registered s b)
    (htl : o.tail = (load s.mem a).tail ∨ ∃ b, o.tail = some b ∧ Registered s b) :
    Tidy { s with mem := s.mem.set a o } := by
  obtain ⟨l, hl⟩ := snd.registry
  have self : load (s.mem.set a o) a = o := load_set_eq s.mem a o ha
  have other : ∀ x, x ≠ a → load (s.mem.set a o) x = load s.mem x :=
    fun x hx => load_set_ne s.mem a x o (Ne.symm hx)
  have hnext : ∀ x, (load (s.mem.set a o) x).next = (load s.mem x).next := by
    intro x
    by_cases hx : x = a
    · subst hx
      rw [self, hnx]
    · rw [other x hx]
  have hreg : Registry { s with mem := s.mem.set a o } l :=
    IsChain.congr l _ (fun x _ => hnext x) hl
  have hback : ∀ x, Registered s x → Registered { s with mem := s.mem.set a o } x :=
    fun x hx => ⟨l, hreg, (registered_iff hl x).1 hx⟩
  have hfwd : ∀ x, Registered { s with mem := s.mem.set a o } x → Registered s x :=
    fun x hx => ⟨l, hl, (registered_iff hreg x).1 hx⟩
  exact
    { noMarks := by
        apply noMarks_of_forall
        intro x
        show (load (s.mem.set a o) x).marked = false
        by_cases hx : x = a
        · subst hx
          rw [self, hmk]
        · rw [other x hx]
          exact td.noMarks.unmarked_at x
      roots := fun r hr => hback r (td.roots r hr)
      closed := fun x y hx hxy => by
        apply hback
        have hxs := hfwd x hx
        have hxy2 : (load (s.mem.set a o) x).typeFlag = pairType ∧
            ((load (s.mem.set a o) x).head = some y ∨
              (load (s.mem.set a o) x).tail = some y) := hxy
        by_cases hxa : x = a
        · subst hxa
          rw [self] at hxy2
          obtain ⟨h1, h2⟩ := hxy2
          rw [htf] at h1
          rcases h2 with h2 | h2
          · rcases hhd with h | ⟨b, hb, hbr⟩
            · exact td.closed x y hxs ⟨h1, Or.inl (by rw [← h]; exact h2)⟩
            · rw [hb] at h2
              rw [← Option.some.inj h2]
              exact hbr
          · rcases htl with h | ⟨b, hb, hbr⟩
            · exact td.closed x y hxs ⟨h1, Or.inr (by rw [← h]; exact h2)⟩
            · rw [hb] at h2
              rw [← Option.some.inj h2]
              exact hbr
        · rw [other x hxa] at hxy2
          exact td.closed x y hxs hxy2 }

theorem Tidy.tidy_pop {s s2 : vm} {p : Ptr} (td : Tidy s) (hp : pop s = .ok p s2) :
    Tidy s2 ∧ (∀ x, Registered s2 x ↔ Registered s x) ∧ ∀ a, p = some a → Registered s2 a := by
  obtain ⟨hpv, hs, hpos, hle⟩ := pop_ok_inv s s2 p hp
  have hst : s2.stack = s.stack.set (s.stackSize - 1).toNat none := by rw [hs]
  have hsz : s2.stackSize = s.stackSize - 1 := by rw [hs]
  have hmem : s2.mem = s.mem := by rw [hs]
  have hfo : s2.firstObject = s.firstObject := by rw [hs]
  have hreg : ∀ x, Registered s2 x ↔ Registered s x := by
    intro x
    simp only [Registered, Registry, hmem, hfo]
  have hroot : ∀ r, Root s2 r → Root s r := by
    rintro r ⟨i, hi, hsi⟩
    rw [hsz] at hi
    rw [hst, List.getElem?_set_ne (by omega)] at hsi
    exact ⟨i, by omega, hsi⟩
  refine ⟨
    { noMarks := by rw [hmem]; exact td.noMarks
      roots := fun r hr => (hreg r).2 (td.roots r (hroot r hr))
      closed := fun x y hx hxy => by
        rw [hmem] at hxy
        exact (hreg y).2 (td.closed x y ((hreg x).1 hx) hxy) }, hreg, ?_⟩
  intro a hpa
  apply (hreg a).2
  apply td.roots
  refine ⟨(s.stackSize - 1).toNat, by omega, ?_⟩
  have hlt : (s.stackSize - 1).toNat < s.stack.length := by omega
  rw [hpv, List.getD_eq_getElem?_getD, List.getElem?_eq_getElem hlt] at hpa
  rw [List.getElem?_eq_getElem hlt]
  exact congrArg some hpa

theorem Tidy.tidy_push {s s2 : vm} {a : Nat} (td : Tidy s) (ha : Registered s a)
    (hp : push (some a) s = .ok () s2) : Tidy s2 := by
  obtain ⟨hs, hpos, hlt⟩ := push_ok_inv (some a) s s2 hp
  have hst : s2.stack = s.stack.set s.stackSize.toNat (some a) := by rw [hs]
  have hsz : s2.stackSize = s.stackSize + 1 := by rw [hs]
  have hmem : s2.mem = s.mem := by rw [hs]
  have hfo : s2.firstObject = s.firstObject := by rw [hs]
  have hreg : ∀ x, Registered s2 x ↔ Registered s x := by
    intro x
    simp only [Registered, Registry, hmem, hfo]
  exact
    { noMarks := by rw [hmem]; exact td.noMarks
      roots := fun r hr => by
        obtain ⟨i, hi, hsi⟩ := hr
        rw [hsz] at hi
        rw [hst] at hsi
        apply (hreg r).2
        by_cases hx : s.stackSize.toNat = i
        · rw [← hx, List.getElem?_set_self (by omega)] at hsi
          rw [← Option.some.inj (Option.some.inj hsi)]
          exact ha
        · rw [List.getElem?_set_ne hx] at hsi
          exact td.roots r ⟨i, by omega, hsi⟩
      closed := fun x y hx hxy => by
        rw [hmem] at hxy
        exact (hreg y).2 (td.closed x y ((hreg x).1 hx) hxy) }

theorem Tidy.tidy_pop_state {s s2 : vm} (td : Tidy s) (hp : (pop s).state? = some s2) :
    Tidy s2 := by
  cases hr : pop s with
  | ok p s1 =>
    rw [hr] at hp
    injection hp with hp
    subst hp
    exact (td.tidy_pop hr).1
  | panic e s1 =>
    rw [hr] at hp
    injection hp with hp
    subst hp
    rw [(pop_panic_state s s1 e hr).1]
    exact td
  | diverge =>
    rw [hr] at hp
    simp [Outcome.state?] at hp

theorem Tidy.tidy_push_state {s s2 : vm} {a : Nat} (td : Tidy s) (ha : Registered s a)
    (hp : (push (some a) s).state? = some s2) : Tidy s2 := by
  cases hr : push (some a) s with
  | ok u s1 =>
    rw [hr] at hp
    injection hp with hp
    subst hp
    exact td.tidy_push ha hr
  | panic e s1 =>
    rw [hr] at hp
    injection hp with hp
    subst hp
    rw [push_panic_state (some a) s s1 e hr]
    exact td
  | diverge =>
    rw [hr] at hp
    simp [Outcome.state?] at hp

theorem registered_update (s : vm) (a : Nat) (o : object) (ha : a < s.mem.length)
    (hnx : o.next = (load s.mem a).next) (x : Nat) :
    Registered { s with mem := s.mem.set a o } x ↔ Registered s x := by
  have hnext : ∀ y, (load (s.mem.set a o) y).next = (load s.mem y).next := by
    intro y
    by_cases hy : y = a
    · subst hy
      rw [load_set_eq s.mem y o ha, hnx]
    · rw [load_set_ne s.mem a y o (Ne.symm hy)]
  constructor
  · rintro ⟨l, hl, hx⟩
    exact ⟨l, IsChain.congr l _ (fun y _ => (hnext y).symm) hl, hx⟩
  · rintro ⟨l, hl, hx⟩
    exact ⟨l, IsChain.congr l _ (fun y _ => hnext y) hl, hx⟩

theorem Tidy.tidy_newObject {s s1 : vm} {a : Nat} {t : Int} (snd : Sound s) (td : Tidy s)
    (hn : newObject t s = .ok a s1) : Tidy s1 ∧ Registered s1 a := by
  obtain ⟨g, hcase, ha, hs1⟩ := newObject_ok_inv t s a s1 hn
  have hg : Sound g ∧ Tidy g := by
    rcases hcase with ⟨_, h⟩ | ⟨_, h⟩
    · rw [h]
      exact ⟨snd, td⟩
    · exact ⟨snd.sound_gc h, td.tidy_gc snd h⟩
  obtain ⟨l, hl⟩ := hg.1.registry
  obtain ⟨s3, h3, _, hreg3, _⟩ := allocate_spec g t l hg.1.wf hl
  rw [allocate_eq] at h3
  injection h3 with _ h3
  rw [hs1, ha]
  refine ⟨hg.2.tidy_allocate hg.1 t, ⟨_, ?_, List.mem_cons_self _ l⟩⟩
  rw [h3]
  exact hreg3

theorem Tidy.tidy_pushInt {s s2 : vm} (snd : Sound s) (td : Tidy s) (n : Int)
    (hp : (pushInt n s).state? = some s2) : Tidy s2 := by
  obtain ⟨a, s1, hn, snd1, ha, htf, _, _, _⟩ := snd.newObject_ok intType
  obtain ⟨td1, hra⟩ := td.tidy_newObject snd hn
  unfold pushInt at hp
  rw [hn] at hp
  simp only [] at hp
  have td1u := td1.tidy_update snd1 a { load s1.mem a with value := n } ha
    (td1.noMarks.unmarked_at a) rfl rfl (Or.inl rfl) (Or.inl rfl)
  exact td1u.tidy_push_state
    ((registered_update s1 a { load s1.mem a with value := n } ha rfl a).2 hra) hp

theorem Tidy.tidy_pushPair {s s2 : vm} (snd : Sound s) (td : Tidy s)
    (hp : (pushPair s).state? = some s2) : Tidy s2 := by
  obtain ⟨a, s1, hn, snd1, ha, htf, _, _, _, hstk⟩ := snd.newObject_ok pairType
  obtain ⟨td1, hra⟩ := td.tidy_newObject snd hn
  unfold pushPair at hp
  rw [hn] at hp
  simp only [] at hp
  cases hp1 : pop s1 with
  | diverge => rw [hp1] at hp; simp [Outcome.state?] at hp
  | panic e s1p =>
    rw [hp1] at hp
    exact td1.tidy_pop_state (by rw [hp1]; exact hp)
  | ok t v2 =>
    rw [hp1] at hp
    simp only [] at hp
    obtain ⟨snd2, hmem2, _, _, b, hb, hbl, hbc⟩ := snd1.pop_ok hp1
    obtain ⟨td2, hreg2, hrb⟩ := td1.tidy_pop hp1
    obtain ⟨hin1, hsub1⟩ := pop_stack_mem s1 v2 t hp1
    subst hb
    have hba : b < a := hstk _ hin1 b rfl
    have ha2 : a < v2.mem.length := by rw [hmem2]; exact ha
    have snd2u := snd2.update a { load v2.mem a with tail := some b } ha2 rfl rfl (Or.inl rfl)
      (Or.inr ⟨b, rfl, hba, by rw [hmem2]; exact hbc⟩)
    have td2u := td2.tidy_update snd2 a { load v2.mem a with tail := some b } ha2
      (td2.noMarks.unmarked_at a) rfl rfl (Or.inl rfl) (Or.inr ⟨b, rfl, hrb b rfl⟩)
    have hra2 := (registered_update v2 a { load v2.mem a with tail := some b } ha2 rfl a).2
      ((hreg2 a).2 hra)
    cases hp2 : pop { v2 with mem := v2.mem.set a { load v2.mem a with tail := some b } } with
    | diverge => rw [hp2] at hp; simp [Outcome.state?] at hp
    | panic e s2p =>
      rw [hp2] at hp
      exact td2u.tidy_pop_state (by rw [hp2]; exact hp)
    | ok hd v3 =>
      rw [hp2] at hp
      simp only [] at hp
      obtain ⟨snd3, hmem3, _, _, c, hc, hcl, hcc⟩ := snd2u.pop_ok hp2
      obtain ⟨td3, hreg3, hrc⟩ := td2u.tidy_pop hp2
      subst hc
      have hmem3b : v3.mem = v2.mem.set a { load v2.mem a with tail := some b } := hmem3
      have ha3 : a < v3.mem.length := by rw [hmem3b]; simpa using ha2
      have td3u := td3.tidy_update snd3 a { load v3.mem a with head := some c } ha3
        (td3.noMarks.unmarked_at a) rfl rfl (Or.inr ⟨c, rfl, hrc c rfl⟩) (Or.inl rfl)
      have hra3 := (registered_update v3 a { load v3.mem a with head := some c } ha3 rfl a).2
        ((hreg3 a).2 hra2)
      exact td3u.tidy_push_state hra3 hp

theorem Tidy.tidy_add {s s2 : vm} (snd : Sound s) (td : Tidy s)
    (hp : (add s).state? = some s2) : Tidy s2 := by
  unfold add at hp
  cases hp1 : popInt s with
  | diverge => rw [hp1] at hp; simp [Outcome.state?] at hp
  | panic e s1 =>
    rw [hp1] at hp
    exact td.tidy_pop_state (by rw [← popInt_state, hp1]; exact hp)
  | ok r v1 =>
    rw [hp1] at hp
    simp only [] at hp
    have snd1 : Sound v1 := snd.pop_state (by rw [← popInt_state, hp1]; rfl)
    have td1 : Tidy v1 := td.tidy_pop_state (by rw [← popInt_state, hp1]; rfl)
    cases hp2 : popInt v1 with
    | diverge => rw [hp2] at hp; simp [Outcome.state?] at hp
    | panic e s1 =>
      rw [hp2] at hp
      exact td1.tidy_pop_state (by rw [← popInt_state, hp2]; exact hp)
    | ok l v2 =>
      rw [hp2] at hp
      simp only [] at hp
      have snd2 : Sound v2 := snd1.pop_state (by rw [← popInt_state, hp2]; rfl)
      have td2 : Tidy v2 := td1.tidy_pop_state (by rw [← popInt_state, hp2]; rfl)
      exact td2.tidy_pushInt snd2 _ hp

theorem Tidy.tidy_step {s s2 : vm} (snd : Sound s) (td : Tidy s) (op : Op)
    (hal : Facade op s) (hp : (op.run s).state? = some s2) : Tidy s2 := by
  cases op with
  | newObject t => exact absurd hal (by simp [Facade])
  | push p => exact absurd hal (by simp [Facade])
  | pop => exact td.tidy_pop_state (by rw [← state_discard]; exact hp)
  | pushInt n => exact td.tidy_pushInt snd n hp
  | popInt =>
    refine td.tidy_pop_state ?_
    rw [← popInt_state, ← state_discard]
    exact hp
  | pushPair => exact td.tidy_pushPair snd hp
  | popPair =>
    refine td.tidy_pop_state ?_
    rw [← popPair_state, ← state_discard]
    exact hp
  | add => exact td.tidy_add snd hp
  | gc =>
    obtain ⟨s3, hg⟩ := snd.gc_ok
    simp only [Op.run, hg, Outcome.state?] at hp
    exact Option.some.inj hp ▸ td.tidy_gc snd hg

theorem facade_completeRefs (op : Op) (s : vm) (h : Facade op s) : CompleteRefs op s := by
  cases op <;> first | exact trivial | exact absurd h (by simp [Facade])

theorem facade_invariant (cap : Nat) (t : Int) (s : vm) (h : Steps Facade (newVM cap t) s) :
    Sound s ∧ Tidy s := by
  induction h with
  | init =>
    refine ⟨Sound.newVM cap t, ?_⟩
    exact
      { noMarks := fun o ho => by simp [newVM] at ho
        roots := fun a ha => by
          obtain ⟨i, hi, _⟩ := ha
          have h0 : (i : Int) < 0 := hi
          omega
        closed := fun x y hx _ => by
          obtain ⟨l, hl, hm⟩ := hx
          cases l with
          | nil => simp at hm
          | cons b l => exact absurd hl.1 (by simp [newVM]) }
  | step s1 s2 op _ hal hp ih =>
    exact ⟨ih.1.step op (facade_completeRefs op s1 hal) hp, ih.2.tidy_step ih.1 op hal hp⟩

theorem pushPair_ok_spec (v : vm) (a b : Ptr) (h2 : 2 ≤ v.stackSize)
    (hle : v.stackSize ≤ v.stack.length)
    (htop : v.stack[(v.stackSize - 1).toNat]? = some b)
    (hnext : v.stack[(v.stackSize - 2).toNat]? = some a) :
    ∀ c v1, newObject pairType v = .ok c v1 →
      ∃ s2, pushPair v = .ok () s2 ∧
        s2.stackSize = v.stackSize - 1 ∧
        (∀ i : Nat, (i : Int) < v.stackSize - 2 → s2.stack[i]? = v.stack[i]?) ∧
        s2.stack[(v.stackSize - 1).toNat]? = some none ∧
        s2.stack[(v.stackSize - 2).toNat]? = some (some v.mem.length) ∧
        s2.mem.length = v.mem.length + 1 ∧
        (load s2.mem v.mem.length).typeFlag = pairType ∧
        (load s2.mem v.mem.length).head = a ∧
        (load s2.mem v.mem.length).tail = b := by
  intro c v1 hn
  obtain ⟨hc, hlen, hload, hst, hsz, _⟩ := newObject_frame pairType v c v1 hn
  subst hc
  have hcl : v.mem.length < v1.mem.length := by omega
  have n1 : (v.stackSize - 1).toNat < v.stack.length := by omega
  have n2 : (v.stackSize - 2).toNat < v.stack.length := by omega
  have n12 : (v.stackSize - 1).toNat ≠ (v.stackSize - 2).toNat := by omega
  -- first pop
  have hp1 := pop_ok_of v1 (by omega) (by rw [hsz, hst]; exact hle)
  rw [hsz, hst, List.getD_eq_getElem?_getD, htop] at hp1
  simp only [Option.getD_some] at hp1
  -- second pop
  have hp2 := pop_ok_of
    { v1 with
      mem := v1.mem.set v.mem.length { load v1.mem v.mem.length with tail := b },
      stack := v.stack.set (v.stackSize - 1).toNat none,
      stackSize := v.stackSize - 1 }
    (by show 0 < v.stackSize - 1; omega)
    (by show v.stackSize - 1 ≤ ((v.stack.set (v.stackSize - 1).toNat none).length : Int)
        rw [List.length_set]; omega)
  have e21 : (v.stackSize - 1 - 1).toNat = (v.stackSize - 2).toNat := by
    congr 1; omega
  simp only [e21] at hp2
  have hget2 : (v.stack.set (v.stackSize - 1).toNat none).getD (v.stackSize - 2).toNat none
      = a := by
    rw [List.getD_eq_getElem?_getD, List.getElem?_set_ne n12, hnext]
    rfl
  rw [hget2] at hp2
  -- push
  have hpu := push_ok_of (some v.mem.length)
    { v1 with
      mem := (v1.mem.set v.mem.length { load v1.mem v.mem.length with tail := b }).set
        v.mem.length
        { load (v1.mem.set v.mem.length { load v1.mem v.mem.length with tail := b })
            v.mem.length with head := a },
      stack := (v.stack.set (v.stackSize - 1).toNat none).set (v.stackSize - 2).toNat none,
      stackSize := v.stackSize - 1 - 1 }
    (by show 0 ≤ v.stackSize - 1 - 1; omega)
    (by show v.stackSize - 1 - 1 <
          (((v.stack.set (v.stackSize - 1).toNat none).set
            (v.stackSize - 2).toNat none).length : Int)
        rw [List.length_set, List.length_set]; omega)
  simp only [e21] at hpu
  refine ⟨?s, ?run, ?props⟩
  case run =>
    unfold pushPair
    rw [hn]
    simp only []
    rw [hp1]
    simp only []
    rw [hp2]
    simp only []
    exact hpu
  case props =>
      have hl1 := load_set_eq v1.mem v.mem.length
        { load v1.mem v.mem.length with tail := b } hcl
      have hl2 := load_set_eq
        (v1.mem.set v.mem.length { load v1.mem v.mem.length with tail := b }) v.mem.length
        { load (v1.mem.set v.mem.length { load v1.mem v.mem.length with tail := b })
            v.mem.length with head := a } (by rw [List.length_set]; exact hcl)
      refine ⟨?_, ?_, ?_, ?_, ?_, ?_, ?_, ?_⟩
      · show v.stackSize - 1 - 1 + 1 = v.stackSize - 1
        omega
      · intro i hi
        show (((v.stack.set (v.stackSize - 1).toNat none).set (v.stackSize - 2).toNat none).set
          (v.stackSize - 2).toNat (some v.mem.length))[i]? = v.stack[i]?
        rw [List.getElem?_set_ne (by omega), List.getElem?_set_ne (by omega),
          List.getElem?_set_ne (by omega)]
      · show (((v.stack.set (v.stackSize - 1).toNat none).set (v.stackSize - 2).toNat none).set
          (v.stackSize - 2).toNat (some v.mem.length))[(v.stackSize - 1).toNat]? = some none
        rw [List.getElem?_set_ne (Ne.symm n12), List.getElem?_set_ne (Ne.symm n12)]
        exact List.getElem?_set_self n1
      · show (((v.stack.set (v.stackSize - 1).toNat none).set (v.stackSize - 2).toNat none).set
          (v.stackSize - 2).toNat (some v.mem.length))[(v.stackSize - 2).toNat]?
            = some (some v.mem.length)
        exact List.getElem?_set_self (by rw [List.length_set, List.length_set]; exact n2)
      · show ((v1.mem.set v.mem.length _).set v.mem.length _).length = v.mem.length + 1
        rw [List.length_set, List.length_set, hlen]
      · show (load ((v1.mem.set v.mem.length _).set v.mem.length _) v.mem.length).typeFlag
          = pairType
        rw [hl2, hl1, hload]
      · show (load ((v1.mem.set v.mem.length _).set v.mem.length _) v.mem.length).head = a
        rw [hl2]
      · show (load ((v1.mem.set v.mem.length _).set v.mem.length _) v.mem.length).tail = b
        rw [hl2, hl1]

/-! ## Root stack -/

/-- C14. Root-stack failure conditions. In every state `push` panics with `StackOverflow`
exactly when `stackSize >= len(stack)`, and `pop` panics with `StackUnderflow` exactly when
`stackSize = 0`. With the stack size within `0 .. len(stack)`, `push` otherwise stores the
reference at index `stackSize` and increments `stackSize`, and `pop` otherwise returns the
reference in slot `stackSize - 1` (clearing that slot) and decrements `stackSize`. -/
theorem push_pop_failure_conditions (v : vm) (p : Ptr) :
    ((∃ s, push p v = .panic .stackOverflow s) ↔ (v.stack.length : Int) ≤ v.stackSize) ∧
    (0 ≤ v.stackSize → v.stackSize < v.stack.length →
      push p v = .ok () { v with stack := v.stack.set v.stackSize.toNat p,
                                 stackSize := v.stackSize + 1 }) ∧
    ((∃ s, pop v = .panic .stackUnderflow s) ↔ v.stackSize = 0) ∧
    (v.stackSize ≠ 0 → 0 ≤ v.stackSize → v.stackSize ≤ v.stack.length →
      pop v = .ok (v.stack.getD (v.stackSize - 1).toNat none)
        { v with stack := v.stack.set (v.stackSize - 1).toNat none,
                 stackSize := v.stackSize - 1 }) := by
  refine ⟨⟨?_, ?_⟩, ?_, ⟨?_, ?_⟩, ?_⟩
  · rintro ⟨s, hs⟩
    rcases push_cases p v with ⟨_, h2⟩ | ⟨h1, _⟩ | ⟨h1, _⟩
    · exact h2
    · rw [h1] at hs; simp at hs
    · rw [h1] at hs; simp at hs
  · intro h
    refine ⟨v, ?_⟩
    unfold push
    rw [if_pos h]
  · exact fun h0 h1 => push_ok_of p v h0 h1
  · rintro ⟨s, hs⟩
    rcases pop_cases v with ⟨_, h2⟩ | ⟨h1, _⟩ | ⟨h1, _⟩
    · exact h2
    · rw [h1] at hs; simp at hs
    · rw [h1] at hs; simp at hs
  · intro h
    refine ⟨v, ?_⟩
    unfold pop
    rw [if_pos h]
  · exact fun h0 h1 h2 => pop_ok_of v (by omega) h2

theorem push_pop_failure_conditions_witness :
    (0 : Int) ≤ pairVM.stackSize ∧ pairVM.stackSize < pairVM.stack.length ∧
    push (some 0) pairVM =
      .ok () { pairVM with stack := [some 2, some 0, none, none], stackSize := 2 } ∧
    pop pairVM =
      .ok (some 2) { pairVM with stack := [none, none, none, none], stackSize := 0 } :=
  ⟨by decide, by decide,
    (push_pop_failure_conditions pairVM (some 0)).2.1 (by decide) (by decide),
    (push_pop_failure_conditions pairVM (some 0)).2.2.2 (by decide) (by decide) (by decide)⟩

/-- C20. Push/pop round trip. In a state with `0 <= stackSize < len(stack)` whose slot at
index `stackSize` is `nil` (as every slot at an index `>= stackSize` is), `push(x)` returns,
the `pop` that follows returns `x`, and the state it leaves is the state before the push. -/
theorem push_pop_round_trip (v : vm) (x : Ptr) (h0 : 0 ≤ v.stackSize)
    (h1 : v.stackSize < v.stack.length)
    (hnil : ∀ i : Nat, v.stackSize ≤ i → i < v.stack.length → v.stack[i]? = some none) :
    ∃ s, push x v = .ok () s ∧ pop s = .ok x v := by
  have hlt : v.stackSize.toNat < v.stack.length := by omega
  refine ⟨_, push_ok_of x v h0 h1, ?_⟩
  have hslot := hnil v.stackSize.toNat (by omega) hlt
  rcases pop_cases { v with stack := v.stack.set v.stackSize.toNat x,
                            stackSize := v.stackSize + 1 } with ⟨_, h3⟩ | ⟨_, h3⟩ | ⟨h3, _⟩
  · simp only at h3; omega
  · simp only [List.length_set] at h3; omega
  · rw [h3]
    have e1 : (v.stackSize + 1 - 1).toNat = v.stackSize.toNat := by
      congr 1; omega
    simp only [e1]
    have e2 : (v.stack.set v.stackSize.toNat x).getD v.stackSize.toNat none = x := by
      simp [List.getD_eq_getElem?_getD, hlt]
    have e3 : (v.stack.set v.stackSize.toNat x).set v.stackSize.toNat none = v.stack := by
      rw [List.set_set]
      apply List.ext_getElem?
      intro i
      by_cases hi : i = v.stackSize.toNat
      · subst hi
        rw [hslot]
        simp [hlt]
      · rw [List.getElem?_set_ne (Ne.symm hi)]
    have e4 : v.stackSize + 1 - 1 = v.stackSize := by omega
    rw [e2, e3, e4]

theorem push_pop_round_trip_witness :
    ∃ s, push (some 1) pairVM = .ok () s ∧ pop s = .ok (some 1) pairVM :=
  push_pop_round_trip pairVM (some 1) (by decide) (by decide) (by
    intro i hi1 hi2
    have h1 : 1 ≤ i := by
      have : (1 : Int) ≤ i := hi1
      omega
    have h2 : i < 4 := hi2
    have : i = 1 ∨ i = 2 ∨ i = 3 := by omega
    rcases this with rfl | rfl | rfl <;> rfl)

/-! ## Allocation and typed operations -/

/-- C12. Allocation contract. `newObject(t)` returns when the count differs from the threshold
and, when the count equals the threshold, whenever the collection it triggers returns. When it
returns, with `g` the state after that collection (the starting state if none was triggered),
the reference returned is the first address beyond the objects allocated so far; the object
there has `typeFlag = t`, `value = 0`, `head = nil`, `tail = nil`, `marked = false` and its
`next` link is the registry head of `g`; it is the new registry head, in front of the registry
of `g`; all other objects are as in `g`; `numObjects` is the count of `g` plus one; the root
stack is the one before the call. -/
theorem newObject_contract (v : vm) (t : Int) :
    (v.numObjects ≠ v.maxObjects → ∃ s2, newObject t v = .ok v.mem.length s2) ∧
    (v.numObjects = v.maxObjects → ∀ g, gc v = .ok () g →
      ∃ s2, newObject t v = .ok v.mem.length s2) ∧
    ∀ a s2, newObject t v = .ok a s2 →
      ∃ g, ((v.numObjects ≠ v.maxObjects ∧ g = v) ∨
          (v.numObjects = v.maxObjects ∧ gc v = .ok () g)) ∧
        a = v.mem.length ∧ s2.mem.length = v.mem.length + 1 ∧
        load s2.mem a = ⟨false, t, 0, none, none, g.firstObject⟩ ∧
        s2.firstObject = some a ∧
        (∀ x, x < a → load s2.mem x = load g.mem x) ∧
        (WF v → ∀ l, Registry g l → Registry s2 (a :: l)) ∧
        s2.numObjects = g.numObjects + 1 ∧ s2.maxObjects = g.maxObjects ∧
        s2.stack = v.stack ∧ s2.stackSize = v.stackSize := by
  refine ⟨fun hne => ⟨_, by rw [newObject_of_ne t v hne, allocate_eq]⟩, fun heq g hg => ?_,
    fun a s2 h => ?_⟩
  · refine ⟨allocated t g, ?_⟩
    rw [newObject_of_eq t v heq, hg]
    simp only []
    rw [allocate_eq, (gc_frame v g hg).2.2.1]
  · obtain ⟨g, hg, ha, hs⟩ := newObject_ok_inv t v a s2 h
    obtain ⟨ha2, hlen, _, hst, hsz, hfirst⟩ := newObject_frame t v a s2 h
    have hgl : g.mem.length = v.mem.length := by rw [← ha, ha2]
    have wfg : WF v → WF g := by
      intro wf
      rcases hg with ⟨_, rfl⟩ | ⟨_, hgc⟩
      · exact wf
      · exact wf.after_gc hgc
    subst hs
    refine ⟨g, hg, ha2, hlen, ?_, hfirst, ?_, ?_, rfl, rfl, hst, hsz⟩
    · rw [ha]
      exact load_append_length _ _
    · intro x hx
      exact load_append_lt _ _ x (by omega)
    · intro wf l hl
      obtain ⟨s1, hal, _, hreg, _⟩ := allocate_spec g t l (wfg wf) hl
      rw [allocate_eq] at hal
      injection hal with _ hs1
      rw [← hs1] at hreg
      rw [ha]
      exact hreg

theorem newObject_contract_witness :
    thresholdVM.numObjects = thresholdVM.maxObjects ∧
    gc thresholdVM = .ok () { demoCollectedVM with maxObjects := 6 } ∧
    ∃ s2, newObject pairType thresholdVM = .ok 4 s2 ∧
      load s2.mem 4 = ⟨false, pairType, 0, none, none, some 2⟩ ∧
      s2.firstObject = some 4 ∧ Registry s2 [4, 2, 1, 0] ∧ s2.numObjects = 4 ∧
      s2.stack = thresholdVM.stack ∧ s2.stackSize = thresholdVM.stackSize := by
  obtain ⟨s2, hs2⟩ := (newObject_contract thresholdVM pairType).2.1 rfl _ rfl
  refine ⟨rfl, rfl, s2, hs2, ?_⟩
  obtain ⟨g, hg, _, _, hload, hfirst, _, hreg, hnum, _, hst, hsz⟩ :=
    (newObject_contract thresholdVM pairType).2.2 _ s2 hs2
  have hgeq : g = { demoCollectedVM with maxObjects := 6 } := by
    rcases hg with ⟨h1, _⟩ | ⟨_, h2⟩
    · exact absurd rfl h1
    · have e : gc thresholdVM = .ok () { demoCollectedVM with maxObjects := 6 } := rfl
      rw [e] at h2
      injection h2 with _ h3
      exact h3.symm
  subst hgeq
  exact ⟨hload, hfirst, hreg (by decide) [2, 1, 0] (by decide), hnum, hst, hsz⟩

/-- C15. Typed pops. In a state with `0 < stackSize <= len(stack)` whose top slot holds a
reference to the object at `a`: when that object has `typeFlag = intType`, `popInt` pops the
slot and returns its `value` field, and it panics with `TypeMismatch` exactly when the type is
not `intType`; when the object has `typeFlag = pairType`, `popPair` pops the slot and returns
the reference, and it panics with `TypeMismatch` exactly when the type is not `pairType`.
After a returning `pushInt(n)`, `popPair` panics with `TypeMismatch` and `popInt` returns
`n`. -/
theorem typed_pops (v : vm) (a : Nat) (h0 : 0 < v.stackSize) (h1 : v.stackSize ≤ v.stack.length)
    (htop : v.stack[(v.stackSize - 1).toNat]? = some (some a)) :
    ((load v.mem a).typeFlag = intType →
      popInt v = .ok (load v.mem a).value
        { v with stack := v.stack.set (v.stackSize - 1).toNat none,
                 stackSize := v.stackSize - 1 }) ∧
    ((∃ s, popInt v = .panic .typeMismatch s) ↔ (load v.mem a).typeFlag ≠ intType) ∧
    ((load v.mem a).typeFlag = pairType →
      popPair v = .ok (some a)
        { v with stack := v.stack.set (v.stackSize - 1).toNat none,
                 stackSize := v.stackSize - 1 }) ∧
    ((∃ s, popPair v = .panic .typeMismatch s) ↔ (load v.mem a).typeFlag ≠ pairType) ∧
    ∀ w n s1, pushInt n w = .ok () s1 →
      (∃ s2, popPair s1 = .panic .typeMismatch s2) ∧ ∃ s2, popInt s1 = .ok n s2 := by
  have hpop : pop v = .ok (some a)
      { v with stack := v.stack.set (v.stackSize - 1).toNat none,
               stackSize := v.stackSize - 1 } := by
    have h := pop_ok_of v h0 h1
    rw [List.getD_eq_getElem?_getD, htop] at h
    exact h
  refine ⟨?_, ⟨?_, ?_⟩, ?_, ⟨?_, ?_⟩, ?_⟩
  · intro ht
    unfold popInt
    rw [hpop]
    simp only []
    rw [if_pos ht]
  · rintro ⟨s, hs⟩ ht
    unfold popInt at hs
    rw [hpop] at hs
    simp only [] at hs
    rw [if_pos ht] at hs
    simp at hs
  · intro ht
    refine ⟨{ v with
        stack := v.stack.set (v.stackSize - 1).toNat none,
        stackSize := v.stackSize - 1 }, ?_⟩
    unfold popInt
    rw [hpop]
    simp only []
    rw [if_neg ht]
  · intro ht
    unfold popPair
    rw [hpop]
    simp only []
    rw [if_pos ht]
  · rintro ⟨s, hs⟩ ht
    unfold popPair at hs
    rw [hpop] at hs
    simp only [] at hs
    rw [if_pos ht] at hs
    simp at hs
  · intro ht
    refine ⟨{ v with
        stack := v.stack.set (v.stackSize - 1).toNat none,
        stackSize := v.stackSize - 1 }, ?_⟩
    unfold popPair
    rw [hpop]
    simp only []
    rw [if_neg ht]
  · intro w n s1 hp
    unfold pushInt at hp
    cases hn : newObject intType w with
    | panic e s => rw [hn] at hp; simp at hp
    | diverge => rw [hn] at hp; simp at hp
    | ok b v1 =>
      rw [hn] at hp
      simp only [] at hp
      obtain ⟨_, hlen, hload, _, _, _⟩ := newObject_frame intType w b v1 hn
      have hb : b < v1.mem.length := by
        have := (newObject_frame intType w b v1 hn).1
        omega
      rcases push_cases (some b)
          { v1 with mem := v1.mem.set b { load v1.mem b with value := n } }
        with ⟨h3, _⟩ | ⟨h3, _⟩ | ⟨h3, hpos, hlt⟩
      · rw [h3] at hp; simp at hp
      · rw [h3] at hp; simp at hp
      · rw [h3] at hp
        injection hp with _ hs1
        have hpos' : 0 ≤ v1.stackSize := hpos
        have hlt' : v1.stackSize < v1.stack.length := hlt
        have hlt2 : v1.stackSize.toNat < v1.stack.length := by omega
        have hmem : s1.mem = v1.mem.set b { load v1.mem b with value := n } := by rw [← hs1]
        have hsz : s1.stackSize = v1.stackSize + 1 := by rw [← hs1]
        have hstk : s1.stack = v1.stack.set v1.stackSize.toNat (some b) := by rw [← hs1]
        have hlb : load s1.mem b = { load v1.mem b with value := n } := by
          rw [hmem]
          exact load_set_eq _ _ _ hb
        have htf : (load s1.mem b).typeFlag = intType := by
          rw [hlb, hload]
        have hval : (load s1.mem b).value = n := by rw [hlb]
        have hpop1 : pop s1 = .ok (some b)
            { s1 with stack := s1.stack.set (s1.stackSize - 1).toNat none,
                      stackSize := s1.stackSize - 1 } := by
          have h := pop_ok_of s1 (by omega) (by rw [hsz, hstk, List.length_set]; omega)
          rw [List.getD_eq_getElem?_getD] at h
          have e : (s1.stackSize - 1).toNat = v1.stackSize.toNat := by
            rw [hsz]; congr 1; omega
          have hget : s1.stack[(s1.stackSize - 1).toNat]? = some (some b) := by
            rw [e, hstk]
            simp [hlt2]
          rw [hget] at h
          exact h
        constructor
        · refine ⟨{ s1 with
              stack := s1.stack.set (s1.stackSize - 1).toNat none,
              stackSize := s1.stackSize - 1 }, ?_⟩
          unfold popPair
          rw [hpop1]
          simp only []
          rw [if_neg (by rw [htf]; decide)]
        · refine ⟨{ s1 with
              stack := s1.stack.set (s1.stackSize - 1).toNat none,
              stackSize := s1.stackSize - 1 }, ?_⟩
          unfold popInt
          rw [hpop1]
          simp only []
          rw [if_pos htf, hval]

theorem typed_pops_witness :
    (0 : Int) < pairVM.stackSize ∧ pairVM.stackSize ≤ pairVM.stack.length ∧
    pairVM.stack[(pairVM.stackSize - 1).toNat]? = some (some 2) ∧
    (load pairVM.mem 2).typeFlag = pairType ∧
    popPair pairVM =
      .ok (some 2) { pairVM with stack := [none, none, none, none], stackSize := 0 } ∧
    ∃ s, popInt pairVM = .panic .typeMismatch s :=
  ⟨by decide, by decide, rfl, rfl,
    (typed_pops pairVM 2 (by decide) (by decide) rfl).2.2.1 rfl,
    (typed_pops pairVM 2 (by decide) (by decide) rfl).2.1.2 (by decide)⟩

/-- C13. Operand order of `pushPair`. In a state with `2 <= stackSize <= len(stack)` whose top
slot holds `b` and whose next slot holds `a`, `pushPair` returns whenever its allocation
returns (also when that allocation triggers a collection) and panics only where the
allocation does. When it returns, `stackSize` is one less, the slots below the two operands are
unchanged, the vacated top slot is `nil`, and the new top slot holds a reference to a newly
allocated object with `typeFlag = pairType`, `head = a` and `tail = b`. -/
theorem pushPair_operands (v : vm) (a b : Ptr) (h2 : 2 ≤ v.stackSize)
    (hle : v.stackSize ≤ v.stack.length)
    (htop : v.stack[(v.stackSize - 1).toNat]? = some b)
    (hnext : v.stack[(v.stackSize - 2).toNat]? = some a) :
    (∀ c v1, newObject pairType v = .ok c v1 → ∃ s2, pushPair v = .ok () s2) ∧
    (∀ e s, pushPair v = .panic e s → newObject pairType v = .panic e s) ∧
    ∀ s2, pushPair v = .ok () s2 →
      s2.stackSize = v.stackSize - 1 ∧
      (∀ i : Nat, (i : Int) < v.stackSize - 2 → s2.stack[i]? = v.stack[i]?) ∧
      s2.stack[(v.stackSize - 1).toNat]? = some none ∧
      s2.stack[(v.stackSize - 2).toNat]? = some (some v.mem.length) ∧
      s2.mem.length = v.mem.length + 1 ∧
      (load s2.mem v.mem.length).typeFlag = pairType ∧
      (load s2.mem v.mem.length).head = a ∧
      (load s2.mem v.mem.length).tail = b := by
  have key := pushPair_ok_spec v a b h2 hle htop hnext
  refine ⟨fun c v1 hn => ?_, fun e s hp => ?_, fun s2 hp => ?_⟩
  · obtain ⟨s2, hs2, _⟩ := key c v1 hn
    exact ⟨s2, hs2⟩
  · cases hn : newObject pairType v with
    | ok c v1 =>
      obtain ⟨s2, hs2, _⟩ := key c v1 hn
      rw [hs2] at hp
      simp at hp
    | panic e1 s1 =>
      unfold pushPair at hp
      rw [hn] at hp
      simp only [] at hp
      injection hp with h1 h2
      rw [h1, h2]
    | diverge =>
      unfold pushPair at hp
      rw [hn] at hp
      simp at hp
  · cases hn : newObject pairType v with
    | ok c v1 =>
      obtain ⟨s3, hs3, hrest⟩ := key c v1 hn
      rw [hs3] at hp
      injection hp with _ he
      subst he
      exact hrest
    | panic e1 s1 =>
      unfold pushPair at hp
      rw [hn] at hp
      simp at hp
    | diverge =>
      unfold pushPair at hp
      rw [hn] at hp
      simp at hp

theorem pushPair_operands_witness :
    twoIntsVM.numObjects = twoIntsVM.maxObjects ∧
    ∃ s2, pushPair twoIntsVM = .ok () s2 ∧ s2.stackSize = 1 ∧
      s2.stack = [some 2, none, none, none] ∧
      (load s2.mem 2).typeFlag = pairType ∧
      (load s2.mem 2).head = some 0 ∧ (load s2.mem 2).tail = some 1 := by
  have h := (pushPair_operands twoIntsVM (some 0) (some 1) (by decide) (by decide) rfl rfl).2.2
    _ (rfl : pushPair twoIntsVM = .ok () _)
  exact ⟨rfl, _, rfl, h.1, rfl, h.2.2.2.2.2.1, h.2.2.2.2.2.2.1, h.2.2.2.2.2.2.2⟩


/-- C17. Sweep is an order-preserving filter. For every state with valid pointers whose
registry is the finite `next`-chain `l`, `sweep` never panics, and it returns exactly when
`String` returns on every unmarked object of `l` (it prints each object it frees). When it
returns, the registry afterwards is exactly the list of the marked objects of `l` in the
order they have in `l` (a sub-sequence of `l` that holds an object if and only if it was in
`l` and marked), `firstObject` is the first marked object of `l`, or `nil` when there is
none, and `numObjects` has decreased by exactly the number of unmarked objects of `l`. -/
theorem sweep_is_filter (v : vm) (l : List Nat) (wf : WF v) (hreg : Registry v l) :
    ((∃ v2, sweep v = .ok () v2) ↔
      ∀ x ∈ l, (load v.mem x).marked = false → Printable v.mem x) ∧
    (∀ e s, sweep v ≠ .panic e s) ∧
    ∀ v2, sweep v = .ok () v2 →
      Registry v2 (markedOf v.mem l) ∧
      (markedOf v.mem l).Sublist l ∧
      (∀ a, a ∈ markedOf v.mem l ↔ a ∈ l ∧ (load v.mem a).marked = true) ∧
      v2.firstObject = ((markedOf v.mem l).head?) ∧
      v2.numObjects = v.numObjects - ((unmarkedOf v.mem l).length : Int) := by
  have hpr_of : ∀ v2, sweep v = .ok () v2 →
      ∀ x ∈ l, (load v.mem x).marked = false → Printable v.mem x :=
    fun v2 hs => sweepLoop_printable l _ v _ none () v2 hreg (IsChain.nodup l _ hreg)
      (by simp) hs
  refine ⟨⟨fun ⟨v2, hs⟩ => hpr_of v2 hs, fun hpr => ?_⟩,
    fun e s => sweepLoop_ne_panic _ v _ _ e s, fun v2 hs => ?_⟩
  · obtain ⟨v2, hs, _⟩ := sweep_post v l wf.1 wf.2.2 hreg hpr
    exact ⟨v2, hs⟩
  · obtain ⟨v3, hs3, post⟩ := sweep_post v l wf.1 wf.2.2 hreg (hpr_of v2 hs)
    rw [hs] at hs3
    injection hs3 with _ h32
    subst h32
    have hch : IsChain v2.mem v2.firstObject (markedOf v.mem l) := post.chain
    refine ⟨hch, List.filter_sublist l, fun a => ?_, ?_, post.numObjects_eq⟩
    · simp [markedOf, List.mem_filter]
    · cases hk : markedOf v.mem l with
      | nil =>
        rw [hk] at hch
        exact hch
      | cons a k =>
        rw [hk] at hch
        exact hch.1

theorem sweep_is_filter_witness :
    WF markedDemoVM ∧ Registry markedDemoVM [3, 2, 1, 0] ∧
    ∃ v2, sweep markedDemoVM = .ok () v2 ∧ Registry v2 [2, 1, 0] ∧
      v2.firstObject = some 2 ∧ v2.numObjects = 3 := by
  refine ⟨by decide, by decide, ?_⟩
  obtain ⟨v2, hs⟩ :=
    (sweep_is_filter markedDemoVM [3, 2, 1, 0] (by decide) (by decide)).1.2 (by decide)
  obtain ⟨hr, _, _, hf, hn⟩ :=
    (sweep_is_filter markedDemoVM [3, 2, 1, 0] (by decide) (by decide)).2.2 v2 hs
  exact ⟨v2, hs, hr, hf, hn⟩

/-- C18, as stated, fails in the code. From `newVM(256, 10)`, after `11 + n` calls of
`newObject(intType)` with nothing pushed on the root stack (a state reachable through the
operations), `numObjects = 1 + n` and `maxObjects = 0`: the collection run by the eleventh call
frees everything and sets the threshold to `2 * 0`, the guard `numObjects == maxObjects` is
false from then on, and the count exceeds the threshold and grows without any bound. -/
theorem heap_growth_unbounded (n : Nat) :
    ∃ s, newObjects (List.replicate (11 + n) intType) (newVM maxStackSize initialGCThreshold)
        = .ok () s ∧
      Steps AnyOp (newVM maxStackSize initialGCThreshold) s ∧
      s.numObjects = 1 + n ∧ s.maxObjects = 0 ∧ ¬ s.numObjects ≤ s.maxObjects := by
  obtain ⟨s11, h11, hn11, hm11⟩ : ∃ s11,
      newObjects (List.replicate 11 intType) (newVM maxStackSize initialGCThreshold)
        = .ok () s11 ∧ s11.numObjects = 1 ∧ s11.maxObjects = 0 := ⟨_, rfl, rfl, rfl⟩
  obtain ⟨s, hs, hn, hm⟩ := newObjects_counts (List.replicate n intType) s11 (by
    intro j _
    rw [hn11, hm11]
    omega)
  have hrun : newObjects (List.replicate (11 + n) intType)
      (newVM maxStackSize initialGCThreshold) = .ok () s := by
    rw [List.replicate_add, newObjects_append _ _ _ _ h11]
    exact hs
  refine ⟨s, hrun, steps_of_newObjects _ _ _ Steps.init hrun, ?_, ?_, ?_⟩
  · rw [hn, hn11]
    simp
  · rw [hm, hm11]
  · rw [hn, hn11, hm, hm11]
    simp
    omega

/-- C16. Root-stack invariant. In every state reachable from `newVM(cap, t)` through `push`,
`pop`, `pushInt`, `popInt`, `pushPair`, `popPair`, `add`, `newObject` and `gc`, operations
that panic included, `0 <= stackSize <= cap`, the stack slice still has length `cap`, and every
slot at an index `>= stackSize` holds `nil`; in particular a returning `pop` leaves `nil` in
the slot it vacates. -/
theorem stack_invariant (cap : Nat) (t : Int) (s : vm) (h : Steps AnyOp (newVM cap t) s) :
    0 ≤ s.stackSize ∧ s.stackSize ≤ cap ∧ s.stack.length = cap ∧
    (∀ i : Nat, s.stackSize ≤ i → i < cap → s.stack[i]? = some none) ∧
    ∀ p s2, pop s = .ok p s2 →
      s2.stackSize = s.stackSize - 1 ∧ s2.stack[(s.stackSize - 1).toNat]? = some none := by
  obtain ⟨U, hU⟩ := trace_of_steps h
  have ok : StackOK cap s := (StackOK.of_newVM cap t).of_prims (prims_of_trace hU)
  refine ⟨ok.size_nonneg, ok.size_le, ok.length_eq, ok.above_nil, fun p s2 hp => ?_⟩
  have ok2 : StackOK cap s2 := ok.of_pop hp
  obtain ⟨_, hs, hpos, _⟩ := pop_ok_inv s s2 p hp
  have hsz : s2.stackSize = s.stackSize - 1 := by rw [hs]
  have hle := ok.size_le
  refine ⟨hsz, ok2.above_nil _ (by rw [hsz]; omega) (by omega)⟩

theorem stack_invariant_witness :
    Steps AnyOp (newVM 4 10) pairVM ∧ pairVM.stackSize = 1 ∧
    pairVM.stack = [some 2, none, none, none] ∧
    ∀ i : Nat, pairVM.stackSize ≤ i → i < 4 → pairVM.stack[i]? = some none :=
  have h : Steps AnyOp (newVM 4 10) pairVM :=
    Steps.step _ _ .pushPair
      (Steps.step _ _ (.pushInt 2)
        (Steps.step _ _ (.pushInt 1) Steps.init trivial rfl) trivial rfl) trivial rfl
  ⟨h, rfl, rfl, (stack_invariant 4 10 pairVM h).2.2.2.1⟩

/-- C11. Registry bookkeeping invariant. Memory holds every object that `newObject` has
created, at the addresses below `mem.length`, and `Trace` records with a reachable state the
list `U` of the objects that a sweep has unlinked on the way to it. Every state reachable from
`newVM` through the operations (panicking ones included) has such a history, and in each of
them the `next`-chain from `firstObject` is a finite list `l` that ends in `nil` and holds no
object twice, an object is in `l` exactly when it has been created and no sweep has unlinked
it, and `numObjects` is the length of `l`. -/
theorem registry_bookkeeping (cap : Nat) (t : Int) (s : vm)
    (h : Steps AnyOp (newVM cap t) s) :
    (∃ U, Trace (newVM cap t) s U) ∧
    ∀ U, Trace (newVM cap t) s U →
      ∃ l, Registry s l ∧ l.Nodup ∧ (∀ a, a ∈ l ↔ a < s.mem.length ∧ a ∉ U) ∧
        s.numObjects = l.length := by
  refine ⟨trace_of_steps h, fun U hU => ?_⟩
  have b : Book s ([] ++ U) := (Book.at_newVM cap t).after_prims (prims_of_trace hU)
  rw [List.nil_append] at b
  obtain ⟨l, hreg, hiff, hnum⟩ := b.registry
  exact ⟨l, hreg, IsChain.nodup l _ hreg, hiff, hnum⟩

theorem registry_bookkeeping_witness :
    Steps AnyOp (newVM 2 2) sweptVM ∧ Trace (newVM 2 2) sweptVM [1, 0] ∧
    ∃ l, Registry sweptVM l ∧ l.Nodup ∧ (∀ a, a ∈ l ↔ a < 3 ∧ a ∉ [1, 0]) ∧
      sweptVM.numObjects = l.length :=
  have hs : Steps AnyOp (newVM 2 2) sweptVM :=
    Steps.step _ _ (.newObject intType)
      (Steps.step _ _ (.newObject intType)
        (Steps.step _ _ .pop
          (Steps.step _ _ (.pushInt 1) Steps.init trivial rfl) trivial rfl) trivial rfl)
      trivial rfl
  have t1 : Trace (newVM 2 2)
      { mem := [⟨false, 0, 1, none, none, none⟩], stack := [some 0, none], stackSize := 1,
        firstObject := some 0, numObjects := 1, maxObjects := 2 } [] :=
    Trace.step (newVM 2 2) _ [] (.pushInt 1) Trace.init trivial rfl
  have t2 : Trace (newVM 2 2)
      { mem := [⟨false, 0, 1, none, none, none⟩], stack := [none, none], stackSize := 0,
        firstObject := some 0, numObjects := 1, maxObjects := 2 } [] :=
    Trace.step _ _ [] .pop t1 trivial rfl
  have t3 : Trace (newVM 2 2)
      { mem := [⟨false, 0, 1, none, none, none⟩, ⟨false, 0, 0, none, none, some 0⟩],
        stack := [none, none], stackSize := 0,
        firstObject := some 1, numObjects := 2, maxObjects := 2 } [] :=
    Trace.step _ _ [] (.newObject intType) t2 trivial rfl
  have ht : Trace (newVM 2 2) sweptVM [1, 0] :=
    Trace.step _ _ [] (.newObject intType) t3 trivial rfl
  ⟨hs, ht, (registry_bookkeeping 2 2 sweptVM hs).2 [1, 0] ht⟩

/-- C19. No dangling roots under the facade. In every state reachable from `newVM` through
`pushInt`, `popInt`, `pushPair`, `popPair`, `pop`, `add` and `gc` only (operations that panic
included), every occupied root-stack slot holds a non-nil reference, and every object
reachable from the root stack is in the allocation registry, is unmarked, and has non-nil
`head` and `tail` if it is a pair. In particular `pushPair` on two operands `hd` (below) and
`tl` (top) returns, also when its allocation triggers a collection, and afterwards both
operands are still in the registry and are the `head` and `tail` of the new pair on top of
the stack. -/
theorem facade_no_dangling_roots (cap : Nat) (t : Int) (s : vm)
    (h : Steps Facade (newVM cap t) s) :
    (∀ i : Nat, (i : Int) < s.stackSize → ∃ a, s.stack[i]? = some (some a)) ∧
    (∀ x, Reachable s x →
      Registered s x ∧ (load s.mem x).marked = false ∧
      ((load s.mem x).typeFlag = pairType →
        (load s.mem x).head ≠ none ∧ (load s.mem x).tail ≠ none)) ∧
    ∀ hd tl, 2 ≤ s.stackSize →
      s.stack[(s.stackSize - 2).toNat]? = some (some hd) →
      s.stack[(s.stackSize - 1).toNat]? = some (some tl) →
      ∃ s2, pushPair s = .ok () s2 ∧ Registered s2 hd ∧ Registered s2 tl ∧
        s2.stack[(s2.stackSize - 1).toNat]? = some (some s.mem.length) ∧
        (load s2.mem s.mem.length).head = some hd ∧
        (load s2.mem s.mem.length).tail = some tl := by
  obtain ⟨snd, td⟩ := facade_invariant cap t s h
  refine ⟨fun i hi => ?_, fun x hx => ?_, fun hd tl h2 hnext htop => ?_⟩
  · obtain ⟨a, ha, _⟩ := snd.roots i hi
    exact ⟨a, ha⟩
  · refine ⟨td.reachable x hx, td.noMarks.unmarked_at x, fun hpair => ?_⟩
    obtain ⟨r, ⟨i, hi, hs⟩, hp⟩ := hx
    obtain ⟨a, ha, hc⟩ := snd.roots i hi
    rw [hs] at ha
    have hra : r = a := Option.some.inj (Option.some.inj ha)
    subst hra
    have hcx := snd.reach_complete r hc x hp
    constructor
    · intro hn
      exact hcx ⟨hpair, Or.inl hn⟩
    · intro hn
      exact hcx ⟨hpair, Or.inr hn⟩
  · obtain ⟨a, s1, hn, _⟩ := snd.newObject_ok pairType
    obtain ⟨s2, hs2, hsz, _, _, hnew, _, htf, hhd, htl⟩ :=
      pushPair_ok_spec s (some hd) (some tl) h2 snd.size_le htop hnext a s1 hn
    have h2s : Steps Facade (newVM cap t) s2 :=
      Steps.step s s2 .pushPair h trivial (by
        show (pushPair s).state? = some s2
        rw [hs2]
        rfl)
    obtain ⟨_, td2⟩ := facade_invariant cap t s2 h2s
    have hroot : Root s2 s.mem.length :=
      ⟨(s.stackSize - 2).toNat, by rw [hsz]; omega, hnew⟩
    have hreg := td2.roots _ hroot
    have hidx : (s2.stackSize - 1).toNat = (s.stackSize - 2).toNat := by
      rw [hsz]
      congr 1
      omega
    refine ⟨s2, hs2, td2.closed _ hd hreg ⟨htf, Or.inl hhd⟩,
      td2.closed _ tl hreg ⟨htf, Or.inr htl⟩, ?_, hhd, htl⟩
    rw [hidx]
    exact hnew

theorem facade_no_dangling_roots_witness :
    Steps Facade (newVM 4 2) twoIntsVM ∧ twoIntsVM.numObjects = twoIntsVM.maxObjects ∧
    ∃ s2, pushPair twoIntsVM = .ok () s2 ∧ Registered s2 0 ∧ Registered s2 1 ∧
      s2.stack[(s2.stackSize - 1).toNat]? = some (some 2) ∧
      (load s2.mem 2).head = some 0 ∧ (load s2.mem 2).tail = some 1 :=
  have h : Steps Facade (newVM 4 2) twoIntsVM :=
    Steps.step _ _ (.pushInt 2)
      (Steps.step _ _ (.pushInt 1) Steps.init trivial rfl) trivial rfl
  ⟨h, rfl, (facade_no_dangling_roots 4 2 twoIntsVM h).2.2 0 1 (by decide) rfl rfl⟩

end MarkSweep
